import Mathlib

/-!
# StoryVisualizer — verification of the scene-placement / assembly / generation pipeline

Shallow embedding of the core of the repository:

* `components/ArticlePreview.tsx` (shipped as `src/unnamed/part_000`):
  `findBeforeSectionOneIndex` and the document-assembly effect
  (placeholder-token injection, markdown rendering, token substitution);
* `services/geminiService.ts`: `smartSanitizePrompt` and
  `generateImageForScene` (the content-policy retry ladder);
* `App.tsx`: `startProcessing` (batch loop with quota interrupt / resume)
  and `handleRegenerateScene`.

Strings are modelled as `List Char` (JavaScript strings are sequences of
code units; every string in play here is within the BMP, so a char list is
a faithful rendering).  JavaScript numbers are modelled as `Nat`/`Int` with
exact arithmetic; the only float operation in scope, `Math.floor(len * 0.15)`,
is modelled as `len * 15 / 100` (exact rational floor — for the magnitudes a
browser text area can hold the double rounding agrees with the exact value).

The source file `part_000` is stored double-encoded: the engine sees the
mojibake characters, so the embedded pattern literals below reproduce those
exact code points (e.g. `"第一章"` appears to the engine as
`ç¬¬ä¸€ç«` followed by U+00A0).
-/

set_option maxHeartbeats 1000000
set_option maxRecDepth 8000

abbrev Str := List Char

/-! ## JavaScript character classes and primitive string operations -/

/-- JS `\w` (no `u` flag): `[A-Za-z0-9_]`. -/
def isWordChar (c : Char) : Bool :=
  ('a' ≤ c && c ≤ 'z') || ('A' ≤ c && c ≤ 'Z') || ('0' ≤ c && c ≤ '9') || c = '_'

/-- The CJK range `一`–`龥` used by the fuzzy-match word splitter. -/
def isCjkChar (c : Char) : Bool :=
  ⟨0x4e00, by decide⟩ ≤ c && c ≤ ⟨0x9fa5, by decide⟩

/-- JS `\s` / `String.prototype.trim` whitespace (WhiteSpace ∪ LineTerminator). -/
def isJsWhitespace (c : Char) : Bool :=
  c = ' ' || c = '\t' || c = '\n' || c = '\r' ||
  c = ⟨0x0b, by decide⟩ || c = ⟨0x0c, by decide⟩ ||
  c = ⟨0xa0, by decide⟩ || c = ⟨0x1680, by decide⟩ ||
  (⟨0x2000, by decide⟩ ≤ c && c ≤ ⟨0x200a, by decide⟩) ||
  c = ⟨0x2028, by decide⟩ || c = ⟨0x2029, by decide⟩ ||
  c = ⟨0x202f, by decide⟩ || c = ⟨0x205f, by decide⟩ ||
  c = ⟨0x3000, by decide⟩ || c = ⟨0xfeff, by decide⟩

/-- `String.prototype.toLowerCase`, restricted to the ASCII and Latin-1
ranges (every cased character appearing in the embedded pattern literals
and in the claims' inputs lies there). -/
def toLowerChar (c : Char) : Char :=
  if 'A' ≤ c && c ≤ 'Z' then Char.ofNat (c.toNat + 32)
  else if ⟨0xc0, by decide⟩ ≤ c && c ≤ ⟨0xde, by decide⟩ && c ≠ ⟨0xd7, by decide⟩ then
    Char.ofNat (c.toNat + 32)
  else c

def lowerStr (s : Str) : Str := s.map toLowerChar

/-- `String.prototype.trim`. -/
def jsTrim (s : Str) : Str :=
  ((s.dropWhile isJsWhitespace).reverse.dropWhile isJsWhitespace).reverse

/-- Substring occurrence test: `pat` occurs somewhere in `s`
(`String.prototype.includes`). -/
def containsSub (pat : Str) : Str → Bool
  | [] => pat.isEmpty
  | c :: cs => pat.isPrefixOf (c :: cs) || containsSub pat cs

/-- `pat` occurs in `s` at position `p`. -/
def occursAt (pat s : Str) (p : Nat) : Bool := pat.isPrefixOf (s.drop p)

/-- Scan helper for `indexOfFrom`: first position `≥ i` (in the original
coordinates) at which `pat` is a prefix of the remaining suffix `s`. -/
def scanIndexOf (pat : Str) : Str → Nat → Option Nat
  | s, i =>
    if pat.isPrefixOf s then some i
    else
      match s with
      | [] => none
      | _ :: cs => scanIndexOf pat cs (i + 1)

/-- `s.indexOf(pat, start)` (JS semantics: `start` clamped to `[0, length]`,
an empty pattern is found at the clamped start; `none` models `-1`). -/
def indexOfFrom (s pat : Str) (start : Nat) : Option Nat :=
  let st := min start s.length
  scanIndexOf pat (s.drop st) st

/-- `s.slice(0, i) + ins + s.slice(i)` for `0 ≤ i` (`take`/`drop` clamp at
the length exactly as `slice` does). -/
def insertAt (s : Str) (i : Nat) (ins : Str) : Str := s.take i ++ ins ++ s.drop i

/-- JS `text.split('\n')`. -/
def splitOnNl : Str → List Str
  | [] => [[]]
  | c :: cs =>
    if c = '\n' then [] :: splitOnNl cs
    else
      match splitOnNl cs with
      | [] => [[c]]
      | l :: ls => (c :: l) :: ls

/-! ## `findBeforeSectionOneIndex` (ArticlePreview, part_000 lines 1082–1131) -/

/-- Drop up to `n` leading `'#'` characters (the greedy `#{0,3}` prefix; the
subsequent regex alternatives all fail on a residual `'#'`, so greedy
matching without backtracking is equivalent). -/
def dropHashes : Nat → Str → Str
  | 0, s => s
  | n + 1, s =>
    match s with
    | '#' :: rest => dropHashes n rest
    | _ => s

/-- `(\s|\.|$)` after the digit in `/^#{0,3}\s*0?1(\s|\.|$)/`. -/
def sectionOneEnd (s : Str) : Bool :=
  match s with
  | [] => true
  | c :: _ => isJsWhitespace c || c = '.'

/-- `\b` after a word character: next char absent or not `\w`. -/
def boundaryAfter (s : Str) : Bool :=
  match s with
  | [] => true
  | c :: _ => !isWordChar c

/-- `/^#{0,3}\s*0?1(\s|\.|$)/` on the residual after the shared
`#{0,3}\s*` prefix: optional `'0'`, `'1'`, then whitespace/period/end. -/
def patNumberOne (r : Str) : Bool :=
  match r with
  | '0' :: '1' :: rest => sectionOneEnd rest
  | '1' :: rest => sectionOneEnd rest
  | _ => false

/-- `section\s*1\b` / `chapter\s*1\b` core: literal word, `\s*`, `'1'`, `\b`. -/
def patWordOne (w : Str) (r : Str) : Bool :=
  if w.isPrefixOf r then
    match (r.drop w.length).dropWhile isJsWhitespace with
    | '1' :: rest => boundaryAfter rest
    | _ => false
  else false

/-- The mojibake rendering of `第一章` as stored in the source file
(`ç¬¬ä¸€ç«` + U+00A0). -/
def chapterOneCn : Str :=
  ['ç', '¬', '¬', 'ä', '¸', '€', 'ç', '«', ' ']

/-- The mojibake rendering of `正文` as stored in the source file. -/
def mainTextCn : Str :=
  ['æ', '­', '£', 'æ', '–', '‡']

/-- A trimmed, lower-cased line is a "section one" header: the disjunction of
the five regexes at part_000 lines 1094–1098 (their common `^#{0,3}\s*`
prefix factored out; both quantifiers are determinate here because a
residual `'#'`/whitespace character fails every continuation). -/
def isSectionOneLine (t : Str) : Bool :=
  let r := (dropHashes 3 t).dropWhile isJsWhitespace
  patNumberOne r || patWordOne "section".data r || patWordOne "chapter".data r ||
  chapterOneCn.isPrefixOf r || mainTextCn.isPrefixOf r

/-- The line scan of `findBeforeSectionOneIndex`: cumulative offset, each
line accounting for `line.length + 1` (the `'\n'` consumed by `split`);
a matching line is accepted only when its offset exceeds 50. -/
def findSectionOneLoop : List Str → Nat → Option Nat
  | [], _ => none
  | line :: rest, idx =>
    if isSectionOneLine (lowerStr (jsTrim line)) && decide (idx > 50) then some idx
    else findSectionOneLoop rest (idx + line.length + 1)

/-- The mojibake renderings of the three intro markers
(`'## 引言'`, `'## 序章'`, `'## introduction'`). -/
def introMarkers : List Str :=
  [('#' :: '#' :: ' ' :: ['å', '¼', '•', 'è', '¨', '€']),
   ('#' :: '#' :: ' ' :: ['å', 'º', 'ç', '«', ' ']),
   "## introduction".data]

/-- The head of the slice matches `##\s` (used at a `/^##\s/m` anchor). -/
def headerMatchAt (s : Str) : Bool :=
  match s with
  | '#' :: '#' :: c :: _ => isJsWhitespace c
  | _ => false

/-- Positions `> 0` of `/^##\s/m` matches: a match just after a `'\n'`. -/
def headerScanAux : Str → Nat → Option Nat
  | [], _ => none
  | c :: cs, i =>
    if c = '\n' && headerMatchAt cs then some (i + 1)
    else headerScanAux cs (i + 1)

/-- `/^##\s/m.exec(slice)?.index`: the multiline anchor matches at the very
start of the slice or right after a `'\n'`. -/
def headerScan (s : Str) : Option Nat :=
  if headerMatchAt s then some 0 else headerScanAux s 0

/-- The intro-marker fallback (part_000 lines 1113–1127): for each marker in
order, find its first occurrence in the lower-cased text; if a `/^##\s/m`
match exists after it, return the absolute match position. -/
def introFallbackLoop (text lowerText : Str) : List Str → Option Nat
  | [] => none
  | m :: ms =>
    match indexOfFrom lowerText m 0 with
    | some startIdx =>
      let searchFrom := startIdx + m.length
      match headerScan (text.drop searchFrom) with
      | some q => some (searchFrom + q)
      | none => introFallbackLoop text lowerText ms
    | none => introFallbackLoop text lowerText ms

/-- `findBeforeSectionOneIndex` (part_000 lines 1082–1131). -/
def findBeforeSectionOneIndex (text : Str) : Nat :=
  match findSectionOneLoop (splitOnNl text) 0 with
  | some idx => idx
  | none =>
    match introFallbackLoop text (lowerStr text) introMarkers with
    | some o => o
    | none => text.length * 15 / 100

/-! ## Claim C5: specification-side rendering of the section-boundary search -/

/-- Each line of the document paired with its cumulative character offset
(the offset advances by `line.length + 1`, counting the `'\n'` consumed by
the split). -/
def lineOffsetPairs : List Str → Nat → List (Nat × Str)
  | [], _ => []
  | l :: ls, o => (o, l) :: lineOffsetPairs ls (o + l.length + 1)

/-- Spec side, phase 1: the offset of the first line that, after trimming
and lower-casing, matches a section-one header pattern and whose offset
exceeds 50. -/
def firstSectionOneOffset (text : Str) : Option Nat :=
  ((lineOffsetPairs (splitOnNl text) 0).find? fun p =>
    isSectionOneLine (lowerStr (jsTrim p.2)) && decide (p.1 > 50)).map Prod.fst

/-- Spec side: index of the first `/^##\s/m` anchor in a slice — the least
position that either is the start of the slice or follows a `'\n'` and
carries `##` + whitespace. -/
def firstHeaderInSlice (s : Str) : Option Nat :=
  (List.range (s.length + 1)).find? fun q =>
    (decide (q = 0) || decide (s.get? (q - 1) = some '\n')) && headerMatchAt (s.drop q)

/-- Spec side, phase 2: the first localized Introduction marker (in the
fixed order) that is followed by a 2nd-level heading anchor, mapped to the
absolute offset of that anchor. -/
def introFallbackSpec (text : Str) : Option Nat :=
  (introMarkers.filterMap fun m =>
    (indexOfFrom (lowerStr text) m 0).bind fun i =>
      (firstHeaderInSlice (text.drop (i + m.length))).map fun q => i + m.length + q).head?

lemma find?_map_comp (f : α → β) (p : β → Bool) :
    ∀ l : List α, (l.map f).find? p = (l.find? (fun a => p (f a))).map f := by
  intro l
  induction l with
  | nil => rfl
  | cons a l ih =>
    by_cases h : p (f a) = true
    · simp [List.find?, h]
    · simp only [Bool.not_eq_true] at h
      simp [List.find?, h, ih]

lemma headerScanAux_spec : ∀ (s : Str) (i : Nat),
    headerScanAux s i =
      ((List.range s.length).find? fun k =>
        decide (s.get? k = some '\n') && headerMatchAt (s.drop (k + 1))).map
        (fun k => k + i + 1) := by
  intro s
  induction s with
  | nil => intro i; rfl
  | cons c cs ih =>
    intro i
    rw [headerScanAux]
    by_cases h : (c = '\n' && headerMatchAt cs) = true
    · have hc : c = '\n' := by
        have h' := h
        simp only [Bool.and_eq_true, decide_eq_true_eq] at h'
        exact h'.1
      have hm : headerMatchAt cs = true := by
        have h' := h
        simp only [Bool.and_eq_true, decide_eq_true_eq] at h'
        exact h'.2
      rw [List.length_cons, List.range_succ_eq_map]
      simp [h, List.find?, hc, hm]
    · simp only [h, if_false]
      rw [List.length_cons, List.range_succ_eq_map, List.find?]
      have h0 : (decide ((c :: cs).get? 0 = some '\n') &&
          headerMatchAt ((c :: cs).drop (0 + 1))) = false := by
        simp only [List.get?_cons_zero, List.drop_succ_cons, List.drop_zero]
        by_cases hc : c = '\n'
        · subst hc
          simp only [Bool.not_eq_true] at h
          simpa using h
        · simp [hc]
      rw [h0, find?_map_comp]
      have hpred : (fun k => decide ((c :: cs).get? (Nat.succ k) = some '\n') &&
            headerMatchAt ((c :: cs).drop (Nat.succ k + 1)))
          = (fun k => decide (cs.get? k = some '\n') && headerMatchAt (cs.drop (k + 1))) := by
        funext k
        simp [List.get?_cons_succ, List.drop_succ_cons]
      rw [hpred, ih (i + 1)]
      cases hfind : (List.range cs.length).find? (fun k =>
          decide (cs.get? k = some '\n') && headerMatchAt (cs.drop (k + 1))) with
      | none => simp
      | some k => simp; omega

lemma headerScan_eq_firstHeaderInSlice (s : Str) :
    headerScan s = firstHeaderInSlice s := by
  rw [headerScan, firstHeaderInSlice, List.range_succ_eq_map, List.find?]
  by_cases h : headerMatchAt s = true
  · simp [h]
  · have h0 : ((decide ((0 : Nat) = 0) || decide (s.get? (0 - 1) = some '\n')) &&
        headerMatchAt (s.drop 0)) = false := by
      simp only [List.drop_zero, Bool.and_eq_false_iff]
      right
      simpa using h
    rw [h0]
    simp only [h, if_false]
    rw [headerScanAux_spec, find?_map_comp]
    have hpred : (fun k => (decide (Nat.succ k = 0) ||
          decide (s.get? (Nat.succ k - 1) = some '\n')) && headerMatchAt (s.drop (Nat.succ k)))
        = (fun k => decide (s.get? k = some '\n') && headerMatchAt (s.drop (k + 1))) := by
      funext k
      simp
    rw [hpred]
    cases hfind : (List.range s.length).find? (fun k =>
        decide (s.get? k = some '\n') && headerMatchAt (s.drop (k + 1))) with
    | none => simp
    | some k => simp

lemma findSectionOneLoop_eq (ls : List Str) (idx : Nat) :
    findSectionOneLoop ls idx =
      ((lineOffsetPairs ls idx).find? fun p =>
        isSectionOneLine (lowerStr (jsTrim p.2)) && decide (p.1 > 50)).map Prod.fst := by
  induction ls generalizing idx with
  | nil => rfl
  | cons line rest ih =>
    rw [findSectionOneLoop, lineOffsetPairs, List.find?]
    by_cases h : (isSectionOneLine (lowerStr (jsTrim line)) && decide (idx > 50)) = true
    · simp [h]
    · simp only [Bool.not_eq_true] at h
      simp [h, ih]

lemma introFallbackLoop_eq (text lower : Str) (ms : List Str) :
    introFallbackLoop text lower ms =
      (ms.filterMap fun m =>
        (indexOfFrom lower m 0).bind fun i =>
          (firstHeaderInSlice (text.drop (i + m.length))).map fun q => i + m.length + q).head? := by
  induction ms with
  | nil => rfl
  | cons m ms ih =>
    rw [introFallbackLoop, List.filterMap]
    cases hidx : indexOfFrom lower m 0 with
    | none => simpa [hidx] using ih
    | some i =>
      simp only
      rw [headerScan_eq_firstHeaderInSlice]
      cases hh : firstHeaderInSlice (text.drop (i + m.length)) with
      | none => simpa [hidx, hh] using ih
      | some q => simp [hidx, hh]

/-- **C5.** `findBeforeSectionOneIndex` returns: the cumulative offset
(counting one `'\n'` per split line) of the first line that, trimmed and
lower-cased, matches a section-one header pattern and whose offset exceeds
50; failing that, the absolute offset of the first 2nd-level heading anchor
(`/^##\s/m`) after a localized Introduction marker; failing both,
`⌊0.15 · length⌋`. -/
theorem findBeforeSectionOneIndex_correct (text : Str) :
    findBeforeSectionOneIndex text =
      (firstSectionOneOffset text).getD
        ((introFallbackSpec text).getD (text.length * 15 / 100)) := by
  rw [findBeforeSectionOneIndex, firstSectionOneOffset, introFallbackSpec,
    ← findSectionOneLoop_eq, ← introFallbackLoop_eq]
  cases h1 : findSectionOneLoop (splitOnNl text) 0 with
  | some idx => simp
  | none =>
    cases h2 : introFallbackLoop text (lowerStr text) introMarkers with
    | some o => simp
    | none => simp

/-! ## Scenes and placeholder tokens -/

inductive SceneStatus
  | pending
  | generating
  | completed
  | error
deriving DecidableEq, Repr

/-- `GeneratedScene` (types.ts). -/
structure Scene where
  id : Nat
  quote : Str
  contextDescription : Str := []
  visualPrompt : Str := []
  reasoning : Str := []
  imageUrl : Option Str := none
  status : SceneStatus
deriving DecidableEq, Repr

def digitChar (n : Nat) : Char := Char.ofNat (48 + n)

/-- Decimal rendering of a natural number (the template-literal
stringification `${scene.id}`); fuel-structured so that it reduces in the
kernel, with fuel `n` always sufficient since `n / 10 < n`. -/
def natToDecimalGo : Nat → Nat → Str → Str
  | 0, n, acc => digitChar n :: acc
  | fuel + 1, n, acc =>
    if n < 10 then digitChar n :: acc
    else natToDecimalGo fuel (n / 10) (digitChar (n % 10) :: acc)

def natToDecimal (n : Nat) : Str := natToDecimalGo n n []

/-- The placeholder token `<!--IMAGE_SCENE_${id}-->`. -/
def tokenStr (id : Nat) : Str :=
  "<!--IMAGE_SCENE_".data ++ natToDecimal id ++ "-->".data

/-- Stable ascending insertion by `id`: extensionally equal to the required
stable behaviour of `Array.prototype.sort` with comparator `a.id - b.id`. -/
def insertByIdStable (a : Scene) : List Scene → List Scene
  | [] => [a]
  | b :: l => if b.id < a.id then b :: insertByIdStable a l else a :: b :: l

def sortByIdStable : List Scene → List Scene
  | [] => []
  | a :: l => insertByIdStable a (sortByIdStable l)

/-! ## The fuzzy anchor matcher (part_000 lines 1238–1250)

The pattern is `w₁.{0,50}w₂…` built from the first five word tokens of the
quote.  Each token consists solely of `\w`/CJK characters, on which the
metacharacter-escaping `replace` is the identity, so the tokens are
embedded as literals.  `.` (no `s` flag) excludes line terminators; the
greedy bounded gap backtracks from the longest feasible width. -/

def isFuzzyWordChar (c : Char) : Bool := isWordChar c || isCjkChar c

/-- JS `.` (no `s` flag): any char except `\n`, `\r`, U+2028, U+2029. -/
def isDotChar (c : Char) : Bool :=
  !(c = '\n' || c = '\r' || c = ⟨0x2028, by decide⟩ || c = ⟨0x2029, by decide⟩)

/-- Split on `/[^\w一-龥]+/`: maximal separator runs, preserving the
empty fields JS produces at the ends.  `some cur` means a field is being
accumulated (reversed); `none` means the scan is inside a separator run. -/
def splitFuzzyGo : Str → Option Str → List Str
  | [], some cur => [cur.reverse]
  | [], none => [[]]
  | c :: cs, some cur =>
    if isFuzzyWordChar c then splitFuzzyGo cs (some (c :: cur))
    else cur.reverse :: splitFuzzyGo cs none
  | c :: cs, none =>
    if isFuzzyWordChar c then splitFuzzyGo cs (some [c])
    else splitFuzzyGo cs none

def splitFuzzy (s : Str) : List Str := splitFuzzyGo s (some [])

/-- Try gap widths `g, g-1, …, 0` (longest first, i.e. greedy `.{0,50}`)
before handing over to the continuation for the remaining words. -/
def tryGapsGo (next : Str → Option Nat) (rest : Str) : Nat → Option Nat
  | 0 => next rest
  | g + 1 =>
    match next (rest.drop (g + 1)) with
    | some n => some (g + 1 + n)
    | none => tryGapsGo next rest g

/-- Match `w₁.{0,50}w₂…` at the head of `s`, returning the matched length
(greedy gaps, full backtracking). -/
def matchSeq : List Str → Str → Option Nat
  | [], _ => some 0
  | [w], s => if w.isPrefixOf s then some w.length else none
  | w :: w2 :: ws, s =>
    if w.isPrefixOf s then
      match tryGapsGo (matchSeq (w2 :: ws)) (s.drop w.length)
          (min 50 ((s.drop w.length).takeWhile isDotChar).length) with
      | some n => some (w.length + n)
      | none => none
    else none

/-- `new RegExp(pattern, 'm').exec(slice)`: leftmost match position and
length. -/
def fuzzyExecAux (words : List Str) : Str → Nat → Option (Nat × Nat)
  | s, i =>
    match matchSeq words s with
    | some n => some (i, n)
    | none =>
      match s with
      | [] => none
      | _ :: cs => fuzzyExecAux words cs (i + 1)

def fuzzyExec (words : List Str) (s : Str) : Option (Nat × Nat) :=
  fuzzyExecAux words s 0

/-! ## Status fragments (part_000 lines 1168–1216): template segments, byte-exact -/

-- itplC holes: ['imageUrl', 'id', 'id', 'id']
def itplC_0 : Str := ("\n<div class=\"my-8 relative group rounded-lg overflow-hidden shadow-lg\">\n    <img src=\"").data
def itplC_1 : Str := ("\" alt=\"Scene ").data
def itplC_2 : Str := ("\" class=\"w-full h-auto block\" />\n    <div class=\"absolute inset-0 bg-black/50 opacity-0 group-hover:opacity-100 transition-opacity flex items-center justify-center\">\n        <button data-id=\"").data
def itplC_3 : Str := ("\" class=\"regen-btn bg-white/90 hover:bg-white text-indigo-900 font-bold py-2 px-6 rounded-full shadow-lg transform hover:scale-105 transition-all\">\n            \u011F\u0178\u201D\u201E \u00E9\u2021\u00E6\u2013\u00B0\u00E7\u201D\u0178\u00E6\u02C6\u00E6\u00AD\u00A4\u00E5\u203A\u00BE\n        </button>\n    </div>\n    <div class=\"absolute bottom-2 right-2 text-xs text-white/50 opacity-0 group-hover:opacity-100 bg-black/50 px-2 rounded\">\n       \u00E5\u0153\u00BA\u00E6\u2122\u00AF ").data
def itplC_4 : Str := ("\n    </div>\n</div>").data

-- ctplC holes: ['imageUrl']
def ctplC_0 : Str := ("\n<div style=\"margin: 2em 0; text-align: center;\">\n    <img src=\"").data
def ctplC_1 : Str := ("\" alt=\"Illustration\" style=\"max-width: 100%; height: auto; border-radius: 8px; box-shadow: 0 4px 10px rgba(0,0,0,0.1); display: block; margin: 0 auto;\" />\n</div>").data

-- itplE holes: ['id']
def itplE_0 : Str := ("\n<div class=\"my-8 p-8 border-2 border-red-200 bg-red-50 rounded-lg flex flex-col items-center justify-center text-center\">\n    <div class=\"text-red-500 font-bold mb-2\">\u00E7\u201D\u0178\u00E6\u02C6\u00E5\u00A4\u00B1\u00E8\u00B4\u00A5</div>\n    <div class=\"text-xs text-gray-500 mb-4 max-w-md\">AI \u00E6\u2014\u00A0\u00E6\u00B3\u2022\u00E7\u201D\u0178\u00E6\u02C6\u00E6\u00AD\u00A4\u00E5\u0153\u00BA\u00E6\u2122\u00AF\u00EF\u00BC\u02C6\u00E5\u00AF\u00E8\u0192\u00BD\u00E6\u02DC\u00AF\u00E7\u201D\u00B1\u00E4\u00BA\u00E5\u00AE\u2030\u00E5\u2026\u00A8\u00E7\u00AD\u2013\u00E7\u2022\u00A5\u00E6\u02C6\u2013 API \u00E9\u201D\u2122\u00E8\u00AF\u00AF\u00EF\u00BC\u2030\u00E3\u20AC\u201A</div>\n    <button data-id=\"").data
def itplE_1 : Str := ("\" class=\"regen-btn bg-red-100 hover:bg-red-200 text-red-700 font-bold py-2 px-4 rounded transition-colors\">\n        \u00E2\u0161\u00A0\u00EF\u00B8 \u00E9\u2021\u00E8\u00AF\u2022\u00E7\u201D\u0178\u00E6\u02C6\n    </button>\n</div>").data

-- itplG holes: ['id']
def itplG_0 : Str := ("\n<div class=\"my-8 p-12 border-2 border-indigo-100 bg-indigo-50 rounded-lg flex flex-col items-center justify-center animate-pulse\">\n    <div class=\"w-8 h-8 border-4 border-indigo-500 border-t-transparent rounded-full animate-spin mb-4\"></div>\n    <div class=\"text-indigo-800 font-medium\">\u00E6\u00AD\u00A3\u00E5\u0153\u00A8\u00E7\u201D\u0178\u00E6\u02C6\u00E5\u0153\u00BA\u00E6\u2122\u00AF ").data
def itplG_1 : Str := ("...</div>\n</div>").data

/-- JS truthiness of `scene.imageUrl` (`undefined` and `""` are falsy). -/
def sceneHasImage (sc : Scene) : Bool :=
  match sc.imageUrl with
  | some u => !u.isEmpty
  | none => false

/-- The interactive (in-app) markup for a scene's token. -/
def interactiveFragment (sc : Scene) : Str :=
  if sc.status == SceneStatus.completed && sceneHasImage sc then
    itplC_0 ++ sc.imageUrl.getD [] ++ itplC_1 ++ natToDecimal sc.id ++ itplC_2 ++
      natToDecimal sc.id ++ itplC_3 ++ natToDecimal sc.id ++ itplC_4
  else if sc.status == SceneStatus.error then
    itplE_0 ++ natToDecimal sc.id ++ itplE_1
  else if sc.status == SceneStatus.generating then
    itplG_0 ++ natToDecimal sc.id ++ itplG_1
  else []

/-- The export (clean) markup for a scene's token. -/
def cleanFragment (sc : Scene) : Str :=
  if sc.status == SceneStatus.completed && sceneHasImage sc then
    ctplC_0 ++ sc.imageUrl.getD [] ++ ctplC_1
  else []

/-! ## Document assembly (the `useEffect` of ArticlePreview, lines 1150–1305) -/

inductive InsBranch
  | sectionOne
  | exact
  | fuzzy
  | fallback
deriving DecidableEq, Repr

/-- Ghost record of one insertion: scene id, offset used, working-text
length before the splice, and which placement rule fired. -/
structure Placement where
  sceneId : Nat
  pos : Int
  lenBefore : Nat
  branch : InsBranch
deriving DecidableEq, Repr

structure AsmSt where
  text : Str
  lastInsertIndex : Nat
  insertionOffset : Nat
  placements : List Placement
deriving DecidableEq, Repr

/-- `"\n" + token + "\n"`, the spliced block. -/
def nlWrap (tok : Str) : Str := '\n' :: (tok ++ ['\n'])

def asmInsert (st : AsmSt) (sc : Scene) (tok : Str) (pos : Nat) (br : InsBranch) : AsmSt :=
  { text := insertAt st.text pos (nlWrap tok)
    lastInsertIndex := pos + tok.length + 2
    insertionOffset := st.insertionOffset + (tok.length + 2)
    placements := st.placements ++ [⟨sc.id, (pos : Int), st.text.length, br⟩] }

/-- The proportional-distribution fallback (lines 1261–1276).  Arithmetic is
over `Int` exactly as the JS floats compute it (`Math.floor` of a division
with positive denominator is `Int.fdiv`); the splice position `target.toNat`
coincides with the JS slice once `0 ≤ target` (proved below). -/
def asmFallback (validLen index : Nat) (st : AsmSt) (sc : Scene) (tok : Str) : AsmSt :=
  let currentLength := st.text.length
  let remainingSpace : Int := (currentLength : Int) - st.lastInsertIndex
  let scenesRemaining : Int := (validLen : Int) - index
  let chunk : Int := remainingSpace.fdiv (scenesRemaining + 1)
  let target0 : Int := (st.lastInsertIndex : Int) + chunk
  let target : Int :=
    match indexOfFrom st.text ['\n'] target0.toNat with
    | some nn => if (nn : Int) - target0 < 500 then (nn : Int) else target0
    | none => target0
  { text := insertAt st.text target.toNat (nlWrap tok)
    lastInsertIndex := target.toNat + tok.length + 2
    insertionOffset := st.insertionOffset + (tok.length + 2)
    placements := st.placements ++ [⟨sc.id, target, st.text.length, InsBranch.fallback⟩] }

/-- One iteration of the `validScenes.forEach` placement loop. -/
def asmStep (validLen sectionOneStart index : Nat) (st : AsmSt) (sc : Scene) : AsmSt :=
  let tok := tokenStr sc.id
  let quote := jsTrim sc.quote
  if sc.id == 1 then
    -- scene 1 strictly uses sectionOneStart (+ the accumulated offset);
    -- `matchIndex < 0` is unreachable (both summands are nonnegative), and
    -- an overshoot falls back to the 15% mark of the current text
    let m0 := sectionOneStart + st.insertionOffset
    let m1 := if m0 > st.text.length then st.text.length * 15 / 100 else m0
    asmInsert st sc tok m1 InsBranch.sectionOne
  else
    match indexOfFrom st.text quote st.lastInsertIndex with
    | some i => asmInsert st sc tok (i + quote.length) InsBranch.exact
    | none =>
      let words := (splitFuzzy quote).filter fun w => decide (w.length > 1)
      match words with
      | [] => asmFallback validLen index st sc tok
      | _ :: _ =>
        match fuzzyExec (words.take 5) (st.text.drop st.lastInsertIndex) with
        | some (p, n) => asmInsert st sc tok (st.lastInsertIndex + p + n) InsBranch.fuzzy
        | none => asmFallback validLen index st sc tok

def asmFoldAux (validLen s1 : Nat) : List Scene → Nat → AsmSt → AsmSt
  | [], _, st => st
  | sc :: rest, index, st =>
    asmFoldAux validLen s1 rest (index + 1) (asmStep validLen s1 index st sc)

/-- `scenes.filter(s => s.status !== 'pending').sort((a,b) => a.id - b.id)`. -/
def validScenesOf (scenes : List Scene) : List Scene :=
  sortByIdStable (scenes.filter fun s => !(s.status == SceneStatus.pending))

/-- Token injection over the whole document: rebuilds from `fullText` with
`lastInsertIndex = 0`, `insertionOffset = 0`, the section-one boundary
precomputed against the original text. -/
def assembleMarkdown (fullText : Str) (scenes : List Scene) : AsmSt :=
  let valid := validScenesOf scenes
  asmFoldAux valid.length (findBeforeSectionOneIndex fullText) valid 0 ⟨fullText, 0, 0, []⟩

/-! ## Token substitution (lines 1280–1298)

The pattern is `(<p>\s*)?token(\s*<\/p>)?` with flag `g`.  The embedded
matcher reproduces the backtracking of this concrete pattern: the optional
groups are deterministic because the token begins with a non-whitespace
`'<'` that cannot continue a `\s*` run.  JS `$`-substitution patterns in
the replacement string are inert for the fragments produced above (they
never contain `'$'` except through an image URL; the theorems that touch
substitution assume URLs free of the relevant characters). -/

/-- Length of the `(<p>\s*)?tok(\s*<\/p>)?` match anchored at the head of
`s`, if any. -/
def matchWrappedAt (tok : Str) (s : Str) : Option Nat :=
  let core : Str → Nat → Option Nat := fun s1 pre =>
    if tok.isPrefixOf s1 then
      let after := s1.drop tok.length
      let wsLen := (after.takeWhile isJsWhitespace).length
      if "</p>".data.isPrefixOf (after.drop wsLen) then some (pre + tok.length + wsLen + 4)
      else some (pre + tok.length)
    else none
  if "<p>".data.isPrefixOf s then
    let s1 := s.drop 3
    let wsLen := (s1.takeWhile isJsWhitespace).length
    match core (s1.drop wsLen) (3 + wsLen) with
    | some n => some n
    | none => core s 0
  else core s 0

/-- Global left-to-right replacement of the wrapped-token pattern, fuelled
by the input length (each step consumes at least one character, so the fuel
never runs out; for a nonempty `tok` every match consumes at least one
character). -/
def replaceWrappedGo (tok repl : Str) : Nat → Str → Str
  | 0, s => s
  | fuel + 1, s =>
    match s with
    | [] => []
    | c :: cs =>
      match matchWrappedAt tok (c :: cs) with
      | some (n + 1) => repl ++ replaceWrappedGo tok repl fuel ((c :: cs).drop (n + 1))
      | _ => c :: replaceWrappedGo tok repl fuel cs

def replaceWrappedAux (tok repl : Str) (s : Str) : Str :=
  replaceWrappedGo tok repl s.length s

/-- `Record` lookup with JS assignment semantics (the last write to a key
wins). -/
def assocLookup (l : List (Str × Str)) (k : Str) : Option Str :=
  (l.reverse.find? fun p => p.1 == k).map Prod.snd

/-- The `scenes.forEach` substitution loop: every scene's token pattern is
replaced by its recorded fragment (or `''`). -/
def replaceAllTokens (dict : List (Str × Str)) (scenes : List Scene) (html : Str) : Str :=
  scenes.foldl
    (fun acc sc =>
      let tok := tokenStr sc.id
      replaceWrappedAux tok ((assocLookup dict tok).getD []) acc)
    html

structure RenderedResult where
  markdownWithImages : Str
  htmlContent : Str
  cleanHtmlContent : Str
deriving DecidableEq, Repr

structure AsmOut where
  result : RenderedResult
  placements : List Placement
deriving DecidableEq, Repr

/-- The whole assembly pass of the `useEffect`, parameterised by the
external Markdown renderer `window.marked.parse`.  `none` models the
`if (!fullText) return;` guard. -/
def assembleDocument (render : Str → Str) (fullText : Str) (scenes : List Scene) :
    Option AsmOut :=
  if fullText.isEmpty then none
  else
    let st := assembleMarkdown fullText scenes
    let valid := validScenesOf scenes
    let interDict := valid.map fun sc => (tokenStr sc.id, interactiveFragment sc)
    let cleanDict := valid.map fun sc => (tokenStr sc.id, cleanFragment sc)
    let raw := render st.text
    some
      { result :=
          { markdownWithImages := st.text
            htmlContent := replaceAllTokens interDict scenes raw
            cleanHtmlContent := replaceAllTokens cleanDict scenes raw }
        placements := st.placements }

/-! ## Claim C2: assembly is a pure function of its snapshot -/

/-- **C2.** Assembly is deterministic in its snapshot: two runs given equal
`fullText` and equal `scenes` (and the same pure renderer) produce equal
`RenderedResult`s — in particular byte-identical `markdownWithImages` — the
working text being rebuilt from the original `fullText` on every run, with
no dependence on clock or randomness (the definition of `assembleDocument`
has no other inputs). -/
theorem assembleDocument_deterministic (render : Str → Str)
    (t₁ t₂ : Str) (s₁ s₂ : List Scene) (ht : t₁ = t₂) (hs : s₁ = s₂) :
    assembleDocument render t₁ s₁ = assembleDocument render t₂ s₂ := by
  rw [ht, hs]

/-- Witness for C2 at a concrete snapshot. -/
theorem assembleDocument_deterministic_witness :
    assembleDocument id "a\nb".data
        [{ id := 2, quote := "b".data, status := SceneStatus.error }] =
      assembleDocument id "a\nb".data
        [{ id := 2, quote := "b".data, status := SceneStatus.error }] :=
  assembleDocument_deterministic id _ _ _ _ rfl rfl

/-! ## First-occurrence characterization of `indexOf` -/

lemma scanIndexOf_eq_some (pat : Str) : ∀ (s : Str) (base j : Nat),
    scanIndexOf pat s base = some j ↔
      (base ≤ j ∧ j - base ≤ s.length ∧ pat.isPrefixOf (s.drop (j - base)) = true ∧
        ∀ k, base ≤ k → k < j → pat.isPrefixOf (s.drop (k - base)) = false) := by
  intro s
  induction s with
  | nil =>
    intro base j
    rw [scanIndexOf]
    by_cases h : pat.isPrefixOf ([] : Str) = true
    · simp only [h, if_true]
      constructor
      · intro heq
        obtain rfl : base = j := by simpa using heq
        exact ⟨Nat.le_refl _, by simp, by simpa using h, fun k h1 h2 => by omega⟩
      · rintro ⟨h1, h2, _, _⟩
        have : j = base := by simp at h2; omega
        simp [this]
    · simp only [h]
      simp only [Bool.not_eq_true] at h
      constructor
      · intro heq
        simp [h] at heq
      · rintro ⟨_, _, h3, _⟩
        rw [List.drop_nil] at h3
        rw [h3] at h
        cases h
  | cons c cs ih =>
    intro base j
    rw [scanIndexOf]
    by_cases h : pat.isPrefixOf (c :: cs) = true
    · simp only [h, if_true]
      constructor
      · intro heq
        obtain rfl : base = j := by simpa using heq
        exact ⟨Nat.le_refl _, by simp, by simpa using h, fun k h1 h2 => by omega⟩
      · rintro ⟨h1, h2, h3, h4⟩
        rcases Nat.eq_or_lt_of_le h1 with rfl | hlt
        · rfl
        · exact absurd (h4 base (Nat.le_refl _) hlt) (by simp [h])
    · rw [if_neg h, ih (base + 1) j]
      constructor
      · rintro ⟨h1, h2, h3, h4⟩
        refine ⟨by omega, by simp; omega, ?_, ?_⟩
        · have hd : (c :: cs).drop (j - base) = cs.drop (j - (base + 1)) := by
            have : j - base = (j - (base + 1)) + 1 := by omega
            rw [this, List.drop_succ_cons]
          rw [hd]; exact h3
        · intro k hk1 hk2
          rcases Nat.eq_or_lt_of_le hk1 with rfl | hklt
          · simpa using (Bool.not_eq_true _).mp h
          · have hd : (c :: cs).drop (k - base) = cs.drop (k - (base + 1)) := by
              have : k - base = (k - (base + 1)) + 1 := by omega
              rw [this, List.drop_succ_cons]
            rw [hd]; exact h4 k (by omega) hk2
      · rintro ⟨h1, h2, h3, h4⟩
        have hne : j ≠ base := by
          rintro rfl
          rw [Nat.sub_self, List.drop_zero] at h3
          exact h h3
        refine ⟨by omega, by simp at h2 ⊢; omega, ?_, ?_⟩
        · have hd : cs.drop (j - (base + 1)) = (c :: cs).drop (j - base) := by
            have hj : j - base = (j - (base + 1)) + 1 := by omega
            rw [hj, List.drop_succ_cons]
          rw [hd]; exact h3
        · intro k hk1 hk2
          have hd : cs.drop (k - (base + 1)) = (c :: cs).drop (k - base) := by
            have hk : k - base = (k - (base + 1)) + 1 := by omega
            rw [hk, List.drop_succ_cons]
          rw [hd]; exact h4 k (by omega) hk2

lemma indexOfFrom_eq_some {s pat : Str} {start i : Nat} :
    indexOfFrom s pat start = some i ↔
      (min start s.length ≤ i ∧ i ≤ s.length ∧ occursAt pat s i = true ∧
        ∀ k, min start s.length ≤ k → k < i → occursAt pat s k = false) := by
  have hst : min start s.length ≤ s.length := Nat.min_le_right _ _
  simp only [indexOfFrom]
  rw [scanIndexOf_eq_some]
  have hdrop : ∀ j, min start s.length ≤ j → (s.drop (min start s.length)).drop
      (j - min start s.length) = s.drop j := by
    intro j hj
    rw [List.drop_drop]
    congr 1
    omega
  constructor
  · rintro ⟨h1, h2, h3, h4⟩
    rw [List.length_drop] at h2
    refine ⟨h1, by omega, ?_, ?_⟩
    · rw [occursAt, ← hdrop i h1]; exact h3
    · intro k hk1 hk2
      rw [occursAt, ← hdrop k hk1]; exact h4 k hk1 hk2
  · rintro ⟨h1, h2, h3, h4⟩
    refine ⟨h1, by rw [List.length_drop]; omega, ?_, ?_⟩
    · rw [hdrop i h1]; exact h3
    · intro k hk1 hk2
      rw [hdrop k hk1]; exact h4 k hk1 hk2

lemma occursAt_add_length_le {pat s : Str} {i : Nat} (h : occursAt pat s i = true)
    (hi : i ≤ s.length) : i + pat.length ≤ s.length := by
  have := (List.isPrefixOf_iff_prefix.mp h).length_le
  rw [List.length_drop] at this
  omega

lemma indexOfFrom_add_length_le {s pat : Str} {start i : Nat}
    (h : indexOfFrom s pat start = some i) : i + pat.length ≤ s.length := by
  obtain ⟨_, h2, h3, _⟩ := indexOfFrom_eq_some.mp h
  exact occursAt_add_length_le h3 h2

/-! ## Claim C7: exact-anchor placement -/

/-- **C7.** For a scene with `id ≠ 1` whose trimmed quote occurs verbatim in
the working text at a position that is the first occurrence at or after the
current search offset, the anchor step uses the index immediately past that
occurrence (match index plus trimmed-quote length): the token block is
spliced exactly there and the recorded placement carries that offset. -/
theorem asmStep_exact_anchor (validLen s1 index : Nat) (st : AsmSt) (sc : Scene) (i : Nat)
    (hid : sc.id ≠ 1)
    (hocc : occursAt (jsTrim sc.quote) st.text i = true)
    (hge : min st.lastInsertIndex st.text.length ≤ i)
    (hle : i ≤ st.text.length)
    (hfirst : ∀ k, min st.lastInsertIndex st.text.length ≤ k → k < i →
      occursAt (jsTrim sc.quote) st.text k = false) :
    (asmStep validLen s1 index st sc).text =
        insertAt st.text (i + (jsTrim sc.quote).length) (nlWrap (tokenStr sc.id)) ∧
      (asmStep validLen s1 index st sc).placements =
        st.placements ++
          [⟨sc.id, ((i + (jsTrim sc.quote).length : Nat) : Int), st.text.length,
            InsBranch.exact⟩] := by
  have hfound : indexOfFrom st.text (jsTrim sc.quote) st.lastInsertIndex = some i :=
    indexOfFrom_eq_some.mpr ⟨hge, hle, hocc, hfirst⟩
  have hid' : (sc.id == 1) = false := by
    simp [hid]
  rw [asmStep]
  simp only [hid', Bool.false_eq_true, if_false, hfound]
  exact ⟨rfl, rfl⟩

/-- Witness for C7: scene 2's quote `"bc"` occurs first at position 1 of
`"abcd"`; the token lands at offset 3. -/
theorem asmStep_exact_anchor_witness :
    (asmStep 1 0 0 ⟨"abcd".data, 0, 0, []⟩
        { id := 2, quote := "bc".data, status := SceneStatus.completed }).text =
        insertAt "abcd".data 3 (nlWrap (tokenStr 2)) ∧
      (asmStep 1 0 0 ⟨"abcd".data, 0, 0, []⟩
        { id := 2, quote := "bc".data, status := SceneStatus.completed }).placements =
        [⟨2, (3 : Int), 4, InsBranch.exact⟩] := by
  have h := asmStep_exact_anchor 1 0 0 ⟨"abcd".data, 0, 0, []⟩
    { id := 2, quote := "bc".data, status := SceneStatus.completed } 1
    (by decide) (by decide) (by decide) (by decide) (by decide)
  simpa using h

/-! ## Bounds for the fuzzy matcher and the placement loop -/

lemma tryGapsGo_le (next : Str → Option Nat)
    (hnext : ∀ s n, next s = some n → n ≤ s.length) :
    ∀ (rest : Str) (g m : Nat), g ≤ rest.length → tryGapsGo next rest g = some m →
      m ≤ rest.length := by
  intro rest g
  induction g with
  | zero =>
    intro m _ h
    rw [tryGapsGo] at h
    exact hnext rest m h
  | succ g ihg =>
    intro m hg h
    rw [tryGapsGo] at h
    cases hms : next (rest.drop (g + 1)) with
    | some n' =>
      rw [hms] at h
      obtain rfl : g + 1 + n' = m := by simpa using h
      have hb := hnext _ _ hms
      rw [List.length_drop] at hb
      omega
    | none =>
      rw [hms] at h
      exact ihg m (by omega) h

lemma matchSeq_le : ∀ (ws : List Str) (s : Str) (n : Nat),
    matchSeq ws s = some n → n ≤ s.length := by
  intro ws
  induction ws with
  | nil =>
    intro s n h
    rw [matchSeq] at h
    obtain rfl : (0 : Nat) = n := by simpa using h
    exact Nat.zero_le _
  | cons w tail ih =>
    intro s n h
    cases tail with
    | nil =>
      rw [matchSeq] at h
      by_cases hp : w.isPrefixOf s = true
      · rw [if_pos hp] at h
        obtain rfl : w.length = n := by simpa using h
        exact (List.isPrefixOf_iff_prefix.mp hp).length_le
      · rw [if_neg hp] at h; cases h
    | cons w2 ws' =>
      rw [matchSeq] at h
      by_cases hp : w.isPrefixOf s = true
      · rw [if_pos hp] at h
        split at h
        case _ m htry =>
          obtain rfl : w.length + m = n := by simpa using h
          have hg : min 50 ((s.drop w.length).takeWhile isDotChar).length ≤
              (s.drop w.length).length :=
            le_trans (min_le_right _ _) (List.takeWhile_prefix _).length_le
          have hb := tryGapsGo_le (matchSeq (w2 :: ws')) ih _ _ m hg htry
          have hw := (List.isPrefixOf_iff_prefix.mp hp).length_le
          rw [List.length_drop] at hb
          omega
        case _ htry => cases h
      · rw [if_neg hp] at h; cases h

lemma fuzzyExecAux_le (words : List Str) : ∀ (s : Str) (i p n : Nat),
    fuzzyExecAux words s i = some (p, n) → i ≤ p ∧ p - i + n ≤ s.length := by
  intro s
  induction s with
  | nil =>
    intro i p n h
    rw [fuzzyExecAux] at h
    cases hms : matchSeq words [] with
    | some n' =>
      rw [hms] at h
      have hpn : p = i ∧ n = n' := by
        have h' := h
        simp only [Option.some.injEq, Prod.mk.injEq] at h'
        exact ⟨h'.1.symm, h'.2.symm⟩
      obtain ⟨rfl, rfl⟩ := hpn
      have hb := matchSeq_le words [] _ hms
      exact ⟨Nat.le_refl _, by simpa using hb⟩
    | none => rw [hms] at h; cases h
  | cons c cs ih =>
    intro i p n h
    rw [fuzzyExecAux] at h
    cases hms : matchSeq words (c :: cs) with
    | some n' =>
      rw [hms] at h
      have hpn : p = i ∧ n = n' := by
        have := h
        simp only [Option.some.injEq, Prod.mk.injEq] at this
        exact ⟨this.1.symm, this.2.symm⟩
      obtain ⟨rfl, rfl⟩ := hpn
      have := matchSeq_le words _ _ hms
      constructor
      · exact Nat.le_refl _
      · simpa using this
    | none =>
      rw [hms] at h
      obtain ⟨h1, h2⟩ := ih (i + 1) p n h
      constructor
      · omega
      · simp only [List.length_cons]
        omega

lemma fuzzyExec_le {words : List Str} {s : Str} {p n : Nat}
    (h : fuzzyExec words s = some (p, n)) : p + n ≤ s.length := by
  obtain ⟨_, h2⟩ := fuzzyExecAux_le words s 0 p n h
  omega

lemma length_insertAt (s : Str) (i : Nat) (ins : Str) :
    (insertAt s i ins).length = s.length + ins.length := by
  simp [insertAt]
  omega

lemma length_nlWrap (tok : Str) : (nlWrap tok).length = tok.length + 2 := by
  simp [nlWrap]

lemma asmInsert_bounds (st : AsmSt) (sc : Scene) (tok : Str) (pos : Nat) (br : InsBranch)
    (hpos : pos ≤ st.text.length) :
    (asmInsert st sc tok pos br).lastInsertIndex ≤ (asmInsert st sc tok pos br).text.length ∧
      ∃ pl : Placement,
        (asmInsert st sc tok pos br).placements = st.placements ++ [pl] ∧
          0 ≤ pl.pos ∧ pl.pos ≤ (st.text.length : Int) ∧ pl.lenBefore = st.text.length := by
  refine ⟨?_, ⟨sc.id, (pos : Int), st.text.length, br⟩, rfl, ?_, ?_, rfl⟩
  · simp only [asmInsert, length_insertAt, length_nlWrap]
    omega
  · exact Int.ofNat_nonneg pos
  · exact Int.ofNat_le.mpr hpos

lemma asmFallback_bounds (validLen index : Nat) (st : AsmSt) (sc : Scene) (tok : Str)
    (hidx : index < validLen)
    (hinv : st.lastInsertIndex ≤ st.text.length) :
    (asmFallback validLen index st sc tok).lastInsertIndex ≤
        (asmFallback validLen index st sc tok).text.length ∧
      ∃ pl : Placement,
        (asmFallback validLen index st sc tok).placements = st.placements ++ [pl] ∧
          0 ≤ pl.pos ∧ pl.pos ≤ (st.text.length : Int) ∧ pl.lenBefore = st.text.length := by
  have hrs : (0 : Int) ≤ (st.text.length : Int) - st.lastInsertIndex := by
    omega
  have hden : (0 : Int) ≤ ((validLen : Int) - index) + 1 := by
    omega
  have hchunk₀ : (0 : Int) ≤
      ((st.text.length : Int) - st.lastInsertIndex).fdiv (((validLen : Int) - index) + 1) :=
    Int.fdiv_nonneg hrs hden
  have hchunk₁ :
      ((st.text.length : Int) - st.lastInsertIndex).fdiv (((validLen : Int) - index) + 1) ≤
        (st.text.length : Int) - st.lastInsertIndex := by
    rw [Int.fdiv_eq_ediv _ hden]
    exact Int.ediv_le_self _ hrs
  set chunk := ((st.text.length : Int) - st.lastInsertIndex).fdiv
      (((validLen : Int) - index) + 1) with hchunkdef
  set target0 : Int := (st.lastInsertIndex : Int) + chunk with htarget0
  have ht0 : 0 ≤ target0 ∧ target0 ≤ (st.text.length : Int) := by
    constructor <;> omega
  have htarget : ∀ target : Int,
      target = (match indexOfFrom st.text ['\n'] target0.toNat with
        | some nn => if (nn : Int) - target0 < 500 then (nn : Int) else target0
        | none => target0) →
      0 ≤ target ∧ target ≤ (st.text.length : Int) := by
    intro target hdef
    cases hfound : indexOfFrom st.text ['\n'] target0.toNat with
    | none =>
      rw [hfound] at hdef
      dsimp only at hdef
      exact hdef ▸ ht0
    | some nn =>
      rw [hfound] at hdef
      dsimp only at hdef
      by_cases hc : (nn : Int) - target0 < 500
      · rw [if_pos hc] at hdef
        have hb := indexOfFrom_add_length_le hfound
        subst hdef
        constructor
        · exact Int.ofNat_nonneg nn
        · simp only [List.length_cons, List.length_nil] at hb
          omega
      · rw [if_neg hc] at hdef; exact hdef ▸ ht0
  rw [asmFallback]
  refine ⟨?_, ⟨sc.id, _, st.text.length, InsBranch.fallback⟩, rfl, ?_, ?_, rfl⟩
  · simp only [length_insertAt, length_nlWrap]
    rw [← hchunkdef, ← htarget0]
    have h2 := (htarget _ rfl).2
    have h0 := (htarget _ rfl).1
    omega
  · exact (htarget _ rfl).1
  · exact (htarget _ rfl).2

lemma asmStep_bounds (validLen s1 index : Nat) (st : AsmSt) (sc : Scene)
    (hidx : index < validLen)
    (hinv : st.lastInsertIndex ≤ st.text.length) :
    (asmStep validLen s1 index st sc).lastInsertIndex ≤
        (asmStep validLen s1 index st sc).text.length ∧
      ∃ pl : Placement,
        (asmStep validLen s1 index st sc).placements = st.placements ++ [pl] ∧
          0 ≤ pl.pos ∧ pl.pos ≤ (st.text.length : Int) ∧ pl.lenBefore = st.text.length := by
  simp only [asmStep]
  by_cases hid : (sc.id == 1) = true
  · simp only [hid, if_true]
    by_cases hover : s1 + st.insertionOffset > st.text.length
    · rw [if_pos hover]
      refine asmInsert_bounds st sc _ _ _ ?_
      have hmul : st.text.length * 15 ≤ st.text.length * 100 :=
        Nat.mul_le_mul_left _ (by omega)
      calc st.text.length * 15 / 100 ≤ st.text.length * 100 / 100 :=
            Nat.div_le_div_right hmul
        _ = st.text.length := Nat.mul_div_cancel _ (by omega)
    · rw [if_neg hover]
      exact asmInsert_bounds st sc _ _ _ (by omega)
  · rw [if_neg hid]
    cases hfound : indexOfFrom st.text (jsTrim sc.quote) st.lastInsertIndex with
    | some i =>
      exact asmInsert_bounds st sc _ _ _ (indexOfFrom_add_length_le hfound)
    | none =>
      cases hwords : (splitFuzzy (jsTrim sc.quote)).filter (fun w => decide (w.length > 1)) with
      | nil =>
        dsimp only
        exact asmFallback_bounds validLen index st sc _ hidx hinv
      | cons w ws =>
        cases hfz : fuzzyExec ((w :: ws).take 5) (st.text.drop st.lastInsertIndex) with
        | some pn =>
          obtain ⟨p, n⟩ := pn
          refine asmInsert_bounds st sc _ _ _ ?_
          have hb := fuzzyExec_le hfz
          rw [List.length_drop] at hb
          omega
        | none =>
          exact asmFallback_bounds validLen index st sc _ hidx hinv

lemma asmFoldAux_bounds (validLen s1 : Nat) : ∀ (l : List Scene) (index : Nat) (st : AsmSt),
    index + l.length ≤ validLen →
    st.lastInsertIndex ≤ st.text.length →
    (∀ p ∈ st.placements, 0 ≤ p.pos ∧ p.pos ≤ (p.lenBefore : Int)) →
    ∀ p ∈ (asmFoldAux validLen s1 l index st).placements,
      0 ≤ p.pos ∧ p.pos ≤ (p.lenBefore : Int) := by
  intro l
  induction l with
  | nil =>
    intro index st _ _ hps p hp
    exact hps p hp
  | cons sc rest ih =>
    intro index st hlen hinv hps p hp
    rw [asmFoldAux] at hp
    obtain ⟨hinv', pl, hpl, hpl0, hpl1, hpl2⟩ :=
      asmStep_bounds validLen s1 index st sc (by simp at hlen; omega) hinv
    refine ih (index + 1) _ (by simp at hlen ⊢; omega) hinv' ?_ p hp
    intro q hq
    rw [hpl] at hq
    rcases List.mem_append.mp hq with hq | hq
    · exact hps q hq
    · rcases List.mem_singleton.mp hq with rfl
      exact ⟨hpl0, by rw [hpl2]; exact hpl1⟩

/-! ## Claim C8: the proportional fallback always yields an in-range offset -/

/-- **C8.** Every placement recorded by the fallback distribution rule
(`lastInsertIndex + ⌊remaining/(scenesRemaining+1)⌋`, snapped forward to a
newline within 500 characters) lies within `[0, workingText.length]` (its
`lenBefore`), so the splice never receives a negative or overflowing
index.  (The proof in fact establishes this bound for every branch.) -/
theorem fallback_target_in_range (fullText : Str) (scenes : List Scene) (p : Placement)
    (hp : p ∈ (assembleMarkdown fullText scenes).placements)
    (_hbr : p.branch = InsBranch.fallback) :
    0 ≤ p.pos ∧ p.pos ≤ (p.lenBefore : Int) := by
  revert hp
  rw [assembleMarkdown]
  intro hp
  exact asmFoldAux_bounds _ _ _ 0 _ (by simp) (by simp) (by simp) p hp

/-- Witness for C8: a quote unrelated to the text forces the fallback
(`⌊4/2⌋ = 2` in `"abcd"`), and the recorded target 2 is in `[0, 4]`. -/
theorem fallback_target_in_range_witness :
    (⟨2, (2 : Int), 4, InsBranch.fallback⟩ : Placement) ∈
        (assembleMarkdown "abcd".data
          [{ id := 2, quote := "zz".data, status := SceneStatus.error }]).placements ∧
      0 ≤ (2 : Int) ∧ (2 : Int) ≤ ((4 : Nat) : Int) := by
  refine ⟨by decide, ?_⟩
  exact fallback_target_in_range "abcd".data
    [{ id := 2, quote := "zz".data, status := SceneStatus.error }]
    ⟨2, (2 : Int), 4, InsBranch.fallback⟩ (by decide) (by decide)

/-! ## Claim C6: scene 1's placement never reads its quote -/

/-- Two scene lists that agree everywhere except possibly in the `quote`
field of scenes with id 1. -/
def QuoteAgnostic (a b : Scene) : Prop :=
  a.id = b.id ∧ a.status = b.status ∧ a.imageUrl = b.imageUrl ∧
    a.contextDescription = b.contextDescription ∧ a.visualPrompt = b.visualPrompt ∧
    a.reasoning = b.reasoning ∧ (a.id ≠ 1 → a.quote = b.quote)

lemma asmStep_congr (v s1 i : Nat) (st : AsmSt) (a b : Scene)
    (hid : a.id = b.id) (hq : a.id ≠ 1 → a.quote = b.quote) :
    asmStep v s1 i st a = asmStep v s1 i st b := by
  by_cases h1 : a.id = 1
  · have hb1 : b.id = 1 := hid ▸ h1
    simp only [asmStep, asmInsert, h1, hb1]
    simp
  · have hq' := hq h1
    simp only [asmStep, asmInsert, asmFallback, hid, hq']

lemma asmFoldAux_congr (v s1 : Nat) :
    ∀ {l₁ l₂ : List Scene},
      List.Forall₂ (fun a b => a.id = b.id ∧ (a.id ≠ 1 → a.quote = b.quote)) l₁ l₂ →
      ∀ (i : Nat) (st : AsmSt), asmFoldAux v s1 l₁ i st = asmFoldAux v s1 l₂ i st := by
  intro l₁ l₂ h
  induction h with
  | nil => intro i st; rfl
  | cons hab h ih =>
    intro i st
    rw [asmFoldAux, asmFoldAux, asmStep_congr v s1 i st _ _ hab.1 hab.2]
    exact ih (i + 1) _

lemma forall₂_filter_congr {R : Scene → Scene → Prop} {p : Scene → Bool}
    (hp : ∀ a b, R a b → p a = p b) :
    ∀ {l₁ l₂ : List Scene}, List.Forall₂ R l₁ l₂ →
      List.Forall₂ R (l₁.filter p) (l₂.filter p) := by
  intro l₁ l₂ h
  induction h with
  | nil => exact List.Forall₂.nil
  | @cons a b l₁' l₂' hab h ih =>
    rw [List.filter, List.filter]
    cases hpa : p a with
    | true => rw [← hp a b hab, hpa]; exact List.Forall₂.cons hab ih
    | false => rw [← hp a b hab, hpa]; exact ih

lemma forall₂_insertByIdStable {R : Scene → Scene → Prop}
    (hidR : ∀ a b, R a b → a.id = b.id) (a b : Scene) (hab : R a b) :
    ∀ {l₁ l₂ : List Scene}, List.Forall₂ R l₁ l₂ →
      List.Forall₂ R (insertByIdStable a l₁) (insertByIdStable b l₂) := by
  intro l₁ l₂ h
  induction h with
  | nil => exact List.Forall₂.cons hab List.Forall₂.nil
  | @cons x y l₁' l₂' hxy h ih =>
    rw [insertByIdStable, insertByIdStable]
    have hx : x.id = y.id := hidR x y hxy
    have ha : a.id = b.id := hidR a b hab
    by_cases hc : x.id < a.id
    · rw [if_pos hc, if_pos (by rw [← hx, ← ha]; exact hc)]
      exact List.Forall₂.cons hxy ih
    · rw [if_neg hc, if_neg (by rw [← hx, ← ha]; exact hc)]
      exact List.Forall₂.cons hab (List.Forall₂.cons hxy h)

lemma forall₂_sortByIdStable {R : Scene → Scene → Prop}
    (hidR : ∀ a b, R a b → a.id = b.id) :
    ∀ {l₁ l₂ : List Scene}, List.Forall₂ R l₁ l₂ →
      List.Forall₂ R (sortByIdStable l₁) (sortByIdStable l₂) := by
  intro l₁ l₂ h
  induction h with
  | nil => exact List.Forall₂.nil
  | @cons a b l₁' l₂' hab h ih =>
    rw [sortByIdStable, sortByIdStable]
    exact forall₂_insertByIdStable hidR a b hab ih

lemma assembleMarkdown_congr (t : Str) {s₁ s₂ : List Scene}
    (h : List.Forall₂ QuoteAgnostic s₁ s₂) :
    assembleMarkdown t s₁ = assembleMarkdown t s₂ := by
  have hfilter : List.Forall₂ QuoteAgnostic
      (s₁.filter fun s => !(s.status == SceneStatus.pending))
      (s₂.filter fun s => !(s.status == SceneStatus.pending)) :=
    forall₂_filter_congr (fun a b hab => by rw [hab.2.1]) h
  have hsort : List.Forall₂ QuoteAgnostic (validScenesOf s₁) (validScenesOf s₂) :=
    forall₂_sortByIdStable (fun a b hab => hab.1) hfilter
  have hlen : (validScenesOf s₁).length = (validScenesOf s₂).length :=
    hsort.length_eq
  rw [assembleMarkdown, assembleMarkdown, hlen]
  exact asmFoldAux_congr _ _ (hsort.imp fun _ _ hab => ⟨hab.1, hab.2.2.2.2.2.2⟩) 0 _

/-- **C6.** For any two scene lists that differ only in the `quote` of the
scene with id 1, the assembly pass records identical placements for
scene 1 (indeed the whole placement list and working text agree): scene 1's
insertion offset is a function of the full text alone and never reads its
quote. -/
theorem scene1_placement_quote_independent (t : Str) (s₁ s₂ : List Scene)
    (h : List.Forall₂ QuoteAgnostic s₁ s₂) :
    ((assembleMarkdown t s₁).placements.filter fun p => p.sceneId == 1) =
      ((assembleMarkdown t s₂).placements.filter fun p => p.sceneId == 1) := by
  rw [assembleMarkdown_congr t h]

/-- Witness for C6: mutating scene 1's quote (`"aaa"` → `"zzz"`) leaves its
recorded placement unchanged. -/
theorem scene1_placement_quote_independent_witness :
    ((assembleMarkdown "hello world text".data
        [{ id := 1, quote := "aaa".data, status := SceneStatus.completed,
            imageUrl := some "u".data },
         { id := 2, quote := "world".data, status := SceneStatus.completed,
            imageUrl := some "v".data }]).placements.filter fun p => p.sceneId == 1) =
      ((assembleMarkdown "hello world text".data
        [{ id := 1, quote := "zzz".data, status := SceneStatus.completed,
            imageUrl := some "u".data },
         { id := 2, quote := "world".data, status := SceneStatus.completed,
            imageUrl := some "v".data }]).placements.filter fun p => p.sceneId == 1) :=
  scene1_placement_quote_independent _ _ _
    (List.Forall₂.cons
      ⟨rfl, rfl, rfl, rfl, rfl, rfl, fun hne => absurd rfl hne⟩
      (List.Forall₂.cons ⟨rfl, rfl, rfl, rfl, rfl, rfl, fun _ => rfl⟩ List.Forall₂.nil))

/-! ## `smartSanitizePrompt` (geminiService.ts lines 127–149) -/

/-- The trigger list, in source order. -/
def triggerStrs : List Str :=
  ["blood", "bleeding", "wound", "injury", "injured", "scar",
   "gun", "pistol", "knife", "weapon", "sword", "kill", "murder", "dead", "corpse",
   "fight", "fighting", "punch", "kick", "hit", "strangle", "choke", "beat", "attack",
   "naked", "nude", "undressed", "sex", "sexual", "kiss", "making out", "lingerie",
   "underwear",
   "suicide", "hanging", "abuse", "drug", "cigarette", "smoking", "alcohol",
   "bed", "bedroom", "sleeping", "intimate"].map String.data

def sanitizeSuffix : Str :=
  ", emotional atmosphere, dramatic lighting, modern style".data

/-- Case-insensitive prefix test for a lowercase ASCII pattern (`i`-flag
matching of the trigger literals: a text character matches a pattern
character exactly when its lowering equals it). -/
def ciPrefix : Str → Str → Bool
  | [], _ => true
  | _ :: _, [] => false
  | p :: ps, c :: cs => (toLowerChar c = p) && ciPrefix ps cs

/-- One global pass of `safe.replace(/\b t \w* \b/gi, '')`, fuelled by the
input length.  The boundary `\b` before the trigger is tracked through
`prevW` (is the previous character a word character); the trailing
`\b` always holds after the greedy `\w*`, and every trigger ends in a word
character, so scanning resumes with `prevW = true`. -/
def stripTriggerGo (t : Str) : Nat → Bool → Str → Str
  | 0, _, s => s
  | _ + 1, _, [] => []
  | fuel + 1, prevW, c :: cs =>
    if !prevW && ciPrefix t (c :: cs) then
      stripTriggerGo t fuel true (((c :: cs).drop t.length).dropWhile isWordChar)
    else c :: stripTriggerGo t fuel (isWordChar c) cs

def stripTrigger (t s : Str) : Str := stripTriggerGo t s.length false s

/-- `smartSanitizePrompt`: remove every trigger (in order), then pad short
results with the neutral descriptor. -/
def smartSanitizePrompt (prompt : Str) : Str :=
  let safe := triggerStrs.foldl (fun acc t => stripTrigger t acc) prompt
  if safe.length < 20 then safe ++ sanitizeSuffix else safe

/-- Claim-side predicate: `s` contains a whole-word case-insensitive match
of `t` — a position preceded by no word character (tracked in the flag)
where `t` is a case-insensitive prefix.  (The `\w*` suffix and trailing
`\b` of the pattern are extensions of such an occurrence, so existence of a
regex match is equivalent.) -/
def hasWWGo (t : Str) : Bool → Str → Bool
  | _, [] => false
  | prevW, c :: cs => (!prevW && ciPrefix t (c :: cs)) || hasWWGo t (isWordChar c) cs

def hasWholeWord (t s : Str) : Bool := hasWWGo t false s

/-! ### Character-level facts about `toLowerChar` and `isWordChar` -/

lemma char_le_iff (a b : Char) : (a ≤ b) ↔ a.toNat ≤ b.toNat := by
  rw [Char.le_def]; rfl

lemma char_eq_iff (a b : Char) : (a = b) ↔ a.toNat = b.toNat := by
  constructor
  · intro h; rw [h]
  · intro h; exact Char.eq_of_val_eq (UInt32.ext h)

lemma char_toNat_ofNat {n : Nat} (h : n.isValidChar) : (Char.ofNat n).toNat = n := by
  simp [Char.ofNat, Char.toNat, h, Char.ofNatAux, UInt32.toNat, BitVec.toNat_ofNatLt]

lemma isWordChar_iff_toNat (c : Char) :
    isWordChar c = true ↔
      (97 ≤ c.toNat ∧ c.toNat ≤ 122) ∨ (65 ≤ c.toNat ∧ c.toNat ≤ 90) ∨
        (48 ≤ c.toNat ∧ c.toNat ≤ 57) ∨ c.toNat = 95 := by
  have e1 : 'a'.toNat = 97 := rfl
  have e2 : 'z'.toNat = 122 := rfl
  have e3 : 'A'.toNat = 65 := rfl
  have e4 : 'Z'.toNat = 90 := rfl
  have e5 : '0'.toNat = 48 := rfl
  have e6 : '9'.toNat = 57 := rfl
  have e7 : '_'.toNat = 95 := rfl
  simp only [isWordChar, Bool.or_eq_true, Bool.and_eq_true, decide_eq_true_eq,
    char_le_iff, char_eq_iff, e1, e2, e3, e4, e5, e6, e7]
  tauto

lemma toLowerChar_toNat (c : Char) :
    (toLowerChar c).toNat =
      if (65 ≤ c.toNat ∧ c.toNat ≤ 90) ∨
          (192 ≤ c.toNat ∧ c.toNat ≤ 222 ∧ c.toNat ≠ 215) then c.toNat + 32
      else c.toNat := by
  have hv : ∀ m : Nat, m ≤ 254 → Nat.isValidChar m := by
    intro m hm
    exact Or.inl (by omega)
  have e3 : 'A'.toNat = 65 := rfl
  have e4 : 'Z'.toNat = 90 := rfl
  have f1 : (⟨0xc0, by decide⟩ : Char).toNat = 192 := rfl
  have f2 : (⟨0xde, by decide⟩ : Char).toNat = 222 := rfl
  have f3 : (⟨0xd7, by decide⟩ : Char).toNat = 215 := rfl
  rw [toLowerChar]
  by_cases h1 : ('A' ≤ c && c ≤ 'Z') = true
  · rw [if_pos h1]
    simp only [Bool.and_eq_true, decide_eq_true_eq, char_le_iff, e3, e4] at h1
    rw [char_toNat_ofNat (hv _ (by omega)), if_pos (Or.inl h1)]
  · rw [if_neg h1]
    simp only [Bool.and_eq_true, decide_eq_true_eq, char_le_iff, e3, e4,
      not_and_or, not_le] at h1
    by_cases h2 : ((⟨0xc0, by decide⟩ : Char) ≤ c && c ≤ ⟨0xde, by decide⟩ &&
        c ≠ ⟨0xd7, by decide⟩) = true
    · rw [if_pos h2]
      simp only [Bool.and_eq_true, decide_eq_true_eq, char_le_iff, ne_eq,
        bne_iff_ne, char_eq_iff, f1, f2, f3] at h2
      have hr : 192 ≤ c.toNat ∧ c.toNat ≤ 222 ∧ c.toNat ≠ 215 :=
        ⟨h2.1.1, h2.1.2, h2.2⟩
      rw [char_toNat_ofNat (hv _ (by omega)), if_pos (Or.inr hr)]
    · rw [if_neg h2]
      simp only [Bool.and_eq_true, decide_eq_true_eq, char_le_iff, ne_eq,
        bne_iff_ne, char_eq_iff, f1, f2, f3, not_and_or, not_le, not_not] at h2
      rw [if_neg ?hcond]
      case hcond =>
        push_neg
        constructor
        · intro h65; omega
        · intro h192 h222
          rcases h2 with (h2 | h2) | h2 <;> omega

lemma isWordChar_of_ci {c p : Char} (hp : isWordChar p = true) (h : toLowerChar c = p) :
    isWordChar c = true := by
  have hn : (toLowerChar c).toNat = p.toNat := by rw [h]
  rw [toLowerChar_toNat] at hn
  rw [isWordChar_iff_toNat] at hp ⊢
  split at hn
  case isTrue hcond => omega
  case isFalse => omega

lemma isWordChar_toLowerChar {c : Char} (h : isWordChar c = true) :
    isWordChar (toLowerChar c) = true := by
  rw [isWordChar_iff_toNat] at h ⊢
  rw [toLowerChar_toNat]
  split
  case isTrue hc => omega
  case isFalse => omega

/-- Head of the pattern is a word character (true of every trigger). -/
def headIsWord : Str → Bool
  | [] => false
  | c :: _ => isWordChar c

/-- At most one of any two adjacent pattern characters is a non-word
character (the lone space of `"making out"` is flanked by letters). -/
def noAdjNonWord : Str → Bool
  | [] => true
  | [_] => true
  | a :: b :: rest => (isWordChar a || isWordChar b) && noAdjNonWord (b :: rest)

def headWordOrNil : Str → Bool
  | [] => true
  | c :: _ => isWordChar c

lemma noAdjNonWord_tail {a : Char} {u : Str} (h : noAdjNonWord (a :: u) = true) :
    noAdjNonWord u = true := by
  cases u with
  | nil => rfl
  | cons b rest =>
    rw [noAdjNonWord] at h
    have h' := h
    simp only [Bool.and_eq_true] at h'
    exact h'.2

lemma strip_nil_out (t : Str) (f : Nat) (flag : Bool) :
    stripTriggerGo t f flag [] = [] := by
  cases f <;> rfl

lemma strip_true_head (t : Str) (f : Nat) (d : Char) (ds : Str) :
    ∃ z, stripTriggerGo t f true (d :: ds) = d :: z := by
  cases f with
  | zero => exact ⟨ds, rfl⟩
  | succ f =>
    exact ⟨stripTriggerGo t f (isWordChar d) ds, by rw [stripTriggerGo]; simp⟩

lemma dropWhile_head_not (p : Char → Bool) :
    ∀ (l : Str) {d : Char} {ds : Str}, l.dropWhile p = d :: ds → p d = false := by
  intro l
  induction l with
  | nil => intro d ds h; cases h
  | cons x xs ih =>
    intro d ds h
    rw [List.dropWhile_cons] at h
    split at h
    · exact ih h
    · next hx =>
      cases h
      simpa using hx

lemma dropWhile_eq_drop (p : Char → Bool) :
    ∀ l : Str, l.dropWhile p = l.drop (l.takeWhile p).length := by
  intro l
  induction l with
  | nil => rfl
  | cons x xs ih =>
    rw [List.dropWhile_cons, List.takeWhile_cons]
    split
    · simpa using ih
    · simp

lemma hasWWGo_drop_suffix (t' : Str) :
    ∀ (j : Nat) (s : Str) (flag : Bool) {d : Char} {ds : Str},
      hasWWGo t' flag s = false → s.drop j = d :: ds →
      hasWWGo t' (isWordChar d) ds = false := by
  intro j
  induction j with
  | zero =>
    intro s flag d ds h hdrop
    rw [List.drop_zero] at hdrop
    subst hdrop
    rw [hasWWGo] at h
    exact (Bool.or_eq_false_iff.mp h).2
  | succ j ih =>
    intro s flag d ds h hdrop
    cases s with
    | nil => simp at hdrop
    | cons x xs =>
      rw [List.drop_succ_cons] at hdrop
      rw [hasWWGo] at h
      exact ih xs (isWordChar x) (Bool.or_eq_false_iff.mp h).2 hdrop

/-- Pattern-transparency of the stripping scanner: a case-insensitive match
of a "good" pattern `u` against the *output* of a stripping pass was
already a match against the input.  (Deleted regions cannot complete a
match: each join places a non-word character where `u` would need a word
character, since `u` never has two adjacent non-word positions.) -/
lemma ciPrefix_strip (t : Str) :
    ∀ (fuel : Nat) (s : Str) (flag : Bool) (u : Str),
      s.length ≤ fuel → noAdjNonWord u = true →
      (flag = false → headWordOrNil u = true) →
      ciPrefix u (stripTriggerGo t fuel flag s) = true →
      ciPrefix u s = true := by
  intro fuel
  induction fuel with
  | zero =>
    intro s flag u _ _ _ h
    simpa [stripTriggerGo] using h
  | succ f ih =>
    intro s flag u hlen hadj hflag h
    cases s with
    | nil =>
      rw [strip_nil_out] at h
      cases u with
      | nil => rfl
      | cons a u' => cases h
    | cons c cs =>
      rw [stripTriggerGo] at h
      by_cases hdel : (!flag && ciPrefix t (c :: cs)) = true
      · rw [if_pos hdel] at h
        have hflag0 : flag = false := by
          have h' := hdel
          simp only [Bool.and_eq_true, Bool.not_eq_true'] at h'
          exact h'.1
        have hu := hflag hflag0
        cases u with
        | nil => rfl
        | cons a u' =>
          exfalso
          have ha : isWordChar a = true := by simpa [headWordOrNil] using hu
          cases hrest : ((c :: cs).drop t.length).dropWhile isWordChar with
          | nil =>
            rw [hrest, strip_nil_out] at h
            simp [ciPrefix] at h
          | cons d ds =>
            rw [hrest] at h
            obtain ⟨z, hz⟩ := strip_true_head t f d ds
            rw [hz] at h
            have hd : isWordChar d = false := dropWhile_head_not _ _ hrest
            simp only [ciPrefix, Bool.and_eq_true, decide_eq_true_eq] at h
            rw [isWordChar_of_ci ha h.1] at hd
            cases hd
      · rw [if_neg hdel] at h
        cases u with
        | nil => rfl
        | cons a u' =>
          simp only [ciPrefix, Bool.and_eq_true, decide_eq_true_eq] at h ⊢
          refine ⟨h.1, ?_⟩
          have hlen' : cs.length ≤ f := by
            simp only [List.length_cons] at hlen
            omega
          refine ih cs (isWordChar c) u' hlen' (noAdjNonWord_tail hadj) ?_ h.2
          intro hc
          cases u' with
          | nil => rfl
          | cons b rest =>
            have hanw : isWordChar a = false := by
              by_contra hcontra
              rw [Bool.not_eq_false] at hcontra
              rw [isWordChar_of_ci hcontra h.1] at hc
              cases hc
            rw [noAdjNonWord] at hadj
            have hadj' := hadj
            simp only [Bool.and_eq_true, Bool.or_eq_true] at hadj'
            rcases hadj'.1 with hb | hb
            · rw [hanw] at hb; cases hb
            · simpa [headWordOrNil] using hb

lemma strip_fuel_shift {t : Str} (ht : t ≠ []) {c : Char} {cs : Str} {f : Nat}
    (hlen : (c :: cs).length ≤ f + 1) {d : Char} {ds : Str}
    (hrest : ((c :: cs).drop t.length).dropWhile isWordChar = d :: ds) :
    (d :: ds).length ≤ f := by
  have h1 : ((c :: cs).drop t.length).length ≤ cs.length := by
    rw [List.length_drop]
    have : t.length ≥ 1 := by
      cases t with
      | nil => exact absurd rfl ht
      | cons x xs => simp
    simp only [List.length_cons]
    omega
  have h2 : (((c :: cs).drop t.length).dropWhile isWordChar).length ≤
      ((c :: cs).drop t.length).length :=
    ((dropWhile_eq_drop _ _).symm ▸ (List.drop_sublist _ _)).length_le
  rw [hrest] at h2
  simp only [List.length_cons] at hlen h2 ⊢
  omega

lemma ciPrefix_head_false {t : Str} (hth : headIsWord t = true) {d : Char}
    (hd : isWordChar d = false) (z : Str) : ciPrefix t (d :: z) = false := by
  cases t with
  | nil => simp [headIsWord] at hth
  | cons p ps =>
    rw [ciPrefix]
    have hp : isWordChar p = true := by simpa [headIsWord] using hth
    by_contra hcontra
    rw [Bool.not_eq_false, Bool.and_eq_true, decide_eq_true_eq] at hcontra
    rw [isWordChar_of_ci hp hcontra.1] at hd
    cases hd

lemma strip_no_self (t : Str) (hth : headIsWord t = true) (hadj : noAdjNonWord t = true) :
    ∀ (fuel : Nat) (s : Str) (flag : Bool), s.length ≤ fuel →
      hasWWGo t flag (stripTriggerGo t fuel flag s) = false := by
  have ht : t ≠ [] := by
    cases t
    · simp [headIsWord] at hth
    · simp
  intro fuel
  induction fuel using Nat.strong_induction_on with
  | _ fuel ih =>
    intro s flag hlen
    match fuel, s with
    | 0, s =>
      have : s = [] := List.length_eq_zero.mp (Nat.le_zero.mp hlen)
      subst this
      rfl
    | f + 1, [] => rw [strip_nil_out]; rfl
    | f + 1, c :: cs =>
      rw [stripTriggerGo]
      by_cases hdel : (!flag && ciPrefix t (c :: cs)) = true
      · rw [if_pos hdel]
        have hflag0 : flag = false := by
          have h' := hdel
          simp only [Bool.and_eq_true, Bool.not_eq_true'] at h'
          exact h'.1
        cases hrest : ((c :: cs).drop t.length).dropWhile isWordChar with
        | nil => rw [strip_nil_out]; rfl
        | cons d ds =>
          have hd : isWordChar d = false := dropWhile_head_not _ _ hrest
          have hlen2 : (d :: ds).length ≤ f := strip_fuel_shift ht hlen hrest
          cases f with
          | zero => simp at hlen2
          | succ f' =>
            rw [stripTriggerGo]
            simp only [Bool.not_true, Bool.false_and, if_false]
            simp only [hasWWGo]
            have hfirst : ciPrefix t (d :: stripTriggerGo t f' (isWordChar d) ds) = false :=
              ciPrefix_head_false hth hd _
            rw [hfirst]
            have hsecond := ih f' (by omega) ds (isWordChar d)
              (by simp only [List.length_cons] at hlen2; omega)
            simp [hfirst, hsecond]
      · rw [if_neg hdel]
        simp only [hasWWGo]
        have hsecond := ih f (by omega) cs (isWordChar c)
          (by simp only [List.length_cons] at hlen; omega)
        rw [hsecond, Bool.or_false]
        cases flag with
        | true => simp
        | false =>
          simp only [Bool.not_false, Bool.true_and] at hdel ⊢
          rw [Bool.not_eq_true] at hdel
          by_contra hcontra
          rw [Bool.not_eq_false] at hcontra
          cases t with
          | nil => simp [headIsWord] at hth
          | cons p ps =>
            simp only [ciPrefix, Bool.and_eq_true, decide_eq_true_eq] at hcontra
            have hcs : ciPrefix ps cs = true := by
              refine ciPrefix_strip (p :: ps) f cs (isWordChar c) ps
                (by simp only [List.length_cons] at hlen; omega) ?_ ?_ hcontra.2
              · exact noAdjNonWord_tail hadj
              · intro hc
                have hp : isWordChar p = true := by simpa [headIsWord] using hth
                rw [isWordChar_of_ci hp hcontra.1] at hc
                cases hc
            simp [ciPrefix, hcontra.1, hcs] at hdel

lemma strip_no_other (t t' : Str) (hth : headIsWord t = true)
    (hth' : headIsWord t' = true) (hadj' : noAdjNonWord t' = true) :
    ∀ (fuel : Nat) (s : Str) (flag : Bool), s.length ≤ fuel →
      hasWWGo t' flag s = false →
      hasWWGo t' flag (stripTriggerGo t fuel flag s) = false := by
  have ht : t ≠ [] := by
    cases t
    · simp [headIsWord] at hth
    · simp
  intro fuel
  induction fuel using Nat.strong_induction_on with
  | _ fuel ih =>
    intro s flag hlen hclean
    match fuel, s with
    | 0, s =>
      have : s = [] := List.length_eq_zero.mp (Nat.le_zero.mp hlen)
      subst this
      rfl
    | f + 1, [] => rw [strip_nil_out]; rfl
    | f + 1, c :: cs =>
      rw [stripTriggerGo]
      by_cases hdel : (!flag && ciPrefix t (c :: cs)) = true
      · rw [if_pos hdel]
        cases hrest : ((c :: cs).drop t.length).dropWhile isWordChar with
        | nil => rw [strip_nil_out]; rfl
        | cons d ds =>
          have hd : isWordChar d = false := dropWhile_head_not _ _ hrest
          have hlen2 : (d :: ds).length ≤ f := strip_fuel_shift ht hlen hrest
          have hsuff : hasWWGo t' (isWordChar d) ds = false := by
            have hdk : (c :: cs).drop (t.length + ((c :: cs).drop t.length).length -
                (d :: ds).length) = d :: ds := by
              rw [dropWhile_eq_drop, List.drop_drop] at hrest
              have hc := congrArg List.length hrest
              rw [List.length_drop] at hc
              have hX : t.length + ((c :: cs).drop t.length).length - (d :: ds).length
                  = t.length + (((c :: cs).drop t.length).takeWhile isWordChar).length := by
                rw [List.length_drop]
                simp only [List.length_cons] at hc ⊢
                omega
              rw [hX]
              exact hrest
            exact hasWWGo_drop_suffix t' _ (c :: cs) flag hclean hdk
          cases f with
          | zero => simp at hlen2
          | succ f' =>
            rw [stripTriggerGo]
            simp only [Bool.not_true, Bool.false_and, if_false]
            simp only [hasWWGo]
            have hfirst : ciPrefix t' (d :: stripTriggerGo t f' (isWordChar d) ds) = false :=
              ciPrefix_head_false hth' hd _
            have hsecond := ih f' (by omega) ds (isWordChar d)
              (by simp only [List.length_cons] at hlen2; omega) hsuff
            simp [hfirst, hsecond]
      · rw [if_neg hdel]
        simp only [hasWWGo]
        have hcleancs : hasWWGo t' (isWordChar c) cs = false := by
          rw [hasWWGo] at hclean
          exact (Bool.or_eq_false_iff.mp hclean).2
        have hsecond := ih f (by omega) cs (isWordChar c)
          (by simp only [List.length_cons] at hlen; omega) hcleancs
        rw [hsecond, Bool.or_false]
        cases flag with
        | true => simp
        | false =>
          simp only [Bool.not_false, Bool.true_and]
          have hfirstcs : ciPrefix t' (c :: cs) = false := by
            rw [hasWWGo] at hclean
            have := (Bool.or_eq_false_iff.mp hclean).1
            simpa using this
          by_contra hcontra
          rw [Bool.not_eq_false] at hcontra
          cases hti : t' with
          | nil => rw [hti] at hth'; simp [headIsWord] at hth'
          | cons p ps =>
            rw [hti] at hcontra hfirstcs hth' hadj'
            simp only [ciPrefix, Bool.and_eq_true, decide_eq_true_eq] at hcontra
            have hcs : ciPrefix ps cs = true := by
              refine ciPrefix_strip t f cs (isWordChar c) ps
                (by simp only [List.length_cons] at hlen; omega) ?_ ?_ hcontra.2
              · exact noAdjNonWord_tail hadj'
              · intro hc
                have hp : isWordChar p = true := by simpa [headIsWord] using hth'
                rw [isWordChar_of_ci hp hcontra.1] at hc
                cases hc
            simp [ciPrefix, hcontra.1, hcs] at hfirstcs

lemma hasWW_flag_mono {t s : Str} (h : hasWWGo t false s = false) :
    hasWWGo t true s = false := by
  cases s with
  | nil => rfl
  | cons c cs =>
    rw [hasWWGo] at h ⊢
    simp only [Bool.not_true, Bool.false_and, Bool.false_or]
    exact (Bool.or_eq_false_iff.mp h).2

lemma ciPrefix_append_short : ∀ (t s b : Str), t.length ≤ s.length →
    ciPrefix t (s ++ b) = ciPrefix t s := by
  intro t
  induction t with
  | nil => intro s b _; rfl
  | cons p ps ih =>
    intro s b hlen
    cases s with
    | nil => simp at hlen
    | cons c cs =>
      simp only [List.cons_append, List.append_eq, ciPrefix]
      rw [ih cs b (by simp only [List.length_cons] at hlen; omega)]

lemma ciPrefix_append_long : ∀ (t : Str), (∀ p ∈ t, p ≠ ',') →
    ∀ (s bs : Str), s.length < t.length →
      ciPrefix t (s ++ ',' :: bs) = false := by
  intro t
  induction t with
  | nil => intro _ s bs h; simp at h
  | cons p ps ih =>
    intro hnc s bs hlen
    cases s with
    | nil =>
      have hp : p ≠ ',' := hnc p (List.mem_cons_self p ps)
      have hc : (decide (toLowerChar ',' = p)) = false := by
        simp only [decide_eq_false_iff_not]
        intro he
        have hcm : toLowerChar ',' = ',' := by decide
        rw [hcm] at he
        exact hp he.symm
      simp only [List.nil_append, ciPrefix, hc, Bool.false_and]
    | cons c cs =>
      simp only [List.cons_append, ciPrefix]
      cases hdc : decide (toLowerChar c = p) with
      | false => simp
      | true =>
        simp only [Bool.true_and]
        exact ih (fun q hq => hnc q (List.mem_cons_of_mem p hq)) cs bs
          (by simp only [List.length_cons] at hlen; omega)

lemma hasWWGo_append_comma (t : Str) (hnc : ∀ p ∈ t, p ≠ ',') (bs : Str)
    (hb : hasWWGo t false (',' :: bs) = false) :
    ∀ (a : Str) (flag : Bool), hasWWGo t flag a = false →
      hasWWGo t flag (a ++ ',' :: bs) = false := by
  intro a
  induction a with
  | nil =>
    intro flag _
    cases flag with
    | false => simpa using hb
    | true => simpa using hasWW_flag_mono hb
  | cons c cs ih =>
    intro flag h
    rw [hasWWGo] at h
    have htail := (Bool.or_eq_false_iff.mp h).2
    have hhead := (Bool.or_eq_false_iff.mp h).1
    rw [List.cons_append, hasWWGo]
    rw [ih (isWordChar c) htail, Bool.or_false]
    cases flag with
    | true => simp
    | false =>
      simp only [Bool.not_false, Bool.true_and] at hhead ⊢
      rw [← List.cons_append]
      by_cases hl : t.length ≤ (c :: cs).length
      · rw [ciPrefix_append_short t (c :: cs) (',' :: bs) hl]
        exact hhead
      · exact ciPrefix_append_long t hnc (c :: cs) bs (by omega)

lemma foldl_strip_clean : ∀ (ts : List Str) (s t' : Str),
    (∀ u ∈ ts, headIsWord u = true) →
    headIsWord t' = true → noAdjNonWord t' = true →
    hasWholeWord t' s = false →
    hasWholeWord t' (ts.foldl (fun acc u => stripTrigger u acc) s) = false := by
  intro ts
  induction ts with
  | nil => intro s t' _ _ _ h; simpa using h
  | cons u ts' ih =>
    intro s t' hts hth' hadj' h
    rw [List.foldl_cons]
    refine ih (stripTrigger u s) t'
      (fun v hv => hts v (List.mem_cons_of_mem u hv)) hth' hadj' ?_
    show hasWWGo t' false (stripTriggerGo u s.length false s) = false
    exact strip_no_other u t' (hts u (List.mem_cons_self u ts')) hth' hadj'
      s.length s false le_rfl h

lemma foldl_strip_all : ∀ (ts : List Str),
    (∀ u ∈ ts, headIsWord u = true ∧ noAdjNonWord u = true) →
    ∀ (s t : Str), t ∈ ts →
      hasWholeWord t (ts.foldl (fun acc u => stripTrigger u acc) s) = false := by
  intro ts
  induction ts with
  | nil => intro _ s t ht; simp at ht
  | cons u ts' ih =>
    intro hts s t ht
    rw [List.foldl_cons]
    have hu := hts u (List.mem_cons_self u ts')
    rcases List.mem_cons.mp ht with rfl | ht'
    · refine foldl_strip_clean ts' (stripTrigger t s) t
        (fun v hv => (hts v (List.mem_cons_of_mem t hv)).1) hu.1 hu.2 ?_
      show hasWWGo t false (stripTriggerGo t s.length false s) = false
      exact strip_no_self t hu.1 hu.2 s.length s false le_rfl
    · exact ih (fun v hv => hts v (List.mem_cons_of_mem u hv)) (stripTrigger u s) t ht'

/-- C9: for every prompt, `smartSanitizePrompt` removes every whole-word
case-insensitive occurrence of every term of the fixed trigger list
(including word-character-suffixed forms, which extend such occurrences):
no trigger occurs as a whole word in the output, the stripping pass
deleting each match and the short-result padding suffix containing none. -/
theorem smartSanitizePrompt_removes_triggers (prompt t : Str) (ht : t ∈ triggerStrs) :
    hasWholeWord t (smartSanitizePrompt prompt) = false := by
  have hgood : ∀ u ∈ triggerStrs, headIsWord u = true ∧ noAdjNonWord u = true := by
    intro u hu
    have hall : triggerStrs.all (fun u => headIsWord u && noAdjNonWord u) = true := by
      decide
    have h2 := List.all_eq_true.mp hall u hu
    simpa [Bool.and_eq_true] using h2
  have hsafe : hasWholeWord t
      (triggerStrs.foldl (fun acc u => stripTrigger u acc) prompt) = false :=
    foldl_strip_all triggerStrs hgood prompt t ht
  simp only [smartSanitizePrompt]
  split
  · rw [hasWholeWord] at hsafe ⊢
    have hsplit : sanitizeSuffix = ',' :: sanitizeSuffix.tail := rfl
    rw [hsplit]
    refine hasWWGo_append_comma t ?_ _ ?_ _ false hsafe
    · intro p hp
      have hall : triggerStrs.all (fun u => u.all (fun p => !(p == ','))) = true := by
        decide
      have h1 := List.all_eq_true.mp hall t ht
      have h2 := List.all_eq_true.mp h1 p hp
      simpa using h2
    · rw [← hsplit]
      have hall : triggerStrs.all (fun u => !(hasWWGo u false sanitizeSuffix)) = true := by
        decide
      have h2 := List.all_eq_true.mp hall t ht
      simpa using h2
  · exact hsafe

theorem smartSanitizePrompt_removes_triggers_witness :
    ("blood".data ∈ triggerStrs ∧
      hasWholeWord "blood".data (smartSanitizePrompt "a bloody knife fight".data) = false) ∧
    hasWholeWord "knife".data (smartSanitizePrompt "a bloody knife fight".data) = false ∧
    hasWholeWord "fight".data (smartSanitizePrompt "a bloody knife fight".data) = false :=
  ⟨⟨by decide,
    smartSanitizePrompt_removes_triggers "a bloody knife fight".data "blood".data (by decide)⟩,
   smartSanitizePrompt_removes_triggers "a bloody knife fight".data "knife".data (by decide),
   smartSanitizePrompt_removes_triggers "a bloody knife fight".data "fight".data (by decide)⟩

/-! ## `generateImageForScene` retry recursion (geminiService.ts lines 262–398)

The image call is modelled by an oracle giving, for each successive API
attempt, the observable outcome of the provider call on the official
branch; `compressImage` (which only resolves) is a second oracle.  The one
prompt-dependent control decision of the recursion is
`prompt.includes("Abstract cinematic composition")`, so prompts are carried
verbatim.  `attempt` is `1` at every call site (the default and every
recursive call pass `1`), so the rate-limit branch always throws the
`QUOTA_EXCEEDED` error.  Errors are `code`/`message` pairs (`code429`
covers `status === 'RESOURCE_EXHAUSTED'` and `code === 429`).  A thrown
error from a recursive call made inside the `try` block is caught by the
caller's own `catch`; a throw or recursion inside the `catch` block
propagates uncaught. -/

inductive ApiOutcome where
  /-- a candidate whose parts carry inline image data -/
  | image (data : Str)
  /-- `response.candidates?.[0]` missing -/
  | noCandidate
  /-- candidate with truthy `finishReason ≠ 'STOP'` -/
  | finish (reason : Str)
  /-- candidate finished normally but no part has inline data -/
  | noImage
  /-- the provider call rejected -/
  | errRaw (code429 : Bool) (msg : Str)
deriving DecidableEq, Repr

structure JsErr where
  code429 : Bool
  msg : Str
deriving DecidableEq, Repr

structure GenEnv where
  api : Nat → ApiOutcome
  compress : Str → Str

def usMarker : Str := "Abstract cinematic composition".data

def ultraSafePrompt : Str :=
  ("Abstract cinematic composition, soft lighting, asian style, " ++
   "emotional atmosphere, blurry background").data

def isSafetyReason (reason : Str) : Bool :=
  containsSub "SAFETY".data reason || reason == "RECITATION".data ||
    reason == "OTHER".data || containsSub "BLOCK".data reason

def stopMsg (reason : Str) : Str :=
  "Image generation stopped. Reason: ".data ++ reason

def noCandMsg : Str := "No candidates returned (Potential Block)".data

def noDataMsg : Str := "No image data found in response".data

def quotaMsg : Str := "QUOTA_EXCEEDED".data

/-- The catch-all retry condition of the `catch` block (line 390). -/
def catchAllMatch (msg : Str) : Bool :=
  containsSub "SAFETY".data msg || containsSub "PERMISSION_DENIED".data msg ||
    containsSub "400".data msg || containsSub "403".data msg

/-- The `catch` block (lines 378–397), factored over the settled `try`
result: an `ok` value is returned; an error is remapped to the
`QUOTA_EXCEEDED` throw on the rate-limit branch (`attempt` is always `1`,
so that branch always throws), retried via `retry` on the catch-all branch
when `isRetry` is false and the message matches, and rethrown otherwise.
`retry`'s own outcome is returned uncaught. -/
def catchStep (retry : Nat → Option (Except JsErr Str × Nat)) (isRetry : Bool) :
    Option (Except JsErr Str × Nat) → Option (Except JsErr Str × Nat)
  | none => none
  | some (.ok v, m) => some (.ok v, m)
  | some (.error e, m) =>
    if e.code429 || containsSub "429".data e.msg then
      some (.error ⟨true, quotaMsg⟩, m)
    else if !isRetry && catchAllMatch e.msg then retry m
    else some (.error e, m)

/-- `generateImageForScene` on the official branch: fuelled recursion
returning the settled promise (`Except` of thrown error or image string)
and the next attempt counter; `none` only on fuel exhaustion (shown
unreachable for fuel ≥ 3).  The `try` body performs one API call and may
recurse (safety finish reason when not yet retrying; ultra-safe fallback
when retrying with a prompt lacking the marker; missing image data when
not yet retrying); its settled result then runs through `catchStep`. -/
def genScene (env : GenEnv) : Nat → Str → Bool → Nat → Option (Except JsErr Str × Nat)
  | 0, _, _, _ => none
  | fuel + 1, prompt, isRetry, n =>
    catchStep (fun m => genScene env fuel prompt true m) isRetry
      (match env.api n with
       | .image d => some (.ok (env.compress d), n + 1)
       | .noCandidate => some (.error ⟨false, noCandMsg⟩, n + 1)
       | .finish reason =>
         if isSafetyReason reason then
           if !isRetry then genScene env fuel prompt true (n + 1)
           else if !containsSub usMarker prompt then
             genScene env fuel ultraSafePrompt true (n + 1)
           else some (.error ⟨false, stopMsg reason⟩, n + 1)
         else some (.error ⟨false, stopMsg reason⟩, n + 1)
       | .noImage =>
         if !isRetry then genScene env fuel prompt true (n + 1)
         else some (.error ⟨false, noDataMsg⟩, n + 1)
       | .errRaw c m => some (.error ⟨c, m⟩, n + 1))

lemma catchStep_error_true (retry : Nat → Option (Except JsErr Str × Nat))
    (e : JsErr) (m : Nat) :
    ∃ r, catchStep retry true (some (.error e, m)) = some (r, m) := by
  simp only [catchStep, Bool.not_true, Bool.false_and]
  rw [if_neg Bool.false_ne_true]
  split
  · exact ⟨_, rfl⟩
  · exact ⟨_, rfl⟩

lemma catchStep_error_false (retry : Nat → Option (Except JsErr Str × Nat))
    (e : JsErr) (m : Nat) :
    (∃ r, catchStep retry false (some (.error e, m)) = some (r, m)) ∨
      catchStep retry false (some (.error e, m)) = retry m := by
  simp only [catchStep, Bool.not_false, Bool.true_and]
  split
  · exact .inl ⟨_, rfl⟩
  · split
    · exact .inr rfl
    · exact .inl ⟨_, rfl⟩

lemma genScene_retry_marker (env : GenEnv) (fuel : Nat) (hf : 1 ≤ fuel)
    (prompt : Str) (n : Nat) (hm : containsSub usMarker prompt = true) :
    ∃ r, genScene env fuel prompt true n = some (r, n + 1) := by
  obtain ⟨f, rfl⟩ : ∃ f, fuel = f + 1 := ⟨fuel - 1, by omega⟩
  rw [genScene]
  cases env.api n with
  | image d => exact ⟨.ok (env.compress d), rfl⟩
  | noCandidate => exact catchStep_error_true _ _ _
  | finish reason =>
    dsimp only
    by_cases hs : isSafetyReason reason = true
    · simp only [hs, if_true, Bool.not_true]
      rw [if_neg Bool.false_ne_true, hm]
      simp only [Bool.not_true]
      rw [if_neg Bool.false_ne_true]
      exact catchStep_error_true _ _ _
    · rw [if_neg hs]
      exact catchStep_error_true _ _ _
  | noImage =>
    dsimp only
    simp only [Bool.not_true]
    rw [if_neg Bool.false_ne_true]
    exact catchStep_error_true _ _ _
  | errRaw c msg => exact catchStep_error_true _ _ _

lemma genScene_retry_bound (env : GenEnv) (fuel : Nat) (hf : 2 ≤ fuel)
    (prompt : Str) (n : Nat) :
    ∃ r n', genScene env fuel prompt true n = some (r, n') ∧ n ≤ n' ∧ n' ≤ n + 2 := by
  by_cases hm : containsSub usMarker prompt = true
  · obtain ⟨r, hr⟩ := genScene_retry_marker env fuel (by omega) prompt n hm
    exact ⟨r, n + 1, hr, by omega, by omega⟩
  · obtain ⟨f, rfl⟩ : ∃ f, fuel = f + 1 := ⟨fuel - 1, by omega⟩
    rw [genScene]
    cases env.api n with
    | image d => exact ⟨.ok (env.compress d), n + 1, rfl, by omega, by omega⟩
    | noCandidate =>
      obtain ⟨r, hr⟩ := catchStep_error_true (fun m => genScene env f prompt true m)
        ⟨false, noCandMsg⟩ (n + 1)
      exact ⟨r, n + 1, hr, by omega, by omega⟩
    | finish reason =>
      dsimp only
      by_cases hs : isSafetyReason reason = true
      · simp only [hs, if_true, Bool.not_true]
        rw [if_neg Bool.false_ne_true]
        rw [Bool.not_eq_true] at hm
        rw [hm]
        simp only [Bool.not_false]
        rw [if_pos trivial]
        obtain ⟨r1, hr1⟩ := genScene_retry_marker env f (by omega) ultraSafePrompt
          (n + 1) (by decide)
        rw [hr1]
        cases r1 with
        | ok v => exact ⟨.ok v, n + 1 + 1, rfl, by omega, by omega⟩
        | error e =>
          obtain ⟨r2, hr2⟩ := catchStep_error_true (fun m => genScene env f prompt true m)
            e (n + 1 + 1)
          exact ⟨r2, n + 1 + 1, hr2, by omega, by omega⟩
      · rw [if_neg hs]
        obtain ⟨r, hr⟩ := catchStep_error_true (fun m => genScene env f prompt true m)
          ⟨false, stopMsg reason⟩ (n + 1)
        exact ⟨r, n + 1, hr, by omega, by omega⟩
    | noImage =>
      dsimp only
      simp only [Bool.not_true]
      rw [if_neg Bool.false_ne_true]
      obtain ⟨r, hr⟩ := catchStep_error_true (fun m => genScene env f prompt true m)
        ⟨false, noDataMsg⟩ (n + 1)
      exact ⟨r, n + 1, hr, by omega, by omega⟩
    | errRaw c msg =>
      obtain ⟨r, hr⟩ := catchStep_error_true (fun m => genScene env f prompt true m)
        ⟨c, msg⟩ (n + 1)
      exact ⟨r, n + 1, hr, by omega, by omega⟩

lemma genScene_start_bound (env : GenEnv) (fuel : Nat) (hf : 3 ≤ fuel)
    (prompt : Str) (n : Nat) :
    ∃ r n', genScene env fuel prompt false n = some (r, n') ∧ n ≤ n' ∧ n' ≤ n + 5 := by
  obtain ⟨f, rfl⟩ : ∃ f, fuel = f + 1 := ⟨fuel - 1, by omega⟩
  have hf2 : 2 ≤ f := by omega
  rw [genScene]
  have herr : ∀ (e : JsErr) (m : Nat), n ≤ m → m ≤ n + 3 →
      ∃ r n', catchStep (fun m => genScene env f prompt true m) false
          (some (.error e, m)) = some (r, n') ∧ n ≤ n' ∧ n' ≤ n + 5 := by
    intro e m h1 h2
    rcases catchStep_error_false (fun m => genScene env f prompt true m) e m with
      ⟨r, hr⟩ | hr
    · exact ⟨r, m, hr, h1, by omega⟩
    · rw [hr]
      obtain ⟨r2, n2, h2', hb1, hb2⟩ := genScene_retry_bound env f hf2 prompt m
      exact ⟨r2, n2, h2', by omega, by omega⟩
  cases env.api n with
  | image d => exact ⟨.ok (env.compress d), n + 1, rfl, by omega, by omega⟩
  | noCandidate => exact herr ⟨false, noCandMsg⟩ (n + 1) (by omega) (by omega)
  | finish reason =>
    dsimp only
    by_cases hs : isSafetyReason reason = true
    · simp only [hs, if_true, Bool.not_false]
      obtain ⟨r1, n1, hr1, hb1, hb2⟩ := genScene_retry_bound env f hf2 prompt (n + 1)
      rw [hr1]
      cases r1 with
      | ok v => exact ⟨.ok v, n1, rfl, by omega, by omega⟩
      | error e => exact herr e n1 (by omega) (by omega)
    · rw [if_neg hs]
      exact herr ⟨false, stopMsg reason⟩ (n + 1) (by omega) (by omega)
  | noImage =>
    dsimp only
    simp only [Bool.not_false]
    rw [if_pos trivial]
    obtain ⟨r1, n1, hr1, hb1, hb2⟩ := genScene_retry_bound env f hf2 prompt (n + 1)
    rw [hr1]
    cases r1 with
    | ok v => exact ⟨.ok v, n1, rfl, by omega, by omega⟩
    | error e => exact herr e n1 (by omega) (by omega)
  | errRaw c msg => exact herr ⟨c, msg⟩ (n + 1) (by omega) (by omega)

/-- C3 (amended): `generateImageForScene`'s retry recursion always
terminates — with call depth at most 3 (fuel 3 suffices) the settled result
exists — and makes at most five API attempts per top-level call: the
`try`-block safety chain is capped at three attempts (original, sanitized,
ultra-safe, the marker guard blocking a fourth), but when that chain throws
a safety-tagged message the `catch`-block retry of a non-retry call runs
the sanitized chain once more, adding up to two further attempts, so the
bound three claimed for the whole call is exceeded (see the counterexample)
while five is exact. -/
theorem genScene_attempts_bounded (env : GenEnv) (fuel : Nat) (prompt : Str)
    (isRetry : Bool) (n : Nat) (hf : 3 ≤ fuel) :
    ∃ r n', genScene env fuel prompt isRetry n = some (r, n') ∧ n ≤ n' ∧ n' ≤ n + 5 := by
  cases isRetry with
  | false => exact genScene_start_bound env fuel hf prompt n
  | true =>
    obtain ⟨r, n', h, h1, h2⟩ := genScene_retry_bound env fuel (by omega) prompt n
    exact ⟨r, n', h, h1, by omega⟩

theorem genScene_attempts_bounded_witness :
    ∃ r n', genScene ⟨fun _ => ApiOutcome.finish "SAFETY".data, id⟩ 3 "x".data false 0 =
        some (r, n') ∧ 0 ≤ n' ∧ n' ≤ 0 + 5 :=
  genScene_attempts_bounded ⟨fun _ => ApiOutcome.finish "SAFETY".data, id⟩ 3
    "x".data false 0 (by decide)

/-- C3 counterexample: when every provider call reports finish reason
`SAFETY`, a top-level call makes five API attempts, not at most three: the
safety chain original → sanitized → ultra-safe throws a message containing
`SAFETY`, and the original call's catch-all then reruns the sanitized →
ultra-safe chain before rethrowing. -/
theorem genScene_five_attempts :
    (genScene ⟨fun _ => ApiOutcome.finish "SAFETY".data, id⟩ 9 "x".data false 0).map
        Prod.snd = some 5 ∧ ¬ (5 ≤ 3) :=
  ⟨rfl, by decide⟩

/-! ## `handleRegenerateScene` (App.tsx lines 284–320)

The regeneration call's settled outcome is an oracle (`RegenOutcome`); the
final scenes state after the handler completes is a pure function of the
prior scenes, the clicked id and that outcome.  On success the matching
entry becomes `completed` with the new `imageUrl`; on every failure path
(rate-limit and otherwise) it becomes `error` with its other fields kept,
each update spreading the pre-click entry. -/

inductive RegenOutcome where
  | ok (url : Str)
  | err (quota : Bool)
deriving DecidableEq, Repr

/-- In-place array element update: `l[i] = f l[i]` (no-op past the end). -/
def updateAt : List Scene → Nat → (Scene → Scene) → List Scene
  | [], _, _ => []
  | s :: rest, 0, f => f s :: rest
  | s :: rest, n + 1, f => s :: updateAt rest n f

/-- First index whose entry has the given id (`scenes.findIndex`). -/
def findIdxById (sceneId : Nat) : List Scene → Option Nat
  | [] => none
  | s :: rest =>
    if s.id = sceneId then some 0
    else (findIdxById sceneId rest).map (· + 1)

/-- The final entry written for the regenerated scene (lines 300/306/316),
spread from the pre-click entry. -/
def regenUpdate (scene : Scene) : RegenOutcome → Scene
  | .ok url => { scene with status := .completed, imageUrl := some url }
  | .err _ => { scene with status := .error }

def handleRegenerateScene (hasKey : Bool) (scenes : List Scene) (sceneId : Nat)
    (out : RegenOutcome) : List Scene :=
  if !hasKey then scenes
  else
    match findIdxById sceneId scenes with
    | none => scenes
    | some i => updateAt scenes i (fun scene => regenUpdate scene out)

lemma updateAt_length : ∀ (l : List Scene) (i : Nat) (f : Scene → Scene),
    (updateAt l i f).length = l.length := by
  intro l
  induction l with
  | nil => intro i f; rfl
  | cons s rest ih =>
    intro i f
    cases i with
    | zero => rfl
    | succ n => simp [updateAt, ih]

lemma updateAt_get?_ne : ∀ (l : List Scene) (i j : Nat) (f : Scene → Scene), j ≠ i →
    (updateAt l i f).get? j = l.get? j := by
  intro l
  induction l with
  | nil => intro i j f _; rfl
  | cons s rest ih =>
    intro i j f hne
    cases i with
    | zero =>
      cases j with
      | zero => exact absurd rfl hne
      | succ m => rfl
    | succ n =>
      cases j with
      | zero => rfl
      | succ m =>
        simp only [updateAt, List.get?_cons_succ]
        exact ih n m f (by omega)

lemma updateAt_get?_eq : ∀ (l : List Scene) (i : Nat) (f : Scene → Scene) (a : Scene),
    l.get? i = some a → (updateAt l i f).get? i = some (f a) := by
  intro l
  induction l with
  | nil => intro i f a h; cases h
  | cons s rest ih =>
    intro i f a h
    cases i with
    | zero =>
      simp only [List.get?_cons_zero] at h
      cases h
      rfl
    | succ n =>
      simp only [List.get?_cons_succ] at h ⊢
      exact ih n f a h

lemma findIdxById_get : ∀ (l : List Scene) (sceneId i : Nat),
    findIdxById sceneId l = some i → ∃ a, l.get? i = some a ∧ a.id = sceneId := by
  intro l
  induction l with
  | nil => intro sceneId i h; cases h
  | cons s rest ih =>
    intro sceneId i h
    rw [findIdxById] at h
    split at h
    · next he =>
      cases h
      exact ⟨s, rfl, he⟩
    · cases hr : findIdxById sceneId rest with
      | none => rw [hr] at h; cases h
      | some m =>
        rw [hr] at h
        simp only [Option.map_some'] at h
        cases h
        obtain ⟨a, ha, haid⟩ := ih sceneId m hr
        exact ⟨a, ha, haid⟩

/-- C10: `handleRegenerateScene` is frame-preserving — the scenes state it
leaves behind has the same length as before, and each entry is either
byte-for-byte unchanged or is the first entry whose id equals the clicked
id, in which case only its `status` and `imageUrl` change (id, quote,
contextDescription, visualPrompt, reasoning are kept), on the success path
and on every failure path alike. -/
theorem handleRegenerateScene_frame (hasKey : Bool) (scenes : List Scene)
    (sceneId : Nat) (out : RegenOutcome) :
    (handleRegenerateScene hasKey scenes sceneId out).length = scenes.length ∧
    ∀ j : Nat,
      (handleRegenerateScene hasKey scenes sceneId out).get? j = scenes.get? j ∨
      (∃ a b, scenes.get? j = some a ∧
        (handleRegenerateScene hasKey scenes sceneId out).get? j = some b ∧
        a.id = sceneId ∧ b.id = a.id ∧ b.quote = a.quote ∧
        b.contextDescription = a.contextDescription ∧
        b.visualPrompt = a.visualPrompt ∧ b.reasoning = a.reasoning) := by
  rw [handleRegenerateScene]
  cases hasKey with
  | false => exact ⟨rfl, fun j => .inl rfl⟩
  | true =>
    simp only [Bool.not_true]
    rw [if_neg Bool.false_ne_true]
    cases hidx : findIdxById sceneId scenes with
    | none => exact ⟨rfl, fun j => .inl rfl⟩
    | some i =>
      obtain ⟨a, ha, haid⟩ := findIdxById_get scenes sceneId i hidx
      refine ⟨updateAt_length _ _ _, fun j => ?_⟩
      by_cases hj : j = i
      · subst hj
        right
        refine ⟨a, regenUpdate a out, ha, updateAt_get?_eq _ _ _ _ ha, haid, ?_⟩
        cases out with
        | ok url => exact ⟨rfl, rfl, rfl, rfl, rfl⟩
        | err q => exact ⟨rfl, rfl, rfl, rfl, rfl⟩
      · exact .inl (updateAt_get?_ne _ _ _ _ hj)

/-! ## `startProcessing` batch loop and resume (App.tsx lines 147–275)

The generation call's settled outcome for the iteration at index `i` is an
oracle `gen i`; `analyzeStoryText`'s outcome is an oracle too
(`Except Bool` — a thrown error reduced to whether it is quota-classified).
The loop walks `i` upward, skipping `completed` entries, writing the entry
at `i` (spread from its pre-iteration value) to `completed`+`imageUrl`,
back to `pending` (quota, recording `retryStartIndex := i` and stopping) or
to `error`; `handleResumeWithNewKey` re-enters `startProcessing` at the
recorded index.  `RunOut.analyzeCalled` instruments whether the analysis
stage ran. -/

inductive GenOut where
  | ok (url : Str)
  | quota
  | fail
deriving DecidableEq, Repr

structure LoopOut where
  scenes : List Scene
  attempts : List Nat
  retryIdx : Option Nat
deriving DecidableEq, Repr

def batchLoop (gen : Nat → GenOut) : Nat → Nat → List Scene → LoopOut
  | 0, _, sc => ⟨sc, [], none⟩
  | fuel + 1, i, sc =>
    match sc.get? i with
    | none => ⟨sc, [], none⟩
    | some scene =>
      if scene.status = SceneStatus.completed then
        batchLoop gen fuel (i + 1) sc
      else
        match gen i with
        | .ok url =>
          let rest := batchLoop gen fuel (i + 1)
            (updateAt sc i (fun s => { s with status := .completed, imageUrl := some url }))
          ⟨rest.scenes, i :: rest.attempts, rest.retryIdx⟩
        | .quota =>
          ⟨updateAt sc i (fun s => { s with status := .pending }), [i], some i⟩
        | .fail =>
          let rest := batchLoop gen fuel (i + 1)
            (updateAt sc i (fun s => { s with status := .error }))
          ⟨rest.scenes, i :: rest.attempts, rest.retryIdx⟩

structure RunOut where
  analyzeCalled : Bool
  attempts : List Nat
  scenesOut : List Scene
  retryIdx : Option Nat
deriving DecidableEq, Repr

def startProcessingM (hasText hasKey : Bool) (analyze : Except Bool (List Scene))
    (gen : Nat → GenOut) (scenes0 : List Scene) (k : Nat) : RunOut :=
  if !hasText then ⟨false, [], scenes0, none⟩
  else if !hasKey then ⟨false, [], scenes0, none⟩
  else if k = 0 then
    match analyze with
    | .error isQuota => ⟨true, [], [], if isQuota then some 0 else none⟩
    | .ok planned =>
      let out := batchLoop gen planned.length 0 planned
      ⟨true, out.attempts, out.scenes, out.retryIdx⟩
  else
    let out := batchLoop gen scenes0.length k scenes0
    ⟨false, out.attempts, out.scenes, out.retryIdx⟩

lemma batchLoop_spec (gen : Nat → GenOut) : ∀ (fuel i : Nat) (sc : List Scene),
    (∀ m ∈ (batchLoop gen fuel i sc).attempts, i ≤ m ∧
        ∃ a, sc.get? m = some a ∧ a.status ≠ SceneStatus.completed) ∧
    (∀ j, j < i → (batchLoop gen fuel i sc).scenes.get? j = sc.get? j) ∧
    (∀ j, (batchLoop gen fuel i sc).retryIdx = some j → ∃ a, sc.get? j = some a ∧
        (batchLoop gen fuel i sc).scenes.get? j =
          some { a with status := SceneStatus.pending } ∧
        gen j = GenOut.quota ∧ i ≤ j) := by
  intro fuel
  induction fuel with
  | zero =>
    intro i sc
    refine ⟨?_, ?_, ?_⟩
    · intro m hm; simp [batchLoop] at hm
    · intro j _; rfl
    · intro j hj; simp [batchLoop] at hj
  | succ f ih =>
    intro i sc
    rw [batchLoop]
    cases hgi : sc.get? i with
    | none =>
      refine ⟨?_, ?_, ?_⟩
      · intro m hm; simp at hm
      · intro j _; rfl
      · intro j hj; simp at hj
    | some scene =>
      dsimp only
      by_cases hc : scene.status = SceneStatus.completed
      · rw [if_pos hc]
        obtain ⟨A, P, R⟩ := ih (i + 1) sc
        refine ⟨?_, ?_, ?_⟩
        · intro m hm
          obtain ⟨h1, h2⟩ := A m hm
          exact ⟨by omega, h2⟩
        · intro j hj
          exact P j (by omega)
        · intro j hj
          obtain ⟨a, h1, h2, h3, h4⟩ := R j hj
          exact ⟨a, h1, h2, h3, by omega⟩
      · rw [if_neg hc]
        cases hg : gen i with
        | ok url =>
          dsimp only
          obtain ⟨A, P, R⟩ := ih (i + 1)
            (updateAt sc i (fun s => { s with status := .completed, imageUrl := some url }))
          refine ⟨?_, ?_, ?_⟩
          · intro m hm
            rcases List.mem_cons.mp hm with rfl | hm'
            · exact ⟨le_refl m, scene, hgi, hc⟩
            · obtain ⟨h1, a, h2, h3⟩ := A m hm'
              rw [updateAt_get?_ne sc i m _ (by omega)] at h2
              exact ⟨by omega, a, h2, h3⟩
          · intro j hj
            rw [P j (by omega), updateAt_get?_ne sc i j _ (by omega)]
          · intro j hj
            obtain ⟨a, h1, h2, h3, h4⟩ := R j hj
            rw [updateAt_get?_ne sc i j _ (by omega)] at h1
            exact ⟨a, h1, h2, h3, by omega⟩
        | quota =>
          refine ⟨?_, ?_, ?_⟩
          · intro m hm
            rcases List.mem_cons.mp hm with rfl | hm'
            · exact ⟨le_refl m, scene, hgi, hc⟩
            · simp at hm'
          · intro j hj
            exact updateAt_get?_ne sc i j _ (by omega)
          · intro j hj
            simp only [Option.some_inj] at hj
            subst hj
            exact ⟨scene, hgi, updateAt_get?_eq sc i _ scene hgi, hg, le_refl i⟩
        | fail =>
          dsimp only
          obtain ⟨A, P, R⟩ := ih (i + 1)
            (updateAt sc i (fun s => { s with status := .error }))
          refine ⟨?_, ?_, ?_⟩
          · intro m hm
            rcases List.mem_cons.mp hm with rfl | hm'
            · exact ⟨le_refl m, scene, hgi, hc⟩
            · obtain ⟨h1, a, h2, h3⟩ := A m hm'
              rw [updateAt_get?_ne sc i m _ (by omega)] at h2
              exact ⟨by omega, a, h2, h3⟩
          · intro j hj
            rw [P j (by omega), updateAt_get?_ne sc i j _ (by omega)]
          · intro j hj
            obtain ⟨a, h1, h2, h3, h4⟩ := R j hj
            rw [updateAt_get?_ne sc i j _ (by omega)] at h1
            exact ⟨a, h1, h2, h3, by omega⟩

lemma batchLoop_progress (gen : Nat → GenOut) : ∀ (fuel i : Nat) (sc : List Scene),
    sc.length ≤ fuel + i →
    ∀ m, i ≤ m → m < sc.length →
      (∀ a, sc.get? m = some a → a.status ≠ SceneStatus.completed) →
      m ∈ (batchLoop gen fuel i sc).attempts ∨
        ∃ j, (batchLoop gen fuel i sc).retryIdx = some j ∧ j ≤ m := by
  intro fuel
  induction fuel with
  | zero =>
    intro i sc hlen m him hm _
    omega
  | succ f ih =>
    intro i sc hlen m him hm hnc
    rw [batchLoop]
    cases hgi : sc.get? i with
    | none =>
      rw [List.get?_eq_none] at hgi
      omega
    | some scene =>
      dsimp only
      by_cases hc : scene.status = SceneStatus.completed
      · rw [if_pos hc]
        have hmi : m ≠ i := by
          intro he
          subst he
          exact hnc scene hgi hc
        exact ih (i + 1) sc (by omega) m (by omega) hm hnc
      · rw [if_neg hc]
        cases hg : gen i with
        | ok url =>
          dsimp only
          by_cases hmi : m = i
          · subst hmi
            exact .inl (List.mem_cons_self _ _)
          · have hrec := ih (i + 1)
              (updateAt sc i (fun s => { s with status := .completed, imageUrl := some url }))
              (by rw [updateAt_length]; omega) m (by omega)
              (by rw [updateAt_length]; omega)
              (by intro a ha
                  rw [updateAt_get?_ne sc i m _ hmi] at ha
                  exact hnc a ha)
            rcases hrec with h | ⟨j, h1, h2⟩
            · exact .inl (List.mem_cons_of_mem _ h)
            · exact .inr ⟨j, h1, h2⟩
        | quota =>
          by_cases hmi : m = i
          · subst hmi
            exact .inl (List.mem_cons_self _ _)
          · exact .inr ⟨i, rfl, by omega⟩
        | fail =>
          dsimp only
          by_cases hmi : m = i
          · subst hmi
            exact .inl (List.mem_cons_self _ _)
          · have hrec := ih (i + 1)
              (updateAt sc i (fun s => { s with status := .error }))
              (by rw [updateAt_length]; omega) m (by omega)
              (by rw [updateAt_length]; omega)
              (by intro a ha
                  rw [updateAt_get?_ne sc i m _ hmi] at ha
                  exact hnc a ha)
            rcases hrec with h | ⟨j, h1, h2⟩
            · exact .inl (List.mem_cons_of_mem _ h)
            · exact .inr ⟨j, h1, h2⟩

/-- C4 (amended, interruption index k ≥ 1): if the batch loop of a
from-scratch run (analysis succeeded with `planned`) is interrupted by a
quota error with resume index `k ≥ 1` recorded, then the interrupted
scene's entry is reverted to `pending` (the quota outcome having occurred
at `k`), and the resumed `startProcessing(k)` run does not invoke analysis,
runs the loop over the existing scenes list, attempts only non-`completed`
entries at indices ≥ k (every non-`completed` index ≥ k is attempted unless
a quota error stops the run at or before it), leaves every entry below `k`
untouched, and on a further quota interruption again reverts that entry to
`pending` and records an index ≥ k.  For k = 0 the resumed run re-invokes
analysis (see the counterexample), so the original claim is amended to
k ≥ 1. -/
theorem startProcessing_quota_resume
    (analyze analyze' : Except Bool (List Scene)) (gen gen' : Nat → GenOut)
    (planned : List Scene) (k : Nat) (run1 run2 : RunOut)
    (ha : analyze = Except.ok planned)
    (h1 : run1 = startProcessingM true true analyze gen [] 0)
    (hint : run1.retryIdx = some k)
    (hk : 1 ≤ k)
    (h2 : run2 = startProcessingM true true analyze' gen' run1.scenesOut k) :
    (∃ a, planned.get? k = some a ∧
        run1.scenesOut.get? k = some { a with status := SceneStatus.pending } ∧
        gen k = GenOut.quota) ∧
    run2.analyzeCalled = false ∧
    (∀ i ∈ run2.attempts, k ≤ i ∧
        ∃ a, run1.scenesOut.get? i = some a ∧ a.status ≠ SceneStatus.completed) ∧
    (∀ j, j < k → run2.scenesOut.get? j = run1.scenesOut.get? j) ∧
    (∀ m, k ≤ m → m < run1.scenesOut.length →
        (∀ a, run1.scenesOut.get? m = some a → a.status ≠ SceneStatus.completed) →
        m ∈ run2.attempts ∨ ∃ j, run2.retryIdx = some j ∧ j ≤ m) ∧
    (∀ j, run2.retryIdx = some j → ∃ a, run1.scenesOut.get? j = some a ∧
        run2.scenesOut.get? j = some { a with status := SceneStatus.pending } ∧ k ≤ j) := by
  subst ha h1 h2
  obtain ⟨k', rfl⟩ : ∃ k', k = k' + 1 := ⟨k - 1, by omega⟩
  have e1 : startProcessingM true true (Except.ok planned) gen [] 0 =
      ⟨true, (batchLoop gen planned.length 0 planned).attempts,
        (batchLoop gen planned.length 0 planned).scenes,
        (batchLoop gen planned.length 0 planned).retryIdx⟩ := rfl
  rw [e1] at hint ⊢
  dsimp only at hint ⊢
  have e2 : ∀ sc : List Scene, startProcessingM true true analyze' gen' sc (k' + 1) =
      ⟨false, (batchLoop gen' sc.length (k' + 1) sc).attempts,
        (batchLoop gen' sc.length (k' + 1) sc).scenes,
        (batchLoop gen' sc.length (k' + 1) sc).retryIdx⟩ := fun sc => rfl
  rw [e2]
  dsimp only
  set sc1 := (batchLoop gen planned.length 0 planned).scenes with hsc1
  refine ⟨?_, rfl, ?_, ?_, ?_, ?_⟩
  · obtain ⟨a, g1, g2, g3, _⟩ :=
      (batchLoop_spec gen planned.length 0 planned).2.2 (k' + 1) hint
    exact ⟨a, g1, g2, g3⟩
  · exact (batchLoop_spec gen' sc1.length (k' + 1) sc1).1
  · exact fun j hj => (batchLoop_spec gen' sc1.length (k' + 1) sc1).2.1 j hj
  · exact fun m h1 h2 h3 =>
      batchLoop_progress gen' sc1.length (k' + 1) sc1 (by omega) m h1 h2 h3
  · intro j hj
    obtain ⟨a, g1, g2, _, g4⟩ :=
      (batchLoop_spec gen' sc1.length (k' + 1) sc1).2.2 j hj
    exact ⟨a, g1, g2, g4⟩

def w4planned : List Scene :=
  [⟨1, [], [], [], [], none, .pending⟩, ⟨2, [], [], [], [], none, .pending⟩]

def w4gen : Nat → GenOut := fun i => if i = 0 then .ok "u".data else .quota

theorem startProcessing_quota_resume_witness :
    (startProcessingM true true (Except.ok w4planned) w4gen [] 0).retryIdx = some 1 ∧
    (startProcessingM true true (Except.ok ([] : List Scene)) (fun _ => GenOut.quota)
        (startProcessingM true true (Except.ok w4planned) w4gen [] 0).scenesOut
        1).analyzeCalled = false :=
  ⟨by decide,
   (startProcessing_quota_resume (Except.ok w4planned)
      (Except.ok ([] : List Scene)) w4gen (fun _ => GenOut.quota) w4planned 1
      (startProcessingM true true (Except.ok w4planned) w4gen [] 0)
      (startProcessingM true true (Except.ok ([] : List Scene)) (fun _ => GenOut.quota)
        (startProcessingM true true (Except.ok w4planned) w4gen [] 0).scenesOut 1)
      rfl rfl (by decide) (by decide) rfl).2.1⟩

/-- C4 counterexample: a quota interruption at scene index 0 records resume
index 0, but the resumed `startProcessing(0)` takes the from-scratch path
(`resumeFromIndex === 0`) and so invokes `analyzeStoryText` again,
contradicting the claim's "does not call analyzeStoryText again". -/
theorem startProcessing_resume_rerun_analysis :
    ((startProcessingM true true (Except.ok w4planned) (fun _ => GenOut.quota) [] 0).retryIdx
        = some 0) ∧
    ((startProcessingM true true (Except.ok w4planned) (fun _ => GenOut.quota)
        (startProcessingM true true (Except.ok w4planned) (fun _ => GenOut.quota)
          [] 0).scenesOut 0).analyzeCalled = true) :=
  ⟨rfl, rfl⟩

/-! ## Claim C1: token bookkeeping and substitution coverage

Infrastructure: occurrence counting, and "barrier" lemmas — a pattern free
of a character `b` cannot occur across a `b` in the text, so counting and
containment split at `b`. -/

/-- Number of positions at which `pat` occurs in `s`. -/
def countOcc (pat : Str) : Str → Nat
  | [] => 0
  | c :: cs => (if pat.isPrefixOf (c :: cs) then 1 else 0) + countOcc pat cs

lemma isPrefixOf_cons_false {p c : Char} {ps cs : Str} (h : p ≠ c) :
    (p :: ps).isPrefixOf (c :: cs) = false := by
  simp [List.isPrefixOf, h]

lemma isPrefixOf_append_barrier (tok : Str) (b : Char)
    (hb : tok.contains b = false) :
    ∀ X Y : Str, tok.isPrefixOf (X ++ b :: Y) = tok.isPrefixOf X := by
  induction tok with
  | nil => intro X Y; simp [List.isPrefixOf]
  | cons t ts ih =>
    intro X Y
    cases X with
    | nil =>
      simp only [List.nil_append]
      have ht : t ≠ b := by
        intro he
        subst he
        simp [List.contains_cons] at hb
      rw [isPrefixOf_cons_false ht]
      cases hp : (t :: ts).isPrefixOf ([] : Str) <;> simp_all [List.isPrefixOf]
    | cons x xs =>
      simp only [List.cons_append, List.isPrefixOf, List.append_eq]
      have hb' : ts.contains b = false := by
        simp only [List.contains_cons, Bool.or_eq_false_iff] at hb
        exact hb.2
      rw [ih hb' xs Y]

lemma isPrefixOf_append_left (pat : Str) :
    ∀ (A B : Str), pat.length ≤ A.length → pat.isPrefixOf (A ++ B) = pat.isPrefixOf A := by
  induction pat with
  | nil => intro A B _; simp [List.isPrefixOf]
  | cons p ps ih =>
    intro A B hlen
    cases A with
    | nil => simp at hlen
    | cons a as =>
      simp only [List.cons_append, List.isPrefixOf, List.append_eq]
      rw [ih as B (by simp only [List.length_cons] at hlen; omega)]

lemma countOcc_append_barrier (tok : Str) (b : Char) (hne : tok ≠ [])
    (hb : tok.contains b = false) :
    ∀ X Y : Str, countOcc tok (X ++ b :: Y) = countOcc tok X + countOcc tok Y := by
  intro X Y
  induction X with
  | nil =>
    simp only [List.nil_append, countOcc]
    obtain ⟨t, ts, rfl⟩ : ∃ t ts, tok = t :: ts := by
      cases tok with
      | nil => exact absurd rfl hne
      | cons t ts => exact ⟨t, ts, rfl⟩
    have ht : t ≠ b := by
      intro he; subst he; simp [List.contains_cons] at hb
    rw [isPrefixOf_cons_false ht]
    simp
  | cons x xs ih =>
    simp only [List.cons_append, countOcc, List.append_eq, ih]
    have hpref : List.isPrefixOf tok (x :: (xs ++ b :: Y)) = List.isPrefixOf tok (x :: xs) := by
      have h := isPrefixOf_append_barrier tok b hb (x :: xs) Y
      simpa using h
    simp only [hpref]
    omega

lemma containsSub_append_barrier (pat : Str) (b : Char) (hne : pat ≠ [])
    (hb : pat.contains b = false) :
    ∀ X Y : Str, containsSub pat (X ++ b :: Y) = (containsSub pat X || containsSub pat Y) := by
  intro X Y
  induction X with
  | nil =>
    simp only [List.nil_append, containsSub]
    obtain ⟨t, ts, rfl⟩ : ∃ t ts, pat = t :: ts := by
      cases pat with
      | nil => exact absurd rfl hne
      | cons t ts => exact ⟨t, ts, rfl⟩
    have ht : t ≠ b := by
      intro he; subst he; simp [List.contains_cons] at hb
    rw [isPrefixOf_cons_false ht]
    simp [List.isEmpty]
  | cons x xs ih =>
    simp only [List.cons_append, containsSub, List.append_eq, ih]
    have hpref : List.isPrefixOf pat (x :: (xs ++ b :: Y)) = List.isPrefixOf pat (x :: xs) := by
      have h := isPrefixOf_append_barrier pat b hb (x :: xs) Y
      simpa using h
    simp only [hpref]
    cases pat.isPrefixOf (x :: xs) <;> simp

lemma containsSub_of_isPrefixOf_drop {pat s : Str} {q : Nat}
    (h : pat.isPrefixOf (s.drop q) = true) (hne : pat ≠ []) :
    containsSub pat s = true := by
  induction s generalizing q with
  | nil =>
    rw [List.drop_nil] at h
    cases pat with
    | nil => exact absurd rfl hne
    | cons p ps => simp [List.isPrefixOf] at h
  | cons c cs ih =>
    cases q with
    | zero =>
      rw [List.drop_zero] at h
      rw [containsSub, h]
      simp
    | succ q' =>
      rw [List.drop_succ_cons] at h
      rw [containsSub, ih h]
      simp

lemma not_isPrefixOf_drop_of_not_containsSub {pat s : Str} {q : Nat} (hne : pat ≠ [])
    (h : containsSub pat s = false) : pat.isPrefixOf (s.drop q) = false := by
  cases hp : pat.isPrefixOf (s.drop q) with
  | false => rfl
  | true => rw [containsSub_of_isPrefixOf_drop hp hne] at h; cases h

lemma isPrefixOf_extend {p u v : Str} (h : p.isPrefixOf u = true)
    (huv : u <+: v) : p.isPrefixOf v = true :=
  List.isPrefixOf_iff_prefix.mpr ((List.isPrefixOf_iff_prefix.mp h).trans huv)

lemma containsSub_drop {pat : Str} (hne : pat ≠ []) :
    ∀ (n : Nat) (s : Str), containsSub pat (s.drop n) = true → containsSub pat s = true := by
  intro n
  induction n with
  | zero => intro s h; rwa [List.drop_zero] at h
  | succ n ih =>
    intro s h
    cases s with
    | nil =>
      rw [List.drop_nil] at h
      exact h
    | cons c cs =>
      rw [List.drop_succ_cons] at h
      rw [containsSub, ih cs h]
      simp

lemma containsSub_take {pat : Str} (hne : pat ≠ []) :
    ∀ (n : Nat) (s : Str), containsSub pat (s.take n) = true → containsSub pat s = true := by
  intro n
  induction n with
  | zero =>
    intro s h
    rw [List.take_zero] at h
    cases pat with
    | nil => exact absurd rfl hne
    | cons p ps => simp [containsSub, List.isEmpty] at h
  | succ n ih =>
    intro s h
    cases s with
    | nil => rwa [List.take_nil] at h
    | cons c cs =>
      rw [List.take_succ_cons, containsSub] at h
      rcases Bool.or_eq_true_iff.mp h with h1 | h1
      · rw [containsSub]
        rw [isPrefixOf_extend h1
          (List.cons_prefix_cons.mpr ⟨rfl, List.take_prefix n cs⟩)]
        simp
      · rw [containsSub, ih cs h1]
        simp

abbrev sceneMarker : Str := "<!--IMAGE_SCENE_".data

/-- A text segment safe for token bookkeeping and for the wrapped-token
substitution: it contains no token-marker prefix, no `<p>` and no `</p>`. -/
abbrev segOK (f : Str) : Prop :=
  containsSub sceneMarker f = false ∧ containsSub "<p>".data f = false ∧
    containsSub "</p>".data f = false

lemma segOK_nil : segOK [] := by
  refine ⟨?_, ?_, ?_⟩ <;> decide

lemma segOK_glue {A B : Str} (b : Char) (hA : segOK A) (hB : segOK B)
    (hbm : sceneMarker.contains b = false)
    (hbp : ("<p>".data).contains b = false)
    (hbq : ("</p>".data).contains b = false) :
    segOK (A ++ b :: B) := by
  obtain ⟨hA1, hA2, hA3⟩ := hA
  obtain ⟨hB1, hB2, hB3⟩ := hB
  refine ⟨?_, ?_, ?_⟩
  · rw [containsSub_append_barrier sceneMarker b (by decide) hbm, hA1, hB1]; rfl
  · rw [containsSub_append_barrier "<p>".data b (by decide) hbp, hA2, hB2]; rfl
  · rw [containsSub_append_barrier "</p>".data b (by decide) hbq, hA3, hB3]; rfl

lemma segOK_glue_nl {A B : Str} (hA : segOK A) (hB : segOK B) :
    segOK (A ++ '\n' :: B) :=
  segOK_glue '\n' hA hB (by decide) (by decide) (by decide)

lemma segOK_take {f : Str} (n : Nat) (hf : segOK f) : segOK (f.take n) := by
  obtain ⟨h1, h2, h3⟩ := hf
  refine ⟨?_, ?_, ?_⟩
  all_goals {
    cases hx : containsSub _ (f.take n)
    · rfl
    · first
      | (rw [containsSub_take (by decide) n f hx] at h1; cases h1)
      | (rw [containsSub_take (by decide) n f hx] at h2; cases h2)
      | (rw [containsSub_take (by decide) n f hx] at h3; cases h3) }

lemma segOK_drop {f : Str} (n : Nat) (hf : segOK f) : segOK (f.drop n) := by
  obtain ⟨h1, h2, h3⟩ := hf
  refine ⟨?_, ?_, ?_⟩
  all_goals {
    cases hx : containsSub _ (f.drop n)
    · rfl
    · first
      | (rw [containsSub_drop (by decide) n f hx] at h1; cases h1)
      | (rw [containsSub_drop (by decide) n f hx] at h2; cases h2)
      | (rw [containsSub_drop (by decide) n f hx] at h3; cases h3) }

lemma containsSub_head_mem {p : Char} {ps u : Str} (h : containsSub (p :: ps) u = true) :
    u.contains p = true := by
  induction u with
  | nil => simp [containsSub, List.isEmpty] at h
  | cons c cs ih =>
    rw [containsSub] at h
    rcases Bool.or_eq_true_iff.mp h with h1 | h1
    · simp only [List.isPrefixOf, Bool.and_eq_true, beq_iff_eq] at h1
      rw [List.contains_cons]
      simp [h1.1]
    · rw [List.contains_cons, ih h1]
      simp

lemma segOK_of_no_lt {u : Str} (h : u.contains '<' = false) : segOK u := by
  refine ⟨?_, ?_, ?_⟩
  all_goals {
    cases hx : containsSub _ u
    · rfl
    · rw [containsSub_head_mem hx] at h; cases h }

/-- Facts about the concrete tokens for the ids the analysis stage can emit
(1–6): length 20, newline-free, `"`/digit-free pattern characters,
marker-prefixed, and `<p>`/`</p>`-free. -/
lemma tok_facts : ∀ j : Nat, j < 7 → 1 ≤ j →
    (tokenStr j).length = 20 ∧ (tokenStr j).contains '\n' = false ∧
    sceneMarker.isPrefixOf (tokenStr j) = true ∧
    containsSub "<p>".data (tokenStr j) = false ∧
    containsSub "</p>".data (tokenStr j) = false ∧
    "<p>".data.isPrefixOf (tokenStr j) = false ∧
    tokenStr j ≠ [] ∧ natToDecimal j = [digitChar j] := by decide

lemma tok_pair_range : ∀ i ∈ List.range 7, ∀ j ∈ List.range 7, 1 ≤ i → 1 ≤ j →
    countOcc (tokenStr i) (tokenStr j) = (if i = j then 1 else 0) ∧
    (i ≠ j → containsSub (tokenStr i) (tokenStr j) = false) := by decide

lemma tok_pair (i j : Nat) (hi : i < 7) (hj : j < 7) (hi1 : 1 ≤ i) (hj1 : 1 ≤ j) :
    countOcc (tokenStr i) (tokenStr j) = (if i = j then 1 else 0) ∧
    (i ≠ j → containsSub (tokenStr i) (tokenStr j) = false) :=
  tok_pair_range i (List.mem_range.mpr hi) j (List.mem_range.mpr hj) hi1 hj1

lemma digit_facts : ∀ j : Nat, j < 7 → 1 ≤ j →
    sceneMarker.contains (digitChar j) = false ∧
    ("<p>".data).contains (digitChar j) = false ∧
    ("</p>".data).contains (digitChar j) = false := by decide

lemma countOcc_eq_zero_of_marker_free {tok s : Str}
    (hpre : sceneMarker.isPrefixOf tok = true)
    (h : containsSub sceneMarker s = false) : countOcc tok s = 0 := by
  induction s with
  | nil => rfl
  | cons c cs ih =>
    rw [containsSub, Bool.or_eq_false_iff] at h
    rw [countOcc, ih h.2]
    have hp : tok.isPrefixOf (c :: cs) = false := by
      cases hx : tok.isPrefixOf (c :: cs)
      · rfl
      · have hm : sceneMarker.isPrefixOf (c :: cs) = true :=
          isPrefixOf_extend hpre (List.isPrefixOf_iff_prefix.mp hx)
        rw [hm] at h
        exact absurd h.1 (by simp)
    rw [hp]
    simp

lemma containsSub_token_of_marker_free {i : Nat} (hi : i < 7) (hi1 : 1 ≤ i) {s : Str}
    (h : containsSub sceneMarker s = false) : containsSub (tokenStr i) s = false := by
  cases hx : containsSub (tokenStr i) s
  · rfl
  · exfalso
    induction s with
    | nil =>
      have hne := (tok_facts i hi hi1).2.2.2.2.2.2.1
      cases htok : tokenStr i with
      | nil => exact hne htok
      | cons a as =>
        rw [htok] at hx
        simp [containsSub, List.isEmpty] at hx
    | cons c cs ih =>
      rw [containsSub, Bool.or_eq_false_iff] at h
      rw [containsSub] at hx
      rcases Bool.or_eq_true_iff.mp hx with h1 | h1
      · have hm : sceneMarker.isPrefixOf (c :: cs) = true :=
          isPrefixOf_extend (tok_facts i hi hi1).2.2.1
            (List.isPrefixOf_iff_prefix.mp h1)
        rw [hm] at h
        exact absurd h.1 (by simp)
      · exact ih h.2 h1

/-! ### The segment representation of the assembled document -/

/-- `buildDoc parts tail`: alternating clean pieces and `\n`-flanked token
blocks, closed by a final piece. -/
def buildDoc : List (Str × Nat) → Str → Str
  | [], tail => tail
  | (f, i) :: rest, tail => f ++ '\n' :: (tokenStr i ++ '\n' :: buildDoc rest tail)

def partsOK (parts : List (Str × Nat)) : Prop :=
  ∀ p ∈ parts, segOK p.1 ∧ 1 ≤ p.2 ∧ p.2 < 7

lemma buildDoc_append_tail : ∀ (parts : List (Str × Nat)) (tail : Str),
    buildDoc parts tail = buildDoc parts [] ++ tail := by
  intro parts
  induction parts with
  | nil => intro tail; rfl
  | cons p rest ih =>
    intro tail
    obtain ⟨f, i⟩ := p
    rw [buildDoc, buildDoc, ih tail]
    simp

lemma buildDoc_snoc : ∀ (parts : List (Str × Nat)) (f : Str) (i : Nat) (tail : Str),
    buildDoc (parts ++ [(f, i)]) tail =
      buildDoc parts (f ++ '\n' :: (tokenStr i ++ '\n' :: tail)) := by
  intro parts
  induction parts with
  | nil => intro f i tail; rfl
  | cons p rest ih =>
    intro f i tail
    obtain ⟨g, k⟩ := p
    rw [List.cons_append, buildDoc, buildDoc, ih]

lemma countOcc_buildDoc (i : Nat) (hi : i < 7) (hi1 : 1 ≤ i) :
    ∀ (parts : List (Str × Nat)) (tail : Str), partsOK parts → segOK tail →
      countOcc (tokenStr i) (buildDoc parts tail) =
        (parts.filter (fun p => p.2 == i)).length := by
  intro parts
  induction parts with
  | nil =>
    intro tail _ htail
    rw [buildDoc]
    simp only [List.filter_nil, List.length_nil]
    exact countOcc_eq_zero_of_marker_free (tok_facts i hi hi1).2.2.1 htail.1
  | cons p rest ih =>
    intro tail hparts htail
    obtain ⟨f, j⟩ := p
    have hp := hparts (f, j) (List.mem_cons_self _ _)
    have hne : tokenStr i ≠ [] := (tok_facts i hi hi1).2.2.2.2.2.2.1
    have hnl : (tokenStr i).contains '\n' = false := (tok_facts i hi hi1).2.1
    rw [buildDoc, countOcc_append_barrier (tokenStr i) '\n' hne hnl,
      countOcc_append_barrier (tokenStr i) '\n' hne hnl,
      ih tail (fun q hq => hparts q (List.mem_cons_of_mem _ hq)) htail,
      countOcc_eq_zero_of_marker_free (tok_facts i hi hi1).2.2.1 hp.1.1,
      (tok_pair i j hi (by omega) hi1 (by omega)).1]
    rw [List.filter_cons]
    by_cases hij : j = i
    · subst hij
      simp only [if_pos rfl, beq_self_eq_true, if_true, List.length_cons]
      omega
    · have hb : ((f, j).2 == i) = false := by simp [hij]
      simp only [hb, Bool.false_eq_true, if_false]
      rw [if_neg (fun h => hij h.symm)]
      omega

/-- The whole built document is `</p>`-free (needed for the substitution
matcher: the optional closing-group test always fails). -/
lemma buildDoc_noClose : ∀ (parts : List (Str × Nat)) (tail : Str),
    partsOK parts → segOK tail →
    containsSub "</p>".data (buildDoc parts tail) = false := by
  intro parts
  induction parts with
  | nil => intro tail _ htail; exact htail.2.2
  | cons p rest ih =>
    intro tail hparts htail
    obtain ⟨f, j⟩ := p
    have hp := hparts (f, j) (List.mem_cons_self _ _)
    rw [buildDoc,
      containsSub_append_barrier "</p>".data '\n' (by decide) (by decide),
      containsSub_append_barrier "</p>".data '\n' (by decide) (by decide),
      ih tail (fun q hq => hparts q (List.mem_cons_of_mem _ hq)) htail,
      hp.1.2.2, (tok_facts j (by exact hp.2.2) hp.2.1).2.2.2.2.1]
    rfl

lemma length_buildDoc_nil_snoc (parts : List (Str × Nat)) (f : Str) (i : Nat) :
    (buildDoc (parts ++ [(f, i)]) []).length =
      (buildDoc parts []).length + f.length + (tokenStr i).length + 2 := by
  rw [buildDoc_snoc, buildDoc_append_tail]
  simp
  omega

/-- Splicing `"\n" ++ tok ++ "\n"` at a position at or beyond the built
prefix extends the part list by one block, splitting the tail. -/
lemma insertAt_buildDoc (parts : List (Str × Nat)) (tail : Str) (i pos : Nat)
    (hL : (buildDoc parts []).length ≤ pos)
    (hpos : pos ≤ (buildDoc parts tail).length) :
    insertAt (buildDoc parts tail) pos (nlWrap (tokenStr i)) =
      buildDoc (parts ++ [(tail.take (pos - (buildDoc parts []).length), i)])
        (tail.drop (pos - (buildDoc parts []).length)) := by
  set P := buildDoc parts [] with hP
  set o := pos - P.length with ho
  have hlen : pos = P.length + o := by rw [ho]; omega
  have htake : (P ++ tail).take (P.length + o) = P ++ tail.take o := by
    rw [List.take_append_eq_append_take]
    congr 1
    · exact List.take_of_length_le (by omega)
    · congr 1
      omega
  have hdrop : (P ++ tail).drop (P.length + o) = tail.drop o := by
    rw [List.drop_append_eq_append_drop]
    rw [List.drop_of_length_le (by omega)]
    simp only [List.nil_append]
    congr 1
    omega
  have hrhs : buildDoc (parts ++ [(tail.take o, i)]) (tail.drop o)
      = P ++ (tail.take o ++ '\n' :: (tokenStr i ++ '\n' :: tail.drop o)) := by
    rw [buildDoc_snoc, buildDoc_append_tail]
  have hlhs : insertAt (buildDoc parts tail) pos (nlWrap (tokenStr i))
      = (P ++ tail.take o) ++ nlWrap (tokenStr i) ++ tail.drop o := by
    rw [insertAt, buildDoc_append_tail parts tail, hlen, htake, hdrop]
  rw [hlhs, hrhs, nlWrap]
  simp [List.append_assoc]

/-- Every branch of the placement step splices exactly `"\n"+token+"\n"` at
one position `pos ≤ length`, records `lastInsertIndex = pos + |token| + 2`,
and — except possibly for the scene-1 branch — `pos` is at or beyond the
previous `lastInsertIndex`. -/
lemma asmStep_shape (validLen s1 index : Nat) (st : AsmSt) (sc : Scene)
    (hidx : index < validLen)
    (hinv : st.lastInsertIndex ≤ st.text.length) :
    ∃ pos : Nat, pos ≤ st.text.length ∧
      (sc.id = 1 ∨ st.lastInsertIndex ≤ pos) ∧
      (asmStep validLen s1 index st sc).text =
        insertAt st.text pos (nlWrap (tokenStr sc.id)) ∧
      (asmStep validLen s1 index st sc).lastInsertIndex =
        pos + (tokenStr sc.id).length + 2 := by
  simp only [asmStep]
  by_cases hid : (sc.id == 1) = true
  · simp only [hid, if_true]
    have hid' : sc.id = 1 := by simpa using hid
    by_cases hover : s1 + st.insertionOffset > st.text.length
    · rw [if_pos hover]
      refine ⟨st.text.length * 15 / 100, ?_, .inl hid', rfl, rfl⟩
      have hmul : st.text.length * 15 ≤ st.text.length * 100 :=
        Nat.mul_le_mul_left _ (by omega)
      calc st.text.length * 15 / 100 ≤ st.text.length * 100 / 100 :=
            Nat.div_le_div_right hmul
        _ = st.text.length := Nat.mul_div_cancel _ (by omega)
    · rw [if_neg hover]
      exact ⟨s1 + st.insertionOffset, by omega, .inl hid', rfl, rfl⟩
  · rw [if_neg hid]
    cases hfound : indexOfFrom st.text (jsTrim sc.quote) st.lastInsertIndex with
    | some i =>
      obtain ⟨h1, h2, h3, _⟩ := indexOfFrom_eq_some.mp hfound
      refine ⟨i + (jsTrim sc.quote).length, occursAt_add_length_le h3 h2, .inr ?_, rfl, rfl⟩
      have : min st.lastInsertIndex st.text.length = st.lastInsertIndex :=
        Nat.min_eq_left hinv
      omega
    | none =>
      cases hwords : (splitFuzzy (jsTrim sc.quote)).filter (fun w => decide (w.length > 1)) with
      | nil =>
        dsimp only
        rw [asmFallback]
        -- fallback arithmetic: target ∈ [lastInsertIndex, length]
        have hden : (0 : Int) ≤ ((validLen : Int) - index) + 1 := by omega
        have hchunk₀ : (0 : Int) ≤
            ((st.text.length : Int) - st.lastInsertIndex).fdiv (((validLen : Int) - index) + 1) :=
          Int.fdiv_nonneg (by omega) hden
        have hchunk₁ :
            ((st.text.length : Int) - st.lastInsertIndex).fdiv (((validLen : Int) - index) + 1) ≤
              (st.text.length : Int) - st.lastInsertIndex := by
          rw [Int.fdiv_eq_ediv _ hden]
          exact Int.ediv_le_self _ (by omega)
        set chunk := ((st.text.length : Int) - st.lastInsertIndex).fdiv
            (((validLen : Int) - index) + 1) with hchunkdef
        set target0 : Int := (st.lastInsertIndex : Int) + chunk with htarget0
        have ht0 : (st.lastInsertIndex : Int) ≤ target0 ∧ target0 ≤ (st.text.length : Int) := by
          constructor <;> omega
        cases hfnl : indexOfFrom st.text ['\n'] target0.toNat with
        | none =>
          dsimp only
          refine ⟨target0.toNat, by omega, .inr (by omega), rfl, rfl⟩
        | some nn =>
          dsimp only
          obtain ⟨hn1, hn2, _, _⟩ := indexOfFrom_eq_some.mp hfnl
          have hmin : min target0.toNat st.text.length = target0.toNat := by
            apply Nat.min_eq_left
            omega
          rw [hmin] at hn1
          by_cases hc : (nn : Int) - target0 < 500
          · rw [if_pos hc]
            refine ⟨(nn : Int).toNat, by simpa using hn2, .inr ?_, rfl, rfl⟩
            simp only [Int.toNat_ofNat]
            omega
          · rw [if_neg hc]
            refine ⟨target0.toNat, by omega, .inr (by omega), rfl, rfl⟩
      | cons w ws =>
        cases hfz : fuzzyExec ((w :: ws).take 5) (st.text.drop st.lastInsertIndex) with
        | some pn =>
          obtain ⟨p, n⟩ := pn
          have hb := fuzzyExec_le hfz
          rw [List.length_drop] at hb
          exact ⟨st.lastInsertIndex + p + n, by omega, .inr (by omega), rfl, rfl⟩
        | none =>
          dsimp only
          rw [asmFallback]
          have hden : (0 : Int) ≤ ((validLen : Int) - index) + 1 := by omega
          have hchunk₀ : (0 : Int) ≤
              ((st.text.length : Int) - st.lastInsertIndex).fdiv (((validLen : Int) - index) + 1) :=
            Int.fdiv_nonneg (by omega) hden
          have hchunk₁ :
              ((st.text.length : Int) - st.lastInsertIndex).fdiv (((validLen : Int) - index) + 1) ≤
                (st.text.length : Int) - st.lastInsertIndex := by
            rw [Int.fdiv_eq_ediv _ hden]
            exact Int.ediv_le_self _ (by omega)
          set chunk := ((st.text.length : Int) - st.lastInsertIndex).fdiv
              (((validLen : Int) - index) + 1) with hchunkdef
          set target0 : Int := (st.lastInsertIndex : Int) + chunk with htarget0
          have ht0 : (st.lastInsertIndex : Int) ≤ target0 ∧ target0 ≤ (st.text.length : Int) := by
            constructor <;> omega
          cases hfnl : indexOfFrom st.text ['\n'] target0.toNat with
          | none =>
            dsimp only
            refine ⟨target0.toNat, by omega, .inr (by omega), rfl, rfl⟩
          | some nn =>
            dsimp only
            obtain ⟨hn1, hn2, _, _⟩ := indexOfFrom_eq_some.mp hfnl
            have hmin : min target0.toNat st.text.length = target0.toNat := by
              apply Nat.min_eq_left
              omega
            rw [hmin] at hn1
            by_cases hc : (nn : Int) - target0 < 500
            · rw [if_pos hc]
              refine ⟨(nn : Int).toNat, by simpa using hn2, .inr ?_, rfl, rfl⟩
              simp only [Int.toNat_ofNat]
              omega
            · rw [if_neg hc]
              refine ⟨target0.toNat, by omega, .inr (by omega), rfl, rfl⟩

lemma asmFold_shape (validLen s1 : Nat) : ∀ (l : List Scene) (index : Nat) (st : AsmSt)
    (parts : List (Str × Nat)) (tail : Str),
    index + l.length ≤ validLen →
    (∀ sc ∈ l, sc.id ≠ 1 ∧ 1 ≤ sc.id ∧ sc.id < 7) →
    st.text = buildDoc parts tail →
    st.lastInsertIndex = (buildDoc parts []).length →
    partsOK parts → segOK tail →
    ∃ (parts2 : List (Str × Nat)) (tail2 : Str),
      (asmFoldAux validLen s1 l index st).text = buildDoc (parts ++ parts2) tail2 ∧
      partsOK (parts ++ parts2) ∧ segOK tail2 ∧
      parts2.map Prod.snd = l.map Scene.id := by
  intro l
  induction l with
  | nil =>
    intro index st parts tail _ _ htext hlast hparts htail
    exact ⟨[], tail, by rw [asmFoldAux, htext, List.append_nil], by rwa [List.append_nil],
      htail, rfl⟩
  | cons sc rest ih =>
    intro index st parts tail hlen hids htext hlast hparts htail
    rw [asmFoldAux]
    have hsc := hids sc (List.mem_cons_self _ _)
    have hinv : st.lastInsertIndex ≤ st.text.length := by
      rw [htext, hlast, buildDoc_append_tail parts tail]
      simp
    obtain ⟨pos, hpos, hge, htext', hlast'⟩ :=
      asmStep_shape validLen s1 index st sc (by simp at hlen; omega) hinv
    rcases hge with h1 | hge
    · exact absurd h1 hsc.1
    set o := pos - (buildDoc parts []).length with ho
    have hL : (buildDoc parts []).length ≤ pos := by rw [← hlast]; exact hge
    have htext2 : (asmStep validLen s1 index st sc).text =
        buildDoc (parts ++ [(tail.take o, sc.id)]) (tail.drop o) := by
      rw [htext', htext, insertAt_buildDoc parts tail sc.id pos hL (htext ▸ hpos)]
    have hlast2 : (asmStep validLen s1 index st sc).lastInsertIndex =
        (buildDoc (parts ++ [(tail.take o, sc.id)]) []).length := by
      rw [hlast', length_buildDoc_nil_snoc]
      have holen : (tail.take o).length = o := by
        rw [List.length_take]
        apply Nat.min_eq_left
        have := htext ▸ hpos
        rw [buildDoc_append_tail] at this
        simp at this
        omega
      omega
    have hparts2 : partsOK (parts ++ [(tail.take o, sc.id)]) := by
      intro p hp
      rcases List.mem_append.mp hp with hp | hp
      · exact hparts p hp
      · rcases List.mem_singleton.mp hp with rfl
        exact ⟨segOK_take o htail, hsc.2.1, hsc.2.2⟩
    obtain ⟨parts2, tail2, g1, g2, g3, g4⟩ :=
      ih (index + 1) (asmStep validLen s1 index st sc) (parts ++ [(tail.take o, sc.id)])
        (tail.drop o) (by simp at hlen ⊢; omega)
        (fun x hx => hids x (List.mem_cons_of_mem _ hx)) htext2 hlast2 hparts2
        (segOK_drop o htail)
    refine ⟨(tail.take o, sc.id) :: parts2, tail2, ?_, ?_, g3, ?_⟩
    · rw [g1]
      congr 1
      simp
    · have : parts ++ (tail.take o, sc.id) :: parts2 =
          (parts ++ [(tail.take o, sc.id)]) ++ parts2 := by simp
      rw [this]
      exact g2
    · simp [g4]

/-! ### `validScenesOf`: permutation, order, and id multiplicity -/

lemma insertByIdStable_perm (a : Scene) : ∀ l : List Scene,
    List.Perm (insertByIdStable a l) (a :: l) := by
  intro l
  induction l with
  | nil => rfl
  | cons b rest ih =>
    rw [insertByIdStable]
    split
    · exact (ih.cons b).trans (List.Perm.swap a b rest)
    · rfl

lemma sortByIdStable_perm : ∀ l : List Scene, List.Perm (sortByIdStable l) l := by
  intro l
  induction l with
  | nil => rfl
  | cons a rest ih =>
    rw [sortByIdStable]
    exact (insertByIdStable_perm a (sortByIdStable rest)).trans (ih.cons a)

lemma insertByIdStable_sorted (a : Scene) : ∀ l : List Scene,
    l.Pairwise (fun x y => x.id ≤ y.id) →
    (insertByIdStable a l).Pairwise (fun x y => x.id ≤ y.id) := by
  intro l
  induction l with
  | nil =>
    intro _
    rw [insertByIdStable]
    exact List.pairwise_singleton _ _
  | cons b rest ih =>
    intro hs
    rw [insertByIdStable]
    rw [List.pairwise_cons] at hs
    split
    · next hba =>
      rw [List.pairwise_cons]
      constructor
      · intro y hy
        rcases List.mem_cons.mp ((insertByIdStable_perm a rest).mem_iff.mp hy) with rfl | hy'
        · omega
        · exact hs.1 y hy'
      · exact ih hs.2
    · next hba =>
      rw [List.pairwise_cons]
      refine ⟨?_, List.pairwise_cons.mpr hs⟩
      intro y hy
      rcases List.mem_cons.mp hy with rfl | hy'
      · omega
      · have := hs.1 y hy'
        omega

lemma sortByIdStable_sorted : ∀ l : List Scene,
    (sortByIdStable l).Pairwise (fun x y => x.id ≤ y.id) := by
  intro l
  induction l with
  | nil => simp [sortByIdStable]
  | cons a rest ih =>
    rw [sortByIdStable]
    exact insertByIdStable_sorted a _ ih

lemma validScenesOf_perm (scenes : List Scene) :
    List.Perm (validScenesOf scenes)
      (scenes.filter fun s => !(s.status == SceneStatus.pending)) :=
  sortByIdStable_perm _

lemma mem_validScenesOf {scenes : List Scene} {sc : Scene}
    (h : sc ∈ validScenesOf scenes) :
    sc ∈ scenes ∧ sc.status ≠ SceneStatus.pending := by
  have h2 := (validScenesOf_perm scenes).mem_iff.mp h
  have h3 := List.of_mem_filter h2
  refine ⟨List.mem_of_mem_filter h2, ?_⟩
  simpa using h3

lemma filter_length_perm {α : Type} {l1 l2 : List α} (p : α → Bool)
    (h : List.Perm l1 l2) : (l1.filter p).length = (l2.filter p).length :=
  (h.filter p).length_eq

lemma filter_map_snd_length (i : Nat) : ∀ parts : List (Str × Nat),
    (parts.filter (fun p => p.2 == i)).length =
      ((parts.map Prod.snd).filter (fun x => x == i)).length := by
  intro parts
  induction parts with
  | nil => rfl
  | cons p rest ih =>
    rw [List.map_cons, List.filter_cons, List.filter_cons]
    cases hx : (p.2 == i) <;> simp [hx, ih]

lemma filter_map_id_length (i : Nat) : ∀ l : List Scene,
    ((l.map Scene.id).filter (fun x => x == i)).length =
      (l.filter (fun sc => sc.id == i)).length := by
  intro l
  induction l with
  | nil => rfl
  | cons sc rest ih =>
    rw [List.map_cons, List.filter_cons, List.filter_cons]
    cases hx : (sc.id == i) <;> simp [hx, ih]

/-- In a list with pairwise-distinct ids, the non-pending filter holds the
id of `sc` once if `sc` is non-pending, never if `sc` is pending. -/
lemma count_id_in_valid : ∀ (scenes : List Scene),
    (scenes.map Scene.id).Nodup → ∀ sc ∈ scenes,
    ((scenes.filter fun s => !(s.status == SceneStatus.pending)).filter
        (fun s => s.id == sc.id)).length =
      (if sc.status == SceneStatus.pending then 0 else 1) := by
  intro scenes
  induction scenes with
  | nil => intro _ sc h; cases h
  | cons a rest ih =>
    intro hnd sc hmem
    rw [List.map_cons, List.nodup_cons] at hnd
    have hrest_zero : ∀ j, a.id = j →
        ((rest.filter fun s => !(s.status == SceneStatus.pending)).filter
          (fun s => s.id == j)).length = 0 := by
      intro j hj
      subst hj
      rw [List.length_eq_zero, List.filter_eq_nil]
      intro x hx
      have hx2 : x ∈ rest := List.mem_of_mem_filter hx
      have : x.id ∈ rest.map Scene.id := List.mem_map_of_mem _ hx2
      intro hbeq
      rw [beq_iff_eq] at hbeq
      rw [hbeq] at this
      exact hnd.1 this
    rcases List.mem_cons.mp hmem with rfl | hmem'
    · rw [List.filter_cons]
      cases hst : (!(sc.status == SceneStatus.pending)) with
      | false =>
        simp only [Bool.false_eq_true, if_false]
        have : (sc.status == SceneStatus.pending) = true := by
          simpa using hst
        rw [this, if_pos rfl]
        exact hrest_zero sc.id rfl
      | true =>
        simp only [if_true]
        rw [List.filter_cons]
        have hself : (sc.id == sc.id) = true := by simp
        rw [hself]
        simp only [if_true, List.length_cons]
        have : (sc.status == SceneStatus.pending) = false := by
          simpa using hst
        rw [this]
        simp only [Bool.false_eq_true, if_false]
        rw [hrest_zero sc.id rfl]
    · rw [List.filter_cons]
      have hne : (a.id == sc.id) = false := by
        have : sc.id ∈ rest.map Scene.id := List.mem_map_of_mem _ hmem'
        cases hx : (a.id == sc.id)
        · rfl
        · rw [beq_iff_eq] at hx
          rw [← hx] at this
          exact absurd this hnd.1
      cases hst : (!(a.status == SceneStatus.pending)) with
      | false =>
        simp only [Bool.false_eq_true, if_false]
        exact ih hnd.2 sc hmem'
      | true =>
        simp only [if_true]
        rw [List.filter_cons, hne]
        simp only [Bool.false_eq_true, if_false]
        exact ih hnd.2 sc hmem'

lemma nodup_valid_ids {scenes : List Scene} (hids : (scenes.map Scene.id).Nodup) :
    ((validScenesOf scenes).map Scene.id).Nodup := by
  have hsub : ((scenes.filter fun s => !(s.status == SceneStatus.pending)).map Scene.id).Nodup :=
    ((List.filter_sublist scenes).map Scene.id).nodup hids
  exact ((validScenesOf_perm scenes).map Scene.id).nodup_iff.mpr hsub

lemma assembleMarkdown_shape (fullText : Str) (scenes : List Scene)
    (hft : segOK fullText)
    (hids : (scenes.map Scene.id).Nodup)
    (hrange : ∀ sc ∈ scenes, 1 ≤ sc.id ∧ sc.id < 7) :
    ∃ (parts : List (Str × Nat)) (tail : Str),
      (assembleMarkdown fullText scenes).text = buildDoc parts tail ∧
      partsOK parts ∧ segOK tail ∧
      parts.map Prod.snd = (validScenesOf scenes).map Scene.id := by
  have hvrange : ∀ sc ∈ validScenesOf scenes, 1 ≤ sc.id ∧ sc.id < 7 :=
    fun sc h => hrange sc (mem_validScenesOf h).1
  have hvnodup := nodup_valid_ids hids
  rw [assembleMarkdown]
  cases hv : validScenesOf scenes with
  | nil =>
    exact ⟨[], fullText, rfl, fun p hp => absurd hp (List.not_mem_nil p), hft, rfl⟩
  | cons sc0 rest =>
    rw [asmFoldAux]
    set v := (sc0 :: rest).length with hvlen
    set s1 := findBeforeSectionOneIndex fullText with hs1
    set st0 : AsmSt := ⟨fullText, 0, 0, []⟩ with hst0
    obtain ⟨pos, hpos, _, htext', hlast'⟩ :=
      asmStep_shape v s1 0 st0 sc0 (by simp [hvlen]) (by simp [hst0])
    have hsc0 : 1 ≤ sc0.id ∧ sc0.id < 7 := by
      have := hvrange sc0 (by rw [hv]; exact List.mem_cons_self _ _)
      exact this
    have htext2 : (asmStep v s1 0 st0 sc0).text =
        buildDoc [(fullText.take pos, sc0.id)] (fullText.drop pos) := by
      rw [htext']
      have h0 : st0.text = buildDoc [] fullText := rfl
      have := insertAt_buildDoc [] fullText sc0.id pos (by simp [buildDoc]) (by
        simpa [buildDoc] using hpos)
      simpa [buildDoc] using this
    have hlast2 : (asmStep v s1 0 st0 sc0).lastInsertIndex =
        (buildDoc [(fullText.take pos, sc0.id)] []).length := by
      rw [hlast']
      have holen : (fullText.take pos).length = pos := by
        rw [List.length_take]
        apply Nat.min_eq_left
        simpa [hst0] using hpos
      simp [buildDoc, holen]
      omega
    have hparts1 : partsOK [(fullText.take pos, sc0.id)] := by
      intro p hp
      rcases List.mem_singleton.mp hp with rfl
      exact ⟨segOK_take pos hft, hsc0.1, hsc0.2⟩
    have hrest_ids : ∀ sc ∈ rest, sc.id ≠ 1 ∧ 1 ≤ sc.id ∧ sc.id < 7 := by
      intro sc hsc
      have hr := hvrange sc (by rw [hv]; exact List.mem_cons_of_mem _ hsc)
      refine ⟨?_, hr.1, hr.2⟩
      have hsorted := sortByIdStable_sorted (scenes.filter fun s =>
        !(s.status == SceneStatus.pending))
      rw [show sortByIdStable (scenes.filter fun s => !(s.status == SceneStatus.pending)) =
          validScenesOf scenes from rfl, hv, List.pairwise_cons] at hsorted
      have hle : sc0.id ≤ sc.id := hsorted.1 sc hsc
      have hne : sc0.id ≠ sc.id := by
        rw [hv, List.map_cons, List.nodup_cons] at hvnodup
        intro he
        exact hvnodup.1 (he ▸ List.mem_map_of_mem _ hsc)
      have h1 : 1 ≤ sc0.id := by
        have := hvrange sc0 (by rw [hv]; exact List.mem_cons_self _ _)
        exact this.1
      omega
    obtain ⟨parts2, tail2, g1, g2, g3, g4⟩ :=
      asmFold_shape v s1 rest 1 (asmStep v s1 0 st0 sc0)
        [(fullText.take pos, sc0.id)] (fullText.drop pos)
        (by simp only [hvlen, List.length_cons]; omega) hrest_ids htext2 hlast2 hparts1
        (segOK_drop pos hft)
    refine ⟨(fullText.take pos, sc0.id) :: parts2, tail2, ?_, ?_, g3, ?_⟩
    · rw [g1]
      congr 1
    · intro p hp
      apply g2
      simpa using hp
    · simp [g4]

lemma matchWrappedAt_none {tok s : Str} (h1 : "<p>".data.isPrefixOf s = false)
    (h2 : tok.isPrefixOf s = false) : matchWrappedAt tok s = none := by
  rw [matchWrappedAt]
  dsimp only
  simp only [h1, h2]
  rw [if_neg Bool.false_ne_true, if_neg Bool.false_ne_true]

lemma matchWrappedAt_token {tok cont : Str}
    (h1 : "<p>".data.isPrefixOf (tok ++ cont) = false)
    (h2 : "</p>".data.isPrefixOf
        (cont.drop ((cont.takeWhile isJsWhitespace).length)) = false) :
    matchWrappedAt tok (tok ++ cont) = some tok.length := by
  rw [matchWrappedAt]
  dsimp only
  simp only [h1]
  rw [if_neg Bool.false_ne_true]
  have hp : tok.isPrefixOf (tok ++ cont) = true :=
    List.isPrefixOf_iff_prefix.mpr ⟨cont, rfl⟩
  simp only [hp, if_true, List.drop_left, h2]
  rw [if_neg Bool.false_ne_true]
  simp

lemma go_skip (tok repl : Str) : ∀ (f rest : Str) (fuel : Nat),
    (f ++ rest).length ≤ fuel →
    (∀ q, q < f.length → matchWrappedAt tok ((f ++ rest).drop q) = none) →
    replaceWrappedGo tok repl fuel (f ++ rest) =
      f ++ replaceWrappedGo tok repl (fuel - f.length) rest := by
  intro f
  induction f with
  | nil => intro rest fuel _ _; simp
  | cons c cs ih =>
    intro rest fuel hlen hnone
    obtain ⟨fl, rfl⟩ : ∃ fl, fuel = fl + 1 := by
      refine ⟨fuel - 1, ?_⟩
      simp only [List.cons_append, List.length_cons] at hlen
      omega
    have harith : fl + 1 - (c :: cs).length = fl - cs.length := by
      simp only [List.length_cons]; omega
    rw [harith, List.cons_append, replaceWrappedGo]
    have h0 := hnone 0 (by simp)
    rw [List.drop_zero, List.cons_append] at h0
    rw [h0]
    dsimp only
    have hnone' : ∀ q, q < cs.length → matchWrappedAt tok ((cs ++ rest).drop q) = none := by
      intro q hq
      have hh := hnone (q + 1) (by simp only [List.length_cons]; omega)
      rw [List.cons_append, List.drop_succ_cons] at hh
      exact hh
    rw [ih rest fl (by simp only [List.cons_append, List.length_cons] at hlen; omega) hnone']
    rfl

lemma tok_head : ∀ j : Nat, j < 7 → 1 ≤ j → (tokenStr j).head? = some '<' := by decide

lemma tok_not_prefix_drop (j : Nat) (hj1 : 1 ≤ j) (hj7 : j < 7) {f : Str}
    (hf : containsSub sceneMarker f = false) (q : Nat) :
    (tokenStr j).isPrefixOf (f.drop q) = false := by
  cases hx : (tokenStr j).isPrefixOf (f.drop q) with
  | false => rfl
  | true =>
    exfalso
    have hm : sceneMarker.isPrefixOf (f.drop q) = true :=
      isPrefixOf_extend (tok_facts j hj7 hj1).2.2.1
        (List.isPrefixOf_iff_prefix.mp hx)
    have h2 := containsSub_of_isPrefixOf_drop hm (by decide)
    rw [h2] at hf
    cases hf

lemma noMatch_in_seg (j : Nat) (hj1 : 1 ≤ j) (hj7 : j < 7) {f : Str} (hf : segOK f)
    (q : Nat) : matchWrappedAt (tokenStr j) (f.drop q) = none := by
  apply matchWrappedAt_none
  · exact not_isPrefixOf_drop_of_not_containsSub (by decide) hf.2.1
  · exact tok_not_prefix_drop j hj1 hj7 hf.1 q

lemma noMatch_in_seg_nl (j : Nat) (hj1 : 1 ≤ j) (hj7 : j < 7) {f : Str} (hf : segOK f)
    (Y : Str) (q : Nat) (hq : q < f.length) :
    matchWrappedAt (tokenStr j) ((f ++ '\n' :: Y).drop q) = none := by
  have hdrop : (f ++ '\n' :: Y).drop q = f.drop q ++ '\n' :: Y := by
    rw [List.drop_append_eq_append_drop]
    have hz : q - f.length = 0 := by omega
    rw [hz, List.drop_zero]
  rw [hdrop]
  apply matchWrappedAt_none
  · rw [isPrefixOf_append_barrier "<p>".data '\n' (by decide)]
    exact not_isPrefixOf_drop_of_not_containsSub (by decide) hf.2.1
  · rw [isPrefixOf_append_barrier (tokenStr j) '\n' (tok_facts j hj7 hj1).2.1]
    exact tok_not_prefix_drop j hj1 hj7 hf.1 q

lemma noMatch_at_nl (j : Nat) (hj1 : 1 ≤ j) (hj7 : j < 7) (Y : Str) :
    matchWrappedAt (tokenStr j) ('\n' :: Y) = none := by
  apply matchWrappedAt_none
  · have hp : "<p>".data = '<' :: "p>".data := rfl
    rw [hp]
    exact isPrefixOf_cons_false (by decide)
  · cases htok : tokenStr j with
    | nil => exact absurd htok (tok_facts j hj7 hj1).2.2.2.2.2.2.1
    | cons a as =>
      have hh := tok_head j hj7 hj1
      rw [htok] at hh
      simp only [List.head?] at hh
      cases hh
      exact isPrefixOf_cons_false (by decide)

lemma noMatch_in_tok (j i : Nat) (hj1 : 1 ≤ j) (hj7 : j < 7) (hi1 : 1 ≤ i) (hi7 : i < 7)
    (hne : i ≠ j) (Y : Str) (r : Nat) :
    matchWrappedAt (tokenStr j) (((tokenStr i).drop r) ++ '\n' :: Y) = none := by
  apply matchWrappedAt_none
  · rw [isPrefixOf_append_barrier "<p>".data '\n' (by decide)]
    exact not_isPrefixOf_drop_of_not_containsSub (by decide)
      (tok_facts i hi7 hi1).2.2.2.1
  · rw [isPrefixOf_append_barrier (tokenStr j) '\n' (tok_facts j hj7 hj1).2.1]
    cases hx : (tokenStr j).isPrefixOf ((tokenStr i).drop r) with
    | false => rfl
    | true =>
      exfalso
      have h2 := containsSub_of_isPrefixOf_drop hx (tok_facts j hj7 hj1).2.2.2.2.2.2.1
      have h3 := (tok_pair j i hj7 hi7 hj1 hi1).2 (fun he => hne he.symm)
      rw [h2] at h3
      cases h3

lemma go_nil (tok repl : Str) (fuel : Nat) :
    replaceWrappedGo tok repl fuel [] = [] := by
  cases fuel <;> rfl

lemma go_step_match (tok repl s : Str) (fuel n : Nat) (hne : s ≠ [])
    (hm : matchWrappedAt tok s = some (n + 1)) :
    replaceWrappedGo tok repl (fuel + 1) s =
      repl ++ replaceWrappedGo tok repl fuel (s.drop (n + 1)) := by
  cases s with
  | nil => exact absurd rfl hne
  | cons c cs =>
    rw [replaceWrappedGo, hm]

lemma go_step_none (tok repl : Str) (fuel : Nat) (c : Char) (cs : Str)
    (hm : matchWrappedAt tok (c :: cs) = none) :
    replaceWrappedGo tok repl (fuel + 1) (c :: cs) =
      c :: replaceWrappedGo tok repl fuel cs := by
  rw [replaceWrappedGo, hm]

lemma replaceGo_buildDoc (j : Nat) (hj1 : 1 ≤ j) (hj7 : j < 7) (repl : Str)
    (hrepl : segOK repl) :
    ∀ (parts : List (Str × Nat)) (tail : Str) (fuel : Nat),
      partsOK parts → segOK tail →
      (buildDoc parts tail).length ≤ fuel →
      ∃ (parts2 : List (Str × Nat)) (tail2 : Str),
        replaceWrappedGo (tokenStr j) repl fuel (buildDoc parts tail) =
          buildDoc parts2 tail2 ∧
        partsOK parts2 ∧ segOK tail2 ∧
        parts2.map Prod.snd = (parts.map Prod.snd).filter (fun x => !(x == j)) := by
  intro parts
  induction parts with
  | nil =>
    intro tail fuel _ htail hfuel
    refine ⟨[], tail, ?_, fun p hp => absurd hp (List.not_mem_nil p), htail, rfl⟩
    rw [buildDoc] at hfuel ⊢
    have hskip := go_skip (tokenStr j) repl tail [] fuel
      (by rwa [List.append_nil])
      (by
        intro q hq
        rw [List.append_nil]
        exact noMatch_in_seg j hj1 hj7 htail q)
    rw [List.append_nil] at hskip
    rw [hskip, go_nil, List.append_nil]
  | cons p rest' ih =>
    intro tail fuel hparts htail hfuel
    obtain ⟨f, i⟩ := p
    have hp := hparts (f, i) (List.mem_cons_self _ _)
    have hf : segOK f := hp.1
    have hi1 : 1 ≤ (f, i).2 := hp.2.1
    have hi7 : (f, i).2 < 7 := hp.2.2
    simp only at hi1 hi7
    have hrest : partsOK rest' := fun q hq => hparts q (List.mem_cons_of_mem _ hq)
    set R := buildDoc rest' tail with hR
    have hs : buildDoc ((f, i) :: rest') tail = f ++ '\n' :: (tokenStr i ++ '\n' :: R) := rfl
    have hlen20 : (tokenStr i).length = 20 := (tok_facts i hi7 hi1).1
    have hlenj20 : (tokenStr j).length = 20 := (tok_facts j hj7 hj1).1
    have hslen : (buildDoc ((f, i) :: rest') tail).length =
        f.length + 1 + 20 + 1 + R.length := by
      rw [hs]
      simp [hlen20]
      omega
    by_cases hij : i = j
    · -- the block is replaced
      subst hij
      have hsplit : f ++ '\n' :: (tokenStr i ++ '\n' :: R) =
          (f ++ ['\n']) ++ (tokenStr i ++ '\n' :: R) := by simp
      have hnone1 : ∀ q, q < (f ++ ['\n']).length →
          matchWrappedAt (tokenStr i)
            (((f ++ ['\n']) ++ (tokenStr i ++ '\n' :: R)).drop q) = none := by
        intro q hq
        rw [← hsplit]
        simp only [List.length_append, List.length_cons, List.length_nil] at hq
        by_cases hqf : q < f.length
        · exact noMatch_in_seg_nl i hi1 hi7 hf (tokenStr i ++ '\n' :: R) q hqf
        · have hqe : q = f.length := by omega
          subst hqe
          rw [List.drop_left]
          exact noMatch_at_nl i hi1 hi7 _
      have hskip := go_skip (tokenStr i) repl (f ++ ['\n']) (tokenStr i ++ '\n' :: R) fuel
        (by rw [← hsplit, ← hs]; exact hfuel) hnone1
      have hnoclose : containsSub "</p>".data ('\n' :: R) = false := by
        have hRc := buildDoc_noClose rest' tail hrest htail
        rw [← hR] at hRc
        rw [show ('\n' :: R : Str) = [] ++ '\n' :: R from rfl,
          containsSub_append_barrier "</p>".data '\n' (by decide) (by decide), hRc]
        decide
      have hmatch : matchWrappedAt (tokenStr i) (tokenStr i ++ '\n' :: R) =
          some (19 + 1) := by
        have h := @matchWrappedAt_token (tokenStr i) ('\n' :: R)
          (by
            rw [isPrefixOf_append_left "<p>".data (tokenStr i) ('\n' :: R)
              (by rw [hlen20]; decide)]
            exact (tok_facts i hi7 hi1).2.2.2.2.2.1)
          (not_isPrefixOf_drop_of_not_containsSub (by decide) hnoclose)
        rw [h, hlen20]
      set fuel1 := fuel - (f ++ ['\n']).length with hfuel1
      have hfuel1ge : 21 + R.length ≤ fuel1 := by
        rw [hfuel1]
        rw [hslen] at hfuel
        simp only [List.length_append, List.length_cons, List.length_nil]
        omega
      obtain ⟨fl, hfl⟩ : ∃ fl, fuel1 = fl + 1 := ⟨fuel1 - 1, by omega⟩
      have hstep := go_step_match (tokenStr i) repl (tokenStr i ++ '\n' :: R) fl 19
        (by
          intro h
          exact (tok_facts i hi7 hi1).2.2.2.2.2.2.1 (List.append_eq_nil.mp h).1)
        hmatch
      have hdrop20 : (tokenStr i ++ '\n' :: R).drop (19 + 1) = '\n' :: R := by
        rw [show (19 + 1 : Nat) = (tokenStr i).length from by rw [hlen20], List.drop_left]
      obtain ⟨fl2, hfl2⟩ : ∃ fl2, fl = fl2 + 1 := ⟨fl - 1, by omega⟩
      have hstep2 := go_step_none (tokenStr i) repl fl2 '\n' R (noMatch_at_nl i hi1 hi7 R)
      obtain ⟨parts2, tail2, g1, g2, g3, g4⟩ := ih tail fl2 hrest htail
        (by rw [← hR]; omega)
      rw [← hR] at g1
      have hres : replaceWrappedGo (tokenStr i) repl fuel (buildDoc ((f, i) :: rest') tail) =
          (f ++ ['\n']) ++ (repl ++ '\n' :: buildDoc parts2 tail2) := by
        rw [hs, hsplit, hskip, hfl, hstep, hdrop20, hfl2, hstep2, g1]
      cases hp2 : parts2 with
      | nil =>
        refine ⟨[], f ++ '\n' :: (repl ++ '\n' :: tail2), ?_, ?_, ?_, ?_⟩
        · rw [hres, hp2]
          rw [buildDoc, buildDoc]
          simp
        · exact fun p hp => absurd hp (List.not_mem_nil p)
        · exact segOK_glue_nl hf (segOK_glue_nl hrepl g3)
        · simp only [List.map_cons, List.map_nil, List.filter_cons, beq_self_eq_true,
            Bool.not_true, Bool.false_eq_true, if_false]
          rw [hp2] at g4
          simpa using g4
      | cons q pr =>
        obtain ⟨g, k⟩ := q
        refine ⟨(f ++ '\n' :: (repl ++ '\n' :: g), k) :: pr, tail2, ?_, ?_, ?_, ?_⟩
        · rw [hres, hp2]
          rw [buildDoc, buildDoc]
          simp
        · intro p hp
          rcases List.mem_cons.mp hp with rfl | hp'
          · have hgk := g2 (g, k) (by rw [hp2]; exact List.mem_cons_self _ _)
            exact ⟨segOK_glue_nl hf (segOK_glue_nl hrepl hgk.1), hgk.2.1, hgk.2.2⟩
          · exact g2 _ (by rw [hp2]; exact List.mem_cons_of_mem _ hp')
        · exact g3
        · simp only [List.map_cons, List.filter_cons, beq_self_eq_true,
            Bool.not_true, Bool.false_eq_true, if_false]
          rw [hp2] at g4
          simpa using g4
    · -- the block is kept
      have hsplit : f ++ '\n' :: (tokenStr i ++ '\n' :: R) =
          (f ++ '\n' :: (tokenStr i ++ ['\n'])) ++ R := by simp
      have hAlen : (f ++ '\n' :: (tokenStr i ++ ['\n'])).length = f.length + 22 := by
        simp only [List.length_append, List.length_cons, List.length_nil, hlen20]
      have hnone1 : ∀ q, q < (f ++ '\n' :: (tokenStr i ++ ['\n'])).length →
          matchWrappedAt (tokenStr j)
            (((f ++ '\n' :: (tokenStr i ++ ['\n'])) ++ R).drop q) = none := by
        intro q hq
        rw [← hsplit]
        rw [hAlen] at hq
        by_cases hqf : q < f.length
        · exact noMatch_in_seg_nl j hj1 hj7 hf (tokenStr i ++ '\n' :: R) q hqf
        · by_cases hqe : q = f.length
          · subst hqe
            rw [List.drop_left]
            exact noMatch_at_nl j hj1 hj7 _
          · have hr : q = f.length + 1 + (q - f.length - 1) := by omega
            have hrlt : q - f.length - 1 ≤ 20 := by omega
            have hdropq : (f ++ '\n' :: (tokenStr i ++ '\n' :: R)).drop q =
                ((tokenStr i).drop (q - f.length - 1)) ++ '\n' :: R := by
              rw [List.drop_append_eq_append_drop]
              rw [List.drop_of_length_le (by omega)]
              rw [List.nil_append]
              have h2 : q - f.length = (q - f.length - 1) + 1 := by omega
              rw [h2, List.drop_succ_cons, List.drop_append_eq_append_drop]
              have h3 : q - f.length - 1 - (tokenStr i).length = 0 := by
                rw [hlen20]; omega
              rw [h3, List.drop_zero]
              have h4 : q - f.length - 1 + 1 - 1 = q - f.length - 1 := by omega
              rw [h4]
            rw [hdropq]
            exact noMatch_in_tok j i hj1 hj7 hi1 hi7 hij R _
      have hskip := go_skip (tokenStr j) repl (f ++ '\n' :: (tokenStr i ++ ['\n'])) R fuel
        (by rw [← hsplit, ← hs]; exact hfuel) hnone1
      obtain ⟨parts2, tail2, g1, g2, g3, g4⟩ := ih tail (fuel -
        (f ++ '\n' :: (tokenStr i ++ ['\n'])).length) hrest htail
        (by
          rw [hAlen, ← hR]
          rw [hslen] at hfuel
          omega)
      rw [← hR] at g1
      refine ⟨(f, i) :: parts2, tail2, ?_, ?_, g3, ?_⟩
      · rw [hs, hsplit, hskip, g1, buildDoc]
        simp
      · intro pq hmem
        rcases List.mem_cons.mp hmem with rfl | hp'
        · exact hp
        · exact g2 _ hp'
      · simp only [List.map_cons, List.filter_cons]
        have hbe : (!((f, i).2 == j)) = true := by
          simp [hij]
        rw [hbe, if_pos rfl, g4]

lemma replaceAllTokens_cons (dict : List (Str × Str)) (sc : Scene) (scl' : List Scene)
    (html : Str) :
    replaceAllTokens dict (sc :: scl') html =
      replaceAllTokens dict scl'
        (replaceWrappedAux (tokenStr sc.id)
          ((assocLookup dict (tokenStr sc.id)).getD []) html) := rfl

lemma replaceAll_clean (dict : List (Str × Str))
    (hdict : ∀ k v, assocLookup dict k = some v → segOK v) :
    ∀ (scl : List Scene) (parts : List (Str × Nat)) (tail : Str),
      partsOK parts → segOK tail →
      (∀ sc ∈ scl, 1 ≤ sc.id ∧ sc.id < 7) →
      ∃ (parts2 : List (Str × Nat)) (tail2 : Str),
        replaceAllTokens dict scl (buildDoc parts tail) = buildDoc parts2 tail2 ∧
        partsOK parts2 ∧ segOK tail2 ∧
        parts2.map Prod.snd = (parts.map Prod.snd).filter
          (fun x => !((scl.map Scene.id).contains x)) := by
  intro scl
  induction scl with
  | nil =>
    intro parts tail hparts htail _
    refine ⟨parts, tail, rfl, hparts, htail, ?_⟩
    rw [List.filter_eq_self.mpr]
    intro a _
    simp
  | cons sc scl' ih =>
    intro parts tail hparts htail hids
    have hsc := hids sc (List.mem_cons_self _ _)
    have hrepl : segOK ((assocLookup dict (tokenStr sc.id)).getD []) := by
      cases hl : assocLookup dict (tokenStr sc.id) with
      | none => exact segOK_nil
      | some v =>
        simp only [Option.getD_some]
        exact hdict _ v hl
    rw [replaceAllTokens_cons]
    rw [replaceWrappedAux]
    obtain ⟨parts1, tail1, g1, g2, g3, g4⟩ :=
      replaceGo_buildDoc sc.id hsc.1 hsc.2 _ hrepl parts tail
        (buildDoc parts tail).length hparts htail (le_refl _)
    rw [g1]
    obtain ⟨parts2, tail2, h1, h2, h3, h4⟩ :=
      ih parts1 tail1 g2 g3 (fun x hx => hids x (List.mem_cons_of_mem _ hx))
    refine ⟨parts2, tail2, h1, h2, h3, ?_⟩
    rw [h4, g4, List.filter_filter]
    apply List.filter_congr
    intro x _
    rw [List.map_cons]
    show (!(List.map Scene.id scl').contains x && !(x == sc.id)) =
      !((sc.id :: List.map Scene.id scl').contains x)
    rw [List.contains_cons]
    cases hx1 : (x == sc.id) <;> cases hx2 : (List.map Scene.id scl').contains x <;> simp [hx1, hx2]

lemma segOK_interactiveFragment (sc : Scene) (hid1 : 1 ≤ sc.id) (hid7 : sc.id < 7)
    (hurl : ∀ u, sc.imageUrl = some u → u.contains '<' = false) :
    segOK (interactiveFragment sc) := by
  have hnd : natToDecimal sc.id = [digitChar sc.id] :=
    (tok_facts sc.id hid7 hid1).2.2.2.2.2.2.2
  have hd := digit_facts sc.id hid7 hid1
  have hu : segOK (sc.imageUrl.getD []) := by
    cases hiu : sc.imageUrl with
    | none => exact segOK_nil
    | some u =>
      simp only [Option.getD_some]
      exact segOK_of_no_lt (hurl u hiu)
  rw [interactiveFragment]
  split
  · -- completed with image
    rw [hnd]
    have e0 : itplC_0 = itplC_0.dropLast ++ '"' :: [] := by decide
    have e1 : itplC_1 = '"' :: itplC_1.tail := by decide
    have e2 : itplC_2 = '"' :: itplC_2.tail := by decide
    have e3 : itplC_3 = '"' :: itplC_3.tail := by decide
    have e4 : itplC_4 = '\n' :: itplC_4.tail := by decide
    have s1 : segOK (itplC_0 ++ sc.imageUrl.getD []) := by
      rw [e0, List.append_assoc, List.cons_append, List.nil_append]
      exact segOK_glue '"' (by decide) hu (by decide) (by decide) (by decide)
    have s2 : segOK (itplC_0 ++ sc.imageUrl.getD [] ++ itplC_1) := by
      rw [e1]
      exact segOK_glue '"' s1 (by decide) (by decide) (by decide) (by decide)
    have s3 : segOK (itplC_0 ++ sc.imageUrl.getD [] ++ itplC_1 ++ [digitChar sc.id]) :=
      segOK_glue _ s2 segOK_nil hd.1 hd.2.1 hd.2.2
    have s4 : segOK (itplC_0 ++ sc.imageUrl.getD [] ++ itplC_1 ++ [digitChar sc.id] ++
        itplC_2) := by
      rw [e2]
      exact segOK_glue '"' s3 (by decide) (by decide) (by decide) (by decide)
    have s5 : segOK (itplC_0 ++ sc.imageUrl.getD [] ++ itplC_1 ++ [digitChar sc.id] ++
        itplC_2 ++ [digitChar sc.id]) :=
      segOK_glue _ s4 segOK_nil hd.1 hd.2.1 hd.2.2
    have s6 : segOK (itplC_0 ++ sc.imageUrl.getD [] ++ itplC_1 ++ [digitChar sc.id] ++
        itplC_2 ++ [digitChar sc.id] ++ itplC_3) := by
      rw [e3]
      exact segOK_glue '"' s5 (by decide) (by decide) (by decide) (by decide)
    have s7 : segOK (itplC_0 ++ sc.imageUrl.getD [] ++ itplC_1 ++ [digitChar sc.id] ++
        itplC_2 ++ [digitChar sc.id] ++ itplC_3 ++ [digitChar sc.id]) :=
      segOK_glue _ s6 segOK_nil hd.1 hd.2.1 hd.2.2
    rw [e4]
    exact segOK_glue_nl s7 (by decide)
  · split
    · -- error
      rw [hnd]
      have eE1 : itplE_1 = '"' :: itplE_1.tail := by decide
      have sE : segOK (itplE_0 ++ [digitChar sc.id]) :=
        segOK_glue _ (by decide) segOK_nil hd.1 hd.2.1 hd.2.2
      rw [eE1]
      exact segOK_glue '"' sE (by decide) (by decide) (by decide) (by decide)
    · split
      · -- generating
        rw [hnd]
        have eG1 : itplG_1 = '.' :: itplG_1.tail := by decide
        have sG : segOK (itplG_0 ++ [digitChar sc.id]) :=
          segOK_glue _ (by decide) segOK_nil hd.1 hd.2.1 hd.2.2
        rw [eG1]
        exact segOK_glue '.' sG (by decide) (by decide) (by decide) (by decide)
      · exact segOK_nil

lemma segOK_cleanFragment (sc : Scene) (hid1 : 1 ≤ sc.id) (hid7 : sc.id < 7)
    (hurl : ∀ u, sc.imageUrl = some u → u.contains '<' = false) :
    segOK (cleanFragment sc) := by
  have hu : segOK (sc.imageUrl.getD []) := by
    cases hiu : sc.imageUrl with
    | none => exact segOK_nil
    | some u =>
      simp only [Option.getD_some]
      exact segOK_of_no_lt (hurl u hiu)
  rw [cleanFragment]
  split
  · have e0 : ctplC_0 = ctplC_0.dropLast ++ '"' :: [] := by decide
    have e1 : ctplC_1 = '"' :: ctplC_1.tail := by decide
    have s1 : segOK (ctplC_0 ++ sc.imageUrl.getD []) := by
      rw [e0, List.append_assoc, List.cons_append, List.nil_append]
      exact segOK_glue '"' (by decide) hu (by decide) (by decide) (by decide)
    rw [e1]
    exact segOK_glue '"' s1 (by decide) (by decide) (by decide) (by decide)
  · exact segOK_nil

lemma assocLookup_mem {l : List (Str × Str)} {k v : Str}
    (h : assocLookup l k = some v) : (k, v) ∈ l := by
  rw [assocLookup] at h
  cases hf : l.reverse.find? (fun p => p.1 == k) with
  | none => rw [hf] at h; cases h
  | some p =>
    rw [hf] at h
    simp only [Option.map_some'] at h
    have hm := List.mem_of_find?_eq_some hf
    have hp := List.find?_some hf
    rw [List.mem_reverse] at hm
    obtain ⟨p1, p2⟩ := p
    cases h
    have he : p1 = k := by simpa using hp
    subst he
    exact hm

lemma contains_of_mem {l : List Nat} {a : Nat} (h : a ∈ l) : l.contains a = true := by
  induction l with
  | nil => cases h
  | cons b rest ih =>
    rw [List.contains_cons]
    rcases List.mem_cons.mp h with rfl | h'
    · simp
    · rw [ih h']
      simp

/-- C1 (amended): with the markdown renderer taken as the identity (tokens
preserved verbatim), scene ids pairwise distinct and within the analysis
stage's 1–6 range, a source text free of the token marker and of
`<p>`/`</p>`, and image URLs free of `<` and `$` (so they can neither carry
token text nor `$`-substitution patterns), the assembly pass places exactly
one `<!--IMAGE_SCENE_id-->` token per non-pending scene in the markdown and
none for a pending scene, and the substitution pass replaces every token:
no scene's token string remains in `htmlContent` or `cleanHtmlContent`.
Without the URL hypothesis the claim fails — an `imageUrl` holding a token
string survives into both outputs (see the counterexample). -/
theorem assembleDocument_tokens (fullText : Str) (scenes : List Scene)
    (hft : fullText ≠ [])
    (hclean1 : containsSub "<!--IMAGE_SCENE_".data fullText = false)
    (hclean2 : containsSub "<p>".data fullText = false)
    (hclean3 : containsSub "</p>".data fullText = false)
    (hids : (scenes.map Scene.id).Nodup)
    (hrange : ∀ sc ∈ scenes, 1 ≤ sc.id ∧ sc.id ≤ 6)
    (hurl : ∀ sc ∈ scenes, ∀ u, sc.imageUrl = some u →
        u.contains '<' = false ∧ u.contains '$' = false) :
    ∃ out, assembleDocument (fun s => s) fullText scenes = some out ∧
      (∀ sc ∈ scenes, sc.status ≠ SceneStatus.pending →
          countOcc (tokenStr sc.id) out.result.markdownWithImages = 1) ∧
      (∀ sc ∈ scenes, sc.status = SceneStatus.pending →
          countOcc (tokenStr sc.id) out.result.markdownWithImages = 0) ∧
      (∀ sc ∈ scenes, containsSub (tokenStr sc.id) out.result.htmlContent = false) ∧
      (∀ sc ∈ scenes, containsSub (tokenStr sc.id) out.result.cleanHtmlContent = false) := by
  have hseg : segOK fullText := ⟨hclean1, hclean2, hclean3⟩
  have hrange7 : ∀ sc ∈ scenes, 1 ≤ sc.id ∧ sc.id < 7 := by
    intro sc h
    have := hrange sc h
    omega
  have hfe : fullText.isEmpty = false := by
    cases fullText with
    | nil => exact absurd rfl hft
    | cons c cs => rfl
  have hdoc : assembleDocument (fun s => s) fullText scenes =
      some ⟨⟨(assembleMarkdown fullText scenes).text,
          replaceAllTokens
            ((validScenesOf scenes).map fun sc => (tokenStr sc.id, interactiveFragment sc))
            scenes (assembleMarkdown fullText scenes).text,
          replaceAllTokens
            ((validScenesOf scenes).map fun sc => (tokenStr sc.id, cleanFragment sc))
            scenes (assembleMarkdown fullText scenes).text⟩,
        (assembleMarkdown fullText scenes).placements⟩ := by
    rw [assembleDocument]
    simp only [hfe]
    rw [if_neg Bool.false_ne_true]
  obtain ⟨parts, tail, hmd, hpOK, htOK, hpids⟩ :=
    assembleMarkdown_shape fullText scenes hseg hids hrange7
  have hcount : ∀ sc ∈ scenes,
      countOcc (tokenStr sc.id) (assembleMarkdown fullText scenes).text =
        (if sc.status == SceneStatus.pending then 0 else 1) := by
    intro sc hsc
    have hr := hrange7 sc hsc
    rw [hmd, countOcc_buildDoc sc.id hr.2 hr.1 parts tail hpOK htOK,
      filter_map_snd_length, hpids,
      filter_length_perm (fun x => x == sc.id) ((validScenesOf_perm scenes).map Scene.id),
      filter_map_id_length]
    exact count_id_in_valid scenes hids sc hsc
  have hdict : ∀ (frag : Scene → Str), (∀ sc ∈ scenes, segOK (frag sc)) →
      ∀ k v, assocLookup ((validScenesOf scenes).map fun sc => (tokenStr sc.id, frag sc)) k
        = some v → segOK v := by
    intro frag hfrag k v h
    have hm := assocLookup_mem h
    rw [List.mem_map] at hm
    obtain ⟨sc', hsc', he⟩ := hm
    have he2 : frag sc' = v := congrArg Prod.snd he
    rw [← he2]
    exact hfrag sc' (mem_validScenesOf hsc').1
  have hIfrag : ∀ sc ∈ scenes, segOK (interactiveFragment sc) := fun sc h =>
    segOK_interactiveFragment sc (hrange7 sc h).1 (hrange7 sc h).2
      (fun u hu => ((hurl sc h) u hu).1)
  have hCfrag : ∀ sc ∈ scenes, segOK (cleanFragment sc) := fun sc h =>
    segOK_cleanFragment sc (hrange7 sc h).1 (hrange7 sc h).2
      (fun u hu => ((hurl sc h) u hu).1)
  have hresid : ∀ (dict : List (Str × Str)),
      (∀ k v, assocLookup dict k = some v → segOK v) →
      ∀ sc ∈ scenes, containsSub (tokenStr sc.id)
        (replaceAllTokens dict scenes (assembleMarkdown fullText scenes).text) = false := by
    intro dict hdictOK sc hsc
    rw [hmd]
    obtain ⟨parts2, tail2, hrep2, hp2, ht2, hids2⟩ :=
      replaceAll_clean dict hdictOK scenes parts tail hpOK htOK hrange7
    have hnil : parts2 = [] := by
      have h0 : parts2.map Prod.snd = [] := by
        rw [hids2, List.filter_eq_nil]
        intro a ha
        rw [hpids, List.mem_map] at ha
        obtain ⟨sc', hsc', rfl⟩ := ha
        have hmemsc : sc' ∈ scenes := (mem_validScenesOf hsc').1
        have hcont : (scenes.map Scene.id).contains sc'.id = true :=
          contains_of_mem (List.mem_map_of_mem _ hmemsc)
        simp only [hcont, Bool.not_true]
        exact Bool.false_ne_true
      exact List.map_eq_nil.mp h0
    rw [hrep2, hnil, buildDoc]
    exact containsSub_token_of_marker_free (hrange7 sc hsc).2 (hrange7 sc hsc).1 ht2.1
  refine ⟨_, hdoc, ?_, ?_, ?_, ?_⟩
  · intro sc hsc hnp
    have h := hcount sc hsc
    have hb : (sc.status == SceneStatus.pending) = false := by
      simpa using hnp
    rw [hb] at h
    simpa using h
  · intro sc hsc hp
    have h := hcount sc hsc
    have hb : (sc.status == SceneStatus.pending) = true := by
      simpa using hp
    rw [hb] at h
    simpa using h
  · exact hresid _ (hdict _ hIfrag)
  · exact hresid _ (hdict _ hCfrag)

def c1wText : Str :=
  "Once upon a time there was a story about a quiet castle far away.".data

def c1wScenes : List Scene :=
  [⟨1, [], [], [], [], none, SceneStatus.completed⟩,
   ⟨2, "story".data, [], [], [], none, SceneStatus.pending⟩]

theorem assembleDocument_tokens_witness :
    ∃ out, assembleDocument (fun s => s) c1wText c1wScenes = some out ∧
      (∀ sc ∈ c1wScenes, sc.status ≠ SceneStatus.pending →
          countOcc (tokenStr sc.id) out.result.markdownWithImages = 1) ∧
      (∀ sc ∈ c1wScenes, sc.status = SceneStatus.pending →
          countOcc (tokenStr sc.id) out.result.markdownWithImages = 0) ∧
      (∀ sc ∈ c1wScenes, containsSub (tokenStr sc.id) out.result.htmlContent = false) ∧
      (∀ sc ∈ c1wScenes, containsSub (tokenStr sc.id) out.result.cleanHtmlContent = false) :=
  assembleDocument_tokens c1wText c1wScenes (by decide) (by decide) (by decide)
    (by decide) (by decide) (by decide)
    (fun sc hsc u hu => by
      rcases List.mem_cons.mp hsc with rfl | hsc2
      · exact Option.noConfusion hu
      · rcases List.mem_cons.mp hsc2 with rfl | hsc3
        · exact Option.noConfusion hu
        · exact absurd hsc3 (by simp))

def c1sceneA : Scene := ⟨1, [], [], [], [], some "u".data, SceneStatus.completed⟩

def c1sceneB : Scene :=
  ⟨2, "ab".data, [], [], [], some "x<!--IMAGE_SCENE_1-->".data, SceneStatus.completed⟩

/-- C1 counterexample: without any restriction on the image URLs the
original claim fails.  Scene 2's `imageUrl` holds the literal text
`<!--IMAGE_SCENE_1-->`; the substitution loop replaces token 1 first and
token 2 afterwards, so the fragment spliced in for token 2 re-introduces
scene 1's token string, which then remains literally in
`cleanHtmlContent`. -/
theorem assembleDocument_token_residue :
    (assembleDocument (fun s => s) "ab".data [c1sceneA, c1sceneB]).map
        (fun o => containsSub (tokenStr 1) o.result.cleanHtmlContent) = some true :=
  rfl
